import Mathlib

/-!
heurisko: indirect permutation encoding, fitness and 2-opt local search for the TSP

Shallow embedding of `examples/combinatorial/indirect/tsp.h`.

Modelling conventions

* `typedef double encoding;`: a `double` is the rational number it denotes.  The
  arithmetic of the source on doubles (`+`, `-`, `/`, `pow(·, 2)`, `sqrt`) is the exact
  operation followed by `roundDouble`, the rounding to the nearest number with a 53-bit
  significand, ties to even.  The exponent range is not bounded, so infinities, NaN and
  the subnormal loss of precision are outside the model.  Comparisons are exact.
* `tsp::encode` is kept in two forms.  `encode` takes the additions `acc += share`
  exactly; the decoder reads only the order of the written values, and that order is the
  same in `double` arithmetic.  `encodeDouble` is the same loop with rounded operations.
  `localSearch` stores the vector written by `encode`.
* `tourLength` is the cyclic tour length of the specification, an exact sum; the source's
  `calculateFitness` accumulates the same edges in `double` arithmetic.
* `std::vector<T>` is a `List T`.  A read `v[i]` is `v.getD i d` (with `d` the zero of
  the element type) and a write `v[i] = x` is `v.set i x`.  Reads and writes outside the
  vector are undefined behaviour in the source; here a read gives `d` and a write does
  nothing.
* `int` / `size_t` indices and dimensions are natural numbers.  For `dimension = 0` the
  source bound `dimension - 1` wraps around as a `size_t`; here it is the truncated
  subtraction.  The source refuses dimension 0 in `TravellingSalesmanProblem`.
* The global `tsp::distanceMatrix` is passed explicitly as `distanceMatrix`.
* A member function is a function of the members it reads and returns the member it
  writes.
-/

namespace tsp

/-- The source's `typedef double encoding;`: a double is the rational number it
denotes. -/
abbrev encoding := ℚ

/-- The read `distanceMatrix[i][j]` of a `std::vector<std::vector<double>>`. -/
def distAt (distanceMatrix : List (List encoding)) (i j : Nat) : encoding :=
  (distanceMatrix.getD i []).getD j 0

/-- Binary logarithm of a positive natural number, rounded down; the first argument
bounds the number of halvings. -/
def log2Fuel : Nat → Nat → Nat
  | 0, _ => 0
  | fuel + 1, n => if n < 2 then 0 else log2Fuel fuel (n / 2) + 1

/-- The binary exponent of a non-zero rational `x`: the integer `e` with
`2^e ≤ |x| < 2^(e+1)`. -/
def binExp (x : ℚ) : Int :=
  let a : Int := (log2Fuel x.num.natAbs x.num.natAbs : Nat)
  let b : Int := (log2Fuel x.den x.den : Nat)
  if (2 : ℚ) ^ (a - b) ≤ |x| then a - b else a - b - 1

/-- The natural number nearest to `y ≥ 0`, a tie going to the even one. -/
def roundHalfEven (y : ℚ) : Nat :=
  let f := ⌊y⌋₊
  if y - (f : ℚ) < 1 / 2 then f
  else if 1 / 2 < y - (f : ℚ) then f + 1
  else if f % 2 = 0 then f else f + 1

/-- Rounding of a real result to `double`: the nearest number with a 53-bit significand,
ties to even (the default rounding of IEEE 754 binary64).  The exponent range is not
bounded: overflow to infinity and the loss of precision of subnormal numbers are outside
the model. -/
def roundDouble (x : ℚ) : ℚ :=
  if x = 0 then 0
  else
    let quantum : ℚ := (2 : ℚ) ^ (binExp x - 52)
    (SignType.sign x : ℚ) * ((roundHalfEven (|x| / quantum) : ℚ) * quantum)

/-- The `double` sum `a + b`. -/
def addDouble (a b : encoding) : encoding := roundDouble (a + b)

/-- The `double` difference `a - b`. -/
def subDouble (a b : encoding) : encoding := roundDouble (a - b)

/-- The `double` product `a * b`. -/
def mulDouble (a b : encoding) : encoding := roundDouble (a * b)

/-- The `double` quotient `a / b`. -/
def divDouble (a b : encoding) : encoding := roundDouble (a / b)

/-- Digit-by-digit integer square root: with `r² ≤ n < (r + 2^(k+1))²` on entry, the
result is the natural number `m` with `m² ≤ n < (m + 1)²`. -/
def sqrtBits : Nat → Nat → Nat → Nat
  | 0, n, r => if (r + 1) ^ 2 ≤ n then r + 1 else r
  | k + 1, n, r => sqrtBits k n (if (r + 2 ^ (k + 1)) ^ 2 ≤ n then r + 2 ^ (k + 1) else r)

/-- The integer square root of `n`, rounded down. -/
def natSqrt (n : Nat) : Nat := sqrtBits (log2Fuel n n / 2) n 0

/-- The C library's `sqrt` on a `double`: the square root rounded to the nearest double,
ties to even; `m` is the square root in units of the quantum, rounded down, and the
argument is compared with the square of the midpoint `m + 1/2`.  Arguments `≤ 0` give 0
(the source takes roots of sums of squares only). -/
def sqrtDouble (x : encoding) : encoding :=
  if x ≤ 0 then 0
  else
    let quantum : ℚ := (2 : ℚ) ^ (binExp x / 2 - 52)
    let m := natSqrt ⌊x / quantum ^ 2⌋₊
    let mid : ℚ := (((m : ℚ) + 1 / 2) * quantum) ^ 2
    if x < mid then (m : ℚ) * quantum
    else if mid < x then ((m : ℚ) + 1) * quantum
    else if m % 2 = 0 then (m : ℚ) * quantum else ((m : ℚ) + 1) * quantum

/-- The C library's `round` on a `double`: the nearest integer, a half rounded away
from zero. -/
def roundAway (x : encoding) : encoding :=
  if 0 ≤ x then (⌊x + 1 / 2⌋₊ : ℚ) else -(⌊-x + 1 / 2⌋₊ : ℚ)

/-- The source's `tsp::euclideanDistance`: `sqrt(pow(x2 - x1, 2) + pow(y2 - y1, 2))` in
`double` arithmetic; `pow(d, 2)` is the rounded product `d * d`. -/
def euclideanDistance (x1 y1 x2 y2 : encoding) : encoding :=
  sqrtDouble (addDouble (mulDouble (subDouble x2 x1) (subDouble x2 x1))
    (mulDouble (subDouble y2 y1) (subDouble y2 y1)))

/-- The source's `tsp::calculateDistances`: the `dimension × dimension` table whose cell
`(i, j)` is `round(euclideanDistance(…))` of `rawNodes[i]` and `rawNodes[j]`.  The
double loop of the source assigns every cell once; the result is the value of the
global `distanceMatrix`. -/
def calculateDistances (rawNodes : List (encoding × encoding)) (dimension : Nat) :
    List (List encoding) :=
  (List.range dimension).map fun i =>
    (List.range dimension).map fun j =>
      roundAway (euclideanDistance (rawNodes.getD i (0, 0)).1 (rawNodes.getD i (0, 0)).2
        (rawNodes.getD j (0, 0)).1 (rawNodes.getD j (0, 0)).2)

/-- The value `std::nextafter(0.0, 0.1)`: the smallest positive double, `2^(-1074)`. -/
def nextafterZero : encoding := 1 / 2 ^ 1074

/-- One iteration of the loop of `tsp::encode` with the addition taken exactly: the state
is the decision vector and `acc`; the iteration writes `acc` at `index` and adds `share`
to `acc`. -/
def encodeStep (share : encoding) (st : List encoding × encoding) (index : Nat) :
    List encoding × encoding :=
  (st.1.set index st.2, st.2 + share)

/-- The source's `tsp::encode` with exact additions: walks the permutation in rank order
and writes `acc = nextafter(0.0, 0.1) + k * share` at the node of rank `k`.  The second
argument is the decision vector as it is on entry; the result is the vector on exit. -/
def encode (permutation : List Nat) (decisionVariables : List encoding) : List encoding :=
  let dimension := permutation.length
  let share : encoding := 1 / (dimension : ℚ)
  (permutation.foldl (encodeStep share) (decisionVariables, nextafterZero)).1

/-- One iteration of the loop of `tsp::encode` in `double` arithmetic: writes `acc` at
`index`, then `acc += share`. -/
def encodeStepDouble (share : encoding) (st : List encoding × encoding) (index : Nat) :
    List encoding × encoding :=
  (st.1.set index st.2, addDouble st.2 share)

/-- The source's `tsp::encode` in `double` arithmetic: `share = 1.0 / dimension`,
`acc = nextafter(0.0, 0.1)`, and each iteration writes `acc` at `permutation[k]` and adds
`share` to `acc`. -/
def encodeDouble (permutation : List Nat) (decisionVariables : List encoding) :
    List encoding :=
  let dimension := permutation.length
  let share : encoding := divDouble 1 (dimension : ℚ)
  (permutation.foldl (encodeStepDouble share) (decisionVariables, nextafterZero)).1

/-- The comparator of `createPermutation`:
`std::tie(decisionVariables[pos1], pos1) < std::tie(decisionVariables[pos2], pos2)`,
the lexicographic order on the pair (value, index). -/
def tieLt (decisionVariables : List encoding) (pos1 pos2 : Nat) : Prop :=
  decisionVariables.getD pos1 0 < decisionVariables.getD pos2 0 ∨
    (¬ decisionVariables.getD pos2 0 < decisionVariables.getD pos1 0 ∧ pos1 < pos2)

instance tieLtDecidable (decisionVariables : List encoding) :
    DecidableRel (tieLt decisionVariables) := fun _ _ => by
  unfold tieLt
  infer_instance

/-- The order in which `std::sort` with comparator `tieLt` leaves two elements: `pos1`
may stand before `pos2` when `pos2` is not less than `pos1`. -/
def tieLe (decisionVariables : List encoding) (pos1 pos2 : Nat) : Prop :=
  ¬ tieLt decisionVariables pos2 pos1

instance tieLeDecidable (decisionVariables : List encoding) :
    DecidableRel (tieLe decisionVariables) := fun _ _ => by
  unfold tieLe
  infer_instance

/-- The source's `TSPSolution::createPermutation`: `std::iota` fills `0, …, dimension-1`
and `std::sort` orders the indices with the comparator `tieLt`.  The comparator is a
strict total order on distinct indices, so every correct sort returns the same sequence;
insertion sort stands for `std::sort`.  The result is the member `permutation`. -/
def createPermutation (dimension : Nat) (decisionVariables : List encoding) : List Nat :=
  (List.range dimension).insertionSort (tieLe decisionVariables)

/-- The source's `TSPSolution::calculateFitness`: the loop adds
`distanceMatrix[permutation[i]][permutation[i + 1]]` for `i < dimension - 1` to the
`double` member `fitness`, then the edge from the last node to the first is added.  The
result is the member `fitness`. -/
def calculateFitness (distanceMatrix : List (List encoding)) (dimension : Nat)
    (permutation : List Nat) : encoding :=
  let fitness := (List.range (dimension - 1)).foldl
    (fun fitness i =>
      addDouble fitness
        (distAt distanceMatrix (permutation.getD i 0) (permutation.getD (i + 1) 0))) 0
  addDouble fitness
    (distAt distanceMatrix (permutation.getD (dimension - 1) 0) (permutation.getD 0 0))

/-- The cyclic tour length of the specification: the exact sum of
`distanceMatrix[permutation[i]][permutation[i + 1]]` for `i < dimension - 1` and of the
closing edge `distanceMatrix[permutation[dimension - 1]][permutation[0]]`. -/
def tourLength (distanceMatrix : List (List encoding)) (dimension : Nat)
    (permutation : List Nat) : encoding :=
  let length := (List.range (dimension - 1)).foldl
    (fun length i =>
      length + distAt distanceMatrix (permutation.getD i 0) (permutation.getD (i + 1) 0)) 0
  length + distAt distanceMatrix (permutation.getD (dimension - 1) 0) (permutation.getD 0 0)

end tsp

/-- The state of a `TSPSolution`: `decisionVariables` and `fitness` are the members of
the base class `Solution<encoding>`, `dimension` and `permutation` those of the class. -/
structure TSPSolution where
  decisionVariables : List tsp.encoding
  fitness : tsp.encoding
  dimension : Nat
  permutation : List Nat
deriving DecidableEq

namespace TSPSolution

/-- The constructor `TSPSolution(dimension, decVar)`: stores the decision vector, decodes
it with `createPermutation` and evaluates it with `calculateFitness`. -/
def new (distanceMatrix : List (List tsp.encoding)) (dimension : Nat)
    (decVar : List tsp.encoding) : TSPSolution :=
  let permutation := tsp.createPermutation dimension decVar
  { decisionVariables := decVar
    fitness := tsp.calculateFitness distanceMatrix dimension permutation
    dimension := dimension
    permutation := permutation }

/-- The source's `getPermutation`. -/
def getPermutation (s : TSPSolution) : List Nat := s.permutation

/-- One iteration of the middle loop of `twoOptSwap`: the state is `newPermutation` and
`counter`; the iteration copies `permutation[i]` to position `counter` and advances
`counter`. -/
def reverseStep (permutation : List Nat) (st : List Nat × Nat) (i : Nat) : List Nat × Nat :=
  (st.1.set st.2 (permutation.getD i 0), st.2 + 1)

/-- The source's `twoOptSwap(start, end, newPermutation)`: a fresh vector of `dimension`
zeros receives `permutation[i]` for `i < start`, then `permutation[end], …,
permutation[start]` from position `start` on, then `permutation[i]` for
`end < i < permutation.size()`.  The result is `newPermutation`. -/
def twoOptSwap (dimension : Nat) (permutation : List Nat) (start finish : Nat) : List Nat :=
  let newPermutation := List.replicate dimension 0
  let newPermutation := (List.range start).foldl
    (fun np i => np.set i (permutation.getD i 0)) newPermutation
  let st := ((List.range' start (finish + 1 - start)).reverse).foldl
    (reverseStep permutation) (newPermutation, start)
  (List.range' (finish + 1) (permutation.length - (finish + 1))).foldl
    (fun np i => np.set i (permutation.getD i 0)) st.1

/-- The variables of `localSearch` that live across the iterations of the sweep. -/
structure SweepState where
  newDecisionVariables : List tsp.encoding
  bestDecisionVariables : List tsp.encoding
  bestNeighbor : Option TSPSolution

/-- The body of the inner loop of `localSearch` for the pair `(i, j)`: build the
neighbor by `twoOptSwap`, encode it into `newDecisionVariables`, construct the neighbor
solution and keep it when there is no best neighbor yet or the best one has a strictly
greater fitness. -/
def sweepStep (distanceMatrix : List (List tsp.encoding)) (s : TSPSolution)
    (st : SweepState) (i j : Nat) : SweepState :=
  let newPermutation := twoOptSwap s.dimension s.permutation i j
  let newDecisionVariables := tsp.encode newPermutation st.newDecisionVariables
  let neighbor := TSPSolution.new distanceMatrix s.dimension newDecisionVariables
  match st.bestNeighbor with
  | none =>
    { newDecisionVariables := newDecisionVariables
      bestDecisionVariables := newDecisionVariables
      bestNeighbor := some neighbor }
  | some bestNeighbor =>
    if bestNeighbor.fitness > neighbor.fitness then
      { newDecisionVariables := newDecisionVariables
        bestDecisionVariables := newDecisionVariables
        bestNeighbor := some neighbor }
    else
      { st with newDecisionVariables := newDecisionVariables }

/-- The two nested `for` loops of `localSearch`: `i` runs over `[0, dimension - 1)` and
`j` over `[i + 1, dimension)`. -/
def sweep (distanceMatrix : List (List tsp.encoding)) (s : TSPSolution) : SweepState :=
  (List.range (s.dimension - 1)).foldl
    (fun st i =>
      (List.range' (i + 1) (s.dimension - (i + 1))).foldl
        (fun st j => sweepStep distanceMatrix s st i j) st)
    { newDecisionVariables := List.replicate s.dimension 0
      bestDecisionVariables := []
      bestNeighbor := none }

/-- The source's `localSearch()`.  Both branches after the sweep end in `break`, so the
body of `while (true)` runs exactly once: one sweep, then the solution is replaced by the
solution rebuilt from `bestDecisionVariables` when the best neighbor has a strictly lower
fitness, and is left as it is otherwise. -/
def localSearch (distanceMatrix : List (List tsp.encoding)) (s : TSPSolution) : TSPSolution :=
  let st := sweep distanceMatrix s
  match st.bestNeighbor with
  | none => s
  | some bestNeighbor =>
    if bestNeighbor.fitness < s.fitness then
      let best := TSPSolution.new distanceMatrix s.dimension st.bestDecisionVariables
      { s with
        fitness := best.fitness
        permutation := best.permutation
        decisionVariables := best.decisionVariables }
    else s

/-- The best neighbor kept by the sweep is the solution that the constructor builds from
the kept decision vector. -/
def SweepInv (D : List (List tsp.encoding)) (s : TSPSolution) (st : SweepState) : Prop :=
  ∀ b, st.bestNeighbor = some b → b = TSPSolution.new D s.dimension st.bestDecisionVariables

end TSPSolution

namespace tsp

/-- The nodes of the square scenario: `(0,0), (0,2), (2,2), (2,0)`. -/
def squareNodes : List (encoding × encoding) := [(0, 0), (0, 2), (2, 2), (2, 0)]

/-- The corners of a 4 × 3 rectangle and one inner node:
`(0,0), (0,3), (4,3), (4,0), (2,1)`. -/
def rectangleNodes : List (encoding × encoding) := [(0, 0), (0, 3), (4, 3), (4, 0), (2, 1)]

/-- Three nodes on a line, the last one far away: `(0,0), (1,0), (2^52 + 1, 0)`. -/
def lineNodes : List (encoding × encoding) := [(0, 0), (1, 0), (2 ^ 52 + 1, 0)]

/-- Four nodes on a line: `(0,0), (1,0), (2^53, 0), (2^53 + 2, 0)`. -/
def longLineNodes : List (encoding × encoding) :=
  [(0, 0), (1, 0), (2 ^ 53, 0), (2 ^ 53 + 2, 0)]

end tsp

namespace tsp

/-- The value `nextafter(1.0, 0.0)`: the largest double below 1, `1 - 2^(-53)`. -/
def nextafterOne : encoding := 1 - 1 / 2 ^ 53

end tsp

/-- The state of a `TravellingSalesmanProblem` after construction: `dimension`, `lb` and
`ub` are the members of the base class `Problem<encoding>` that the constructor assigns,
`distanceMatrix` is the global `tsp::distanceMatrix` that it fills. -/
structure TravellingSalesmanProblem where
  dimension : Nat
  lb : List tsp.encoding
  ub : List tsp.encoding
  distanceMatrix : List (List tsp.encoding)
deriving DecidableEq

/-- How a run of the constructor of `TravellingSalesmanProblem` ends: the process has
left through `exit(status)` after a message on `std::cerr`, or the object is built. -/
inductive Construction where
  | exited (status : Nat) (cerr : String)
  | built (problem : TravellingSalesmanProblem)
deriving DecidableEq

namespace TravellingSalesmanProblem

/-- One iteration of the bounds loop of the constructor: `lb[i] = 0` and
`ub[i] = nextafter(1.0, 0.0)`. -/
def boundsStep (st : List tsp.encoding × List tsp.encoding) (i : Nat) :
    List tsp.encoding × List tsp.encoding :=
  (st.1.set i 0, st.2.set i tsp.nextafterOne)

/-- The constructor `TravellingSalesmanProblem(dimension, rawNodes, strategy, repType)`:
dimension 0 writes the message and calls `exit(1)`; otherwise `lb` and `ub` are vectors
of `dimension` entries filled by the bounds loop and `calculateDistances` builds the
distance matrix.  The arguments `strategy` and `repType` are only handed to the base
class. -/
def new (dimension : Nat) (rawNodes : List (tsp.encoding × tsp.encoding)) : Construction :=
  if dimension = 0 then
    Construction.exited 1 "Zero nodes were given as input\n"
  else
    let lb : List tsp.encoding := List.replicate dimension 0
    let ub : List tsp.encoding := List.replicate dimension 0
    let bounds := (List.range dimension).foldl boundsStep (lb, ub)
    Construction.built
      { dimension := dimension
        lb := bounds.1
        ub := bounds.2
        distanceMatrix := tsp.calculateDistances rawNodes dimension }

end TravellingSalesmanProblem

namespace TSPSolution

/-- The pairs `(i, j)` in the order in which the nested loops of `localSearch` visit
them: `i` ascending in `[0, dimension - 1)`, then `j` ascending in `[i + 1, dimension)`. -/
def sweepPairs (dimension : Nat) : List (Nat × Nat) :=
  (List.range (dimension - 1)).flatMap fun i =>
    (List.range' (i + 1) (dimension - (i + 1))).map fun j => (i, j)

/-- The neighbor solution of the pair `(i, j)`: the solution constructed from the
encoding of `twoOptSwap(i, j)` of the permutation `p`. -/
def neighbor (D : List (List tsp.encoding)) (n : Nat) (p : List Nat) (ij : Nat × Nat) :
    TSPSolution :=
  TSPSolution.new D n (tsp.encode (twoOptSwap n p ij.1 ij.2) (List.replicate n 0))

/-- What the sweep holds after the pairs `visited`: no best neighbor when no pair was
visited; otherwise the neighbor of a visited pair `c`, with its decision vector, whose
fitness is strictly below that of every pair visited before `c` and not above that of
any pair visited after `c`. -/
def SweepBest (D : List (List tsp.encoding)) (n : Nat) (p : List Nat)
    (visited : List (Nat × Nat)) (st : SweepState) : Prop :=
  st.newDecisionVariables.length = n ∧
    ((visited = [] ∧ st.bestNeighbor = none) ∨
      ∃ pre c post, visited = pre ++ c :: post ∧
        st.bestNeighbor = some (neighbor D n p c) ∧
        st.bestDecisionVariables = (neighbor D n p c).decisionVariables ∧
        (∀ y ∈ pre, (neighbor D n p c).fitness < (neighbor D n p y).fitness) ∧
        (∀ y ∈ post, (neighbor D n p c).fitness ≤ (neighbor D n p y).fitness))

end TSPSolution

/-! ## Writes to a vector in a loop -/

namespace TSPSolution

theorem foldl_set_length {α : Type} (f : Nat → α) (is : List Nat) (l : List α) :
    (is.foldl (fun np i => np.set i (f i)) l).length = l.length := by
  induction is generalizing l with
  | nil => rfl
  | cons i is ih => simp [ih]

theorem foldl_set_getElem? {α : Type} (f : Nat → α) (is : List Nat) (l : List α) (k : Nat) :
    (is.foldl (fun np i => np.set i (f i)) l)[k]? =
      if k ∈ is ∧ k < l.length then some (f k) else l[k]? := by
  induction is generalizing l with
  | nil => simp
  | cons i is ih =>
    rw [List.foldl_cons, ih]
    simp only [List.length_set, List.mem_cons]
    by_cases h1 : k ∈ is ∧ k < l.length
    · rw [if_pos h1, if_pos ⟨Or.inr h1.1, h1.2⟩]
    · rw [if_neg h1]
      by_cases h2 : k = i
      · subst h2
        by_cases h3 : k < l.length
        · rw [if_pos ⟨Or.inl rfl, h3⟩]
          simp [List.getElem?_set, h3]
        · rw [if_neg (fun h => h3 h.2)]
          rw [List.getElem?_eq_none (by simp; omega), List.getElem?_eq_none (by omega)]
      · have h4 : ¬ ((k = i ∨ k ∈ is) ∧ k < l.length) := by
          rintro ⟨h | h, h5⟩
          · exact h2 h
          · exact h1 ⟨h, h5⟩
        rw [if_neg h4, List.getElem?_set_ne (Ne.symm h2)]

theorem reverseStep_foldl_snd (p : List Nat) (is : List Nat) (np : List Nat) (c : Nat) :
    (is.foldl (reverseStep p) (np, c)).2 = c + is.length := by
  induction is generalizing np c with
  | nil => rfl
  | cons i is ih =>
    rw [List.foldl_cons]
    simp only [reverseStep]
    rw [ih]
    simp
    omega

theorem reverseStep_foldl_length (p : List Nat) (is : List Nat) (np : List Nat) (c : Nat) :
    (is.foldl (reverseStep p) (np, c)).1.length = np.length := by
  induction is generalizing np c with
  | nil => rfl
  | cons i is ih =>
    rw [List.foldl_cons]
    simp only [reverseStep]
    rw [ih]
    simp

theorem reverseStep_foldl_getElem? (p : List Nat) (is : List Nat) (np : List Nat) (c k : Nat) :
    (is.foldl (reverseStep p) (np, c)).1[k]? =
      if c ≤ k ∧ k < c + is.length ∧ k < np.length then some (p.getD (is.getD (k - c) 0) 0)
      else np[k]? := by
  induction is generalizing np c with
  | nil =>
    have : ¬ (c ≤ k ∧ k < c + ([] : List Nat).length ∧ k < np.length) := by
      simp only [List.length_nil]; omega
    rw [if_neg this]; rfl
  | cons i is ih =>
    rw [List.foldl_cons]
    simp only [reverseStep]
    rw [ih]
    simp only [List.length_set, List.length_cons]
    by_cases hk : k = c
    · subst hk
      have h1 : ¬ (k + 1 ≤ k ∧ k < k + 1 + is.length ∧ k < np.length) := by omega
      rw [if_neg h1]
      by_cases h3 : k < np.length
      · rw [if_pos ⟨le_refl _, by omega, h3⟩]
        simp [List.getElem?_set, h3]
      · rw [if_neg (fun h => h3 h.2.2)]
        rw [List.getElem?_eq_none (by simp; omega), List.getElem?_eq_none (by omega)]
    · by_cases h2 : c + 1 ≤ k ∧ k < c + 1 + is.length ∧ k < np.length
      · rw [if_pos h2, if_pos ⟨by omega, by omega, h2.2.2⟩]
        have : k - c = (k - (c + 1)) + 1 := by omega
        rw [this, List.getD_cons_succ]
      · rw [if_neg h2, if_neg (by omega), List.getElem?_set_ne (Ne.symm hk)]

end TSPSolution

/-! ## `twoOptSwap` reverses the segment `[start, end]` -/

namespace TSPSolution

theorem twoOptSwap_length (n : Nat) (p : List Nat) (start finish : Nat) :
    (twoOptSwap n p start finish).length = n := by
  unfold twoOptSwap
  simp only []
  rw [foldl_set_length, reverseStep_foldl_length, foldl_set_length, List.length_replicate]

theorem reverse_range'_getD (start m t : Nat) (ht : t < m) :
    ((List.range' start m).reverse).getD t 0 = start + (m - 1 - t) := by
  rw [List.getD_eq_getElem?_getD, List.getElem?_reverse (by simpa using ht)]
  simp only [List.length_range']
  have h : (List.range' start m)[m - 1 - t]? = some (start + (m - 1 - t)) := by
    rw [List.getElem?_eq_getElem (by simp; omega)]
    simp
  rw [h]
  rfl

theorem getD_eq_of_lt (p : List Nat) (i : Nat) (h : i < p.length) :
    some (p.getD i 0) = p[i]? := by
  rw [List.getD_eq_getElem?_getD, List.getElem?_eq_getElem h]
  rfl

theorem twoOptSwap_getElem? (n : Nat) (p : List Nat) (start finish k : Nat)
    (hp : p.length = n) (h1 : start ≤ finish) (h2 : finish < n) :
    (twoOptSwap n p start finish)[k]? =
      if k < start then p[k]? else if k ≤ finish then p[start + finish - k]? else p[k]? := by
  unfold twoOptSwap
  simp only []
  rw [foldl_set_getElem?, reverseStep_foldl_length, foldl_set_length, List.length_replicate,
    reverseStep_foldl_getElem?, foldl_set_length, List.length_replicate, foldl_set_getElem?,
    List.length_replicate, List.length_reverse, List.length_range']
  simp only [List.mem_range'_1, List.mem_range]
  by_cases c1 : k < start
  · rw [if_pos c1, if_neg (by omega), if_neg (by omega), if_pos ⟨c1, by omega⟩]
    exact getD_eq_of_lt p k (by omega)
  · rw [if_neg c1]
    by_cases c2 : k ≤ finish
    · rw [if_pos c2, if_neg (by omega), if_pos ⟨by omega, by omega, by omega⟩,
        reverse_range'_getD _ _ _ (by omega)]
      have : start + (finish + 1 - start - 1 - (k - start)) = start + finish - k := by omega
      rw [this]
      exact getD_eq_of_lt p _ (by omega)
    · rw [if_neg c2]
      by_cases c3 : k < n
      · rw [if_pos ⟨⟨by omega, by omega⟩, c3⟩]
        exact getD_eq_of_lt p k (by omega)
      · rw [if_neg (fun h => c3 h.2), if_neg (by omega), if_neg (by omega)]
        rw [List.getElem?_eq_none (by simp; omega), List.getElem?_eq_none (by omega)]

end TSPSolution

/-! ## The decoder sorts by the pair (value, index) -/

namespace tsp

theorem tieLe_iff (v : List encoding) (a b : Nat) :
    tieLe v a b ↔ v.getD a 0 < v.getD b 0 ∨ (v.getD a 0 = v.getD b 0 ∧ a ≤ b) := by
  unfold tieLe tieLt
  rw [not_or, not_and]
  constructor
  · rintro ⟨h1, h2⟩
    rcases lt_or_eq_of_le (not_lt.mp h1) with h3 | h3
    · exact Or.inl h3
    · exact Or.inr ⟨h3, Nat.le_of_not_lt (h2 (by rw [h3]; exact lt_irrefl _))⟩
  · rintro (h | ⟨h1, h2⟩)
    · exact ⟨not_lt_of_lt h, fun h3 => absurd h h3⟩
    · exact ⟨by rw [h1]; exact lt_irrefl _, fun _ => Nat.not_lt.mpr h2⟩

instance tieLe_total (v : List encoding) : IsTotal Nat (tieLe v) where
  total a b := by
    rw [tieLe_iff, tieLe_iff]
    rcases lt_trichotomy (v.getD a 0) (v.getD b 0) with h | h | h
    · exact Or.inl (Or.inl h)
    · rcases Nat.le_total a b with h1 | h1
      · exact Or.inl (Or.inr ⟨h, h1⟩)
      · exact Or.inr (Or.inr ⟨h.symm, h1⟩)
    · exact Or.inr (Or.inl h)

instance tieLe_trans (v : List encoding) : IsTrans Nat (tieLe v) where
  trans a b c := by
    rw [tieLe_iff, tieLe_iff, tieLe_iff]
    rintro (h1 | ⟨h1, h2⟩) (h3 | ⟨h3, h4⟩)
    · exact Or.inl (lt_trans h1 h3)
    · exact Or.inl (h3 ▸ h1)
    · exact Or.inl (h1 ▸ h3)
    · exact Or.inr ⟨h1.trans h3, le_trans h2 h4⟩

instance tieLe_antisymm (v : List encoding) : IsAntisymm Nat (tieLe v) where
  antisymm a b := by
    rw [tieLe_iff, tieLe_iff]
    rintro (h1 | ⟨h1, h2⟩) (h3 | ⟨h3, h4⟩)
    · exact absurd h1 (not_lt_of_lt h3)
    · exact absurd h1 (by rw [h3]; exact lt_irrefl _)
    · exact absurd h3 (by rw [h1]; exact lt_irrefl _)
    · exact Nat.le_antisymm h2 h4

theorem createPermutation_perm (n : Nat) (v : List encoding) :
    (createPermutation n v).Perm (List.range n) :=
  List.perm_insertionSort _ _

theorem createPermutation_sorted (n : Nat) (v : List encoding) :
    (createPermutation n v).Sorted (tieLe v) :=
  List.sorted_insertionSort _ _

theorem createPermutation_nodup (n : Nat) (v : List encoding) :
    (createPermutation n v).Nodup :=
  (createPermutation_perm n v).nodup_iff.mpr (List.nodup_range n)

theorem createPermutation_length (n : Nat) (v : List encoding) :
    (createPermutation n v).length = n := by
  rw [(createPermutation_perm n v).length_eq, List.length_range]

/-- A sequence that is a rearrangement of `0, …, n-1` and is in the order of the
comparator is the one the decoder returns. -/
theorem createPermutation_unique (n : Nat) (v : List encoding) (p : List Nat)
    (hp : p.Perm (List.range n)) (hs : p.Sorted (tieLe v)) :
    createPermutation n v = p :=
  List.eq_of_perm_of_sorted ((createPermutation_perm n v).trans hp.symm)
    (createPermutation_sorted n v) hs

end tsp

namespace tsp

/-- Two positions `a < b` of the decoded sequence hold indices in strict comparator
order. -/
theorem createPermutation_tieLt (n : Nat) (v : List encoding) (a b : Nat)
    (hab : a < b) (hb : b < n) :
    tieLt v ((createPermutation n v).getD a 0) ((createPermutation n v).getD b 0) := by
  have hlen := createPermutation_length n v
  have ha1 : a < (createPermutation n v).length := by omega
  have hb1 : b < (createPermutation n v).length := by omega
  have hs := List.pairwise_iff_getElem.mp (createPermutation_sorted n v) a b ha1 hb1 hab
  have hne : (createPermutation n v)[a] ≠ (createPermutation n v)[b] := by
    intro h
    have := ((createPermutation_nodup n v).getElem_inj_iff).mp h
    omega
  rw [List.getD_eq_getElem _ 0 ha1, List.getD_eq_getElem _ 0 hb1]
  generalize (createPermutation n v)[a] = x at hs hne
  generalize (createPermutation n v)[b] = y at hs hne
  rw [tieLe_iff] at hs
  unfold tieLt
  rcases hs with h | ⟨h1, h2⟩
  · exact Or.inl h
  · exact Or.inr ⟨by rw [h1]; exact lt_irrefl _, lt_of_le_of_ne h2 hne⟩

/-- C2: for a decision vector `v` of length `n` the decoded permutation lists the indices
in ascending order of the pair (value, index): at positions `a < b` the pair of `perm[a]`
is lexicographically strictly below the pair of `perm[b]`, so equal values come in
ascending index order; and `[0.5, 0.5, 0.1]` decodes to `[2, 0, 1]`. -/
theorem createPermutation_lex_order (n : Nat) (v : List encoding) (a b : Nat)
    (_hv : v.length = n) (hab : a < b) (hb : b < n) :
    toLex (v.getD ((createPermutation n v).getD a 0) 0, (createPermutation n v).getD a 0) <
        toLex (v.getD ((createPermutation n v).getD b 0) 0, (createPermutation n v).getD b 0) ∧
      (v.getD ((createPermutation n v).getD a 0) 0 = v.getD ((createPermutation n v).getD b 0) 0 →
        (createPermutation n v).getD a 0 < (createPermutation n v).getD b 0) ∧
      createPermutation 3 [1 / 2, 1 / 2, 1 / 10] = [2, 0, 1] := by
  have h := createPermutation_tieLt n v a b hab hb
  unfold tieLt at h
  refine ⟨?_, ?_, ?_⟩
  · rw [Prod.Lex.lt_iff]
    rcases h with h | ⟨h1, h2⟩
    · exact Or.inl h
    · rcases lt_or_eq_of_le (not_lt.mp h1) with h3 | h3
      · exact Or.inl h3
      · exact Or.inr ⟨h3, h2⟩
  · intro heq
    rcases h with h | ⟨_, h2⟩
    · rw [heq] at h
      exact absurd h (lt_irrefl _)
    · exact h2
  · decide!

theorem createPermutation_lex_order_witness :
    ([1 / 2, 1 / 2, 1 / 10] : List encoding).length = 3 ∧ 1 < 2 ∧ 2 < 3 ∧
      (toLex (([1 / 2, 1 / 2, 1 / 10] : List encoding).getD
            ((createPermutation 3 [1 / 2, 1 / 2, 1 / 10]).getD 1 0) 0,
          (createPermutation 3 [1 / 2, 1 / 2, 1 / 10]).getD 1 0) <
        toLex (([1 / 2, 1 / 2, 1 / 10] : List encoding).getD
            ((createPermutation 3 [1 / 2, 1 / 2, 1 / 10]).getD 2 0) 0,
          (createPermutation 3 [1 / 2, 1 / 2, 1 / 10]).getD 2 0) ∧
      (([1 / 2, 1 / 2, 1 / 10] : List encoding).getD
            ((createPermutation 3 [1 / 2, 1 / 2, 1 / 10]).getD 1 0) 0 =
          ([1 / 2, 1 / 2, 1 / 10] : List encoding).getD
            ((createPermutation 3 [1 / 2, 1 / 2, 1 / 10]).getD 2 0) 0 →
        (createPermutation 3 [1 / 2, 1 / 2, 1 / 10]).getD 1 0 <
          (createPermutation 3 [1 / 2, 1 / 2, 1 / 10]).getD 2 0) ∧
      createPermutation 3 [1 / 2, 1 / 2, 1 / 10] = [2, 0, 1]) :=
  ⟨rfl, by decide, by decide,
    createPermutation_lex_order 3 [1 / 2, 1 / 2, 1 / 10] 1 2 rfl (by decide) (by decide)⟩

end tsp

namespace TSPSolution

/-- C3: for a decision vector of length `n`, the permutation of the constructed solution
has length `n`, holds only indices below `n`, and every index of `[0, n)` occurs in it
exactly once. -/
theorem getPermutation_bijection (distanceMatrix : List (List tsp.encoding)) (n : Nat)
    (decVar : List tsp.encoding) (_hv : decVar.length = n) :
    (TSPSolution.new distanceMatrix n decVar).getPermutation.length = n ∧
      (∀ x ∈ (TSPSolution.new distanceMatrix n decVar).getPermutation, x < n) ∧
      (∀ i, i < n → (TSPSolution.new distanceMatrix n decVar).getPermutation.count i = 1) := by
  have hperm := tsp.createPermutation_perm n decVar
  refine ⟨tsp.createPermutation_length n decVar, ?_, ?_⟩
  · intro x hx
    exact List.mem_range.mp (hperm.mem_iff.mp hx)
  · intro i hi
    show (tsp.createPermutation n decVar).count i = 1
    rw [hperm.count_eq]
    exact List.count_eq_one_of_mem (List.nodup_range n) (List.mem_range.mpr hi)

theorem getPermutation_bijection_witness :
    ([1 / 2, 1 / 2, 1 / 10] : List tsp.encoding).length = 3 ∧
      ((TSPSolution.new [] 3 [1 / 2, 1 / 2, 1 / 10]).getPermutation.length = 3 ∧
      (∀ x ∈ (TSPSolution.new [] 3 [1 / 2, 1 / 2, 1 / 10]).getPermutation, x < 3) ∧
      (∀ i, i < 3 → (TSPSolution.new [] 3 [1 / 2, 1 / 2, 1 / 10]).getPermutation.count i = 1)) :=
  ⟨rfl, getPermutation_bijection [] 3 [1 / 2, 1 / 2, 1 / 10] rfl⟩

end TSPSolution

/-! ## The encoder writes strictly increasing values in rank order -/

namespace tsp

theorem encodeStep_foldl_length (share : encoding) (p : List Nat) (l : List encoding)
    (a : encoding) : (p.foldl (encodeStep share) (l, a)).1.length = l.length := by
  induction p generalizing l a with
  | nil => rfl
  | cons i is ih =>
    rw [List.foldl_cons]
    simp only [encodeStep]
    rw [ih, List.length_set]

/-- A position that the walked sequence does not name keeps its value. -/
theorem encodeStep_foldl_getD_of_not_mem (share : encoding) (p : List Nat) (l : List encoding)
    (a : encoding) (k : Nat) (hk : k ∉ p) :
    (p.foldl (encodeStep share) (l, a)).1.getD k 0 = l.getD k 0 := by
  induction p generalizing l a with
  | nil => rfl
  | cons i is ih =>
    rw [List.foldl_cons]
    simp only [encodeStep]
    rw [ih _ _ (fun h => hk (List.mem_cons_of_mem _ h))]
    have hne : i ≠ k := fun h => hk (h ▸ List.mem_cons_self _ _)
    rw [List.getD_eq_getElem?_getD, List.getD_eq_getElem?_getD, List.getElem?_set_ne hne]

/-- Walking a duplicate-free sequence of in-range indices with a positive `share` leaves
values that increase strictly along the sequence, none below the starting `acc`. -/
theorem encodeStep_foldl_increasing (share : encoding) (hshare : 0 < share) (p : List Nat)
    (l : List encoding) (a : encoding) (hnd : p.Nodup) (hlt : ∀ x ∈ p, x < l.length) :
    p.Pairwise (fun x y =>
        (p.foldl (encodeStep share) (l, a)).1.getD x 0 <
          (p.foldl (encodeStep share) (l, a)).1.getD y 0) ∧
      ∀ x ∈ p, a ≤ (p.foldl (encodeStep share) (l, a)).1.getD x 0 := by
  induction p generalizing l a with
  | nil => exact ⟨List.Pairwise.nil, fun x hx => absurd hx (List.not_mem_nil x)⟩
  | cons i is ih =>
    rw [List.nodup_cons] at hnd
    have hi : i < l.length := hlt i (List.mem_cons_self _ _)
    have hrec := ih (l.set i a) (a + share) hnd.2
      (fun x hx => by rw [List.length_set]; exact hlt x (List.mem_cons_of_mem _ hx))
    have hval : ((i :: is).foldl (encodeStep share) (l, a)).1.getD i 0 = a := by
      rw [List.foldl_cons]
      simp only [encodeStep]
      rw [encodeStep_foldl_getD_of_not_mem _ _ _ _ _ hnd.1, List.getD_eq_getElem?_getD,
        List.getElem?_set_self hi]
      rfl
    have hfold : (i :: is).foldl (encodeStep share) (l, a) =
        is.foldl (encodeStep share) (l.set i a, a + share) := rfl
    refine ⟨List.Pairwise.cons ?_ ?_, ?_⟩
    · intro y hy
      rw [hval, hfold]
      have := hrec.2 y hy
      linarith
    · rw [hfold]
      exact hrec.1
    · intro x hx
      rcases List.mem_cons.mp hx with h | h
      · rw [h, hval]
      · rw [hfold]
        have := hrec.2 x h
        linarith

/-- The encoding of a rearrangement `p` of `0, …, n-1` puts `p` in comparator order. -/
theorem encode_sorted (n : Nat) (p : List Nat) (dv : List encoding) (hn : 1 ≤ n)
    (hp : p.Perm (List.range n)) (hdv : dv.length = n) :
    p.Sorted (tieLe (encode p dv)) := by
  have hlen : p.length = n := by rw [hp.length_eq, List.length_range]
  have hshare : (0 : encoding) < 1 / (p.length : ℚ) := by
    rw [hlen]
    have : (0 : ℚ) < (n : ℚ) := by exact_mod_cast hn
    positivity
  have h := (encodeStep_foldl_increasing _ hshare p dv nextafterZero
    (hp.nodup_iff.mpr (List.nodup_range n))
    (fun x hx => by rw [hdv]; exact List.mem_range.mp (hp.mem_iff.mp hx))).1
  unfold List.Sorted
  refine h.imp ?_
  intro a b hab
  rw [tieLe_iff]
  exact Or.inl hab

end tsp

namespace TSPSolution

end TSPSolution

namespace TSPSolution

/-- C9: for a sequence `p` of length `n` and `0 ≤ start ≤ end < n`, `twoOptSwap` returns a
sequence `q` of length `n` that agrees with `p` at every position before `start` and at
every position after `end`, and has `q[start + t] = p[end - t]` for `0 ≤ t ≤ end - start`. -/
theorem twoOptSwap_frame (n : Nat) (p : List Nat) (start finish : Nat)
    (hp : p.length = n) (h1 : start ≤ finish) (h2 : finish < n) :
    (twoOptSwap n p start finish).length = n ∧
      (∀ k, k < start → (twoOptSwap n p start finish)[k]? = p[k]?) ∧
      (∀ k, finish < k → (twoOptSwap n p start finish)[k]? = p[k]?) ∧
      (∀ t, t ≤ finish - start →
        (twoOptSwap n p start finish)[start + t]? = p[finish - t]?) := by
  refine ⟨twoOptSwap_length n p start finish, ?_, ?_, ?_⟩
  · intro k hk
    rw [twoOptSwap_getElem? n p start finish k hp h1 h2, if_pos hk]
  · intro k hk
    rw [twoOptSwap_getElem? n p start finish k hp h1 h2, if_neg (by omega), if_neg (by omega)]
  · intro t ht
    rw [twoOptSwap_getElem? n p start finish _ hp h1 h2, if_neg (by omega), if_pos (by omega)]
    have : start + finish - (start + t) = finish - t := by omega
    rw [this]

theorem twoOptSwap_frame_witness :
    ([4, 2, 0, 3, 1] : List Nat).length = 5 ∧ 1 ≤ 3 ∧ 3 < 5 ∧
      (twoOptSwap 5 [4, 2, 0, 3, 1] 1 3).length = 5 ∧
      (∀ k, k < 1 → (twoOptSwap 5 [4, 2, 0, 3, 1] 1 3)[k]? = [4, 2, 0, 3, 1][k]?) ∧
      (∀ k, 3 < k → (twoOptSwap 5 [4, 2, 0, 3, 1] 1 3)[k]? = [4, 2, 0, 3, 1][k]?) ∧
      (∀ t, t ≤ 3 - 1 →
        (twoOptSwap 5 [4, 2, 0, 3, 1] 1 3)[1 + t]? = [4, 2, 0, 3, 1][3 - t]?) :=
  ⟨rfl, by decide, by decide,
    twoOptSwap_frame 5 [4, 2, 0, 3, 1] 1 3 rfl (by decide) (by decide)⟩

/-- C8: for a sequence `p` of length `n` and `0 ≤ i ≤ j < n`, applying `twoOptSwap` with
`(i, j)` to the result of `twoOptSwap` with `(i, j)` on `p` gives `p` back. -/
theorem twoOptSwap_self_inverse (n : Nat) (p : List Nat) (i j : Nat)
    (hp : p.length = n) (hij : i ≤ j) (hj : j < n) :
    twoOptSwap n (twoOptSwap n p i j) i j = p := by
  apply List.ext_getElem?
  intro k
  rw [twoOptSwap_getElem? n _ i j k (twoOptSwap_length n p i j) hij hj]
  by_cases c1 : k < i
  · rw [if_pos c1, twoOptSwap_getElem? n p i j k hp hij hj, if_pos c1]
  · rw [if_neg c1]
    by_cases c2 : k ≤ j
    · rw [if_pos c2, twoOptSwap_getElem? n p i j _ hp hij hj, if_neg (by omega),
        if_pos (by omega)]
      have : i + j - (i + j - k) = k := by omega
      rw [this]
    · rw [if_neg c2, twoOptSwap_getElem? n p i j k hp hij hj, if_neg c1, if_neg c2]

theorem twoOptSwap_self_inverse_witness :
    ([4, 2, 0, 3, 1] : List Nat).length = 5 ∧ 1 ≤ 3 ∧ 3 < 5 ∧
      twoOptSwap 5 (twoOptSwap 5 [4, 2, 0, 3, 1] 1 3) 1 3 = [4, 2, 0, 3, 1] :=
  ⟨rfl, by decide, by decide,
    twoOptSwap_self_inverse 5 [4, 2, 0, 3, 1] 1 3 rfl (by decide) (by decide)⟩

end TSPSolution

/-! ## Rounding to double -/

namespace tsp

theorem log2Fuel_spec (fuel n : Nat) (hn : 1 ≤ n) (hf : n ≤ fuel) :
    2 ^ log2Fuel fuel n ≤ n ∧ n < 2 ^ (log2Fuel fuel n + 1) := by
  induction fuel generalizing n with
  | zero => omega
  | succ fuel ih =>
    unfold log2Fuel
    split
    · rename_i h2
      have : n = 1 := by omega
      subst this
      exact ⟨by norm_num, by norm_num⟩
    · rename_i h2
      have hrec := ih (n / 2) (by omega) (by omega)
      have e1 : 2 ^ (log2Fuel fuel (n / 2) + 1) = 2 * 2 ^ log2Fuel fuel (n / 2) := by
        rw [pow_succ]; ring
      have e2 : 2 ^ (log2Fuel fuel (n / 2) + 1 + 1) = 2 * 2 ^ (log2Fuel fuel (n / 2) + 1) := by
        rw [pow_succ]; ring
      rw [e2]
      constructor
      · rw [e1]; omega
      · omega

theorem abs_eq_natAbs_div_den (x : ℚ) : |x| = (x.num.natAbs : ℚ) / (x.den : ℚ) := by
  have hden : (0 : ℚ) < (x.den : ℚ) := by exact_mod_cast x.den_pos
  have h1 : |x| = |(x.num : ℚ)| / (x.den : ℚ) := by
    conv_lhs => rw [← Rat.num_div_den x]
    rw [abs_div, abs_of_pos hden]
  rw [h1]
  congr 1
  rw [← Int.cast_abs, Int.abs_eq_natAbs, Int.cast_natCast]

theorem binExp_bracket (N d a b : Nat) (hden : 1 ≤ d) (ha1 : 2 ^ a ≤ N)
    (ha2 : N < 2 ^ (a + 1)) (hb1 : 2 ^ b ≤ d) (hb2 : d < 2 ^ (b + 1)) :
    (2 : ℚ) ^ (if (2 : ℚ) ^ ((a : ℤ) - (b : ℤ)) ≤ (N : ℚ) / (d : ℚ) then (a : ℤ) - (b : ℤ)
        else (a : ℤ) - (b : ℤ) - 1) ≤ (N : ℚ) / (d : ℚ) ∧
      (N : ℚ) / (d : ℚ) <
        (2 : ℚ) ^ ((if (2 : ℚ) ^ ((a : ℤ) - (b : ℤ)) ≤ (N : ℚ) / (d : ℚ) then (a : ℤ) - (b : ℤ)
          else (a : ℤ) - (b : ℤ) - 1) + 1) := by
  have hd0 : (0 : ℚ) < (d : ℚ) := by exact_mod_cast hden
  have hA1 : ((2 : ℚ) ^ a) ≤ (N : ℚ) := by exact_mod_cast ha1
  have hA2 : (N : ℚ) < (2 : ℚ) ^ (a + 1) := by exact_mod_cast ha2
  have hB1 : ((2 : ℚ) ^ b) ≤ (d : ℚ) := by exact_mod_cast hb1
  have hB2 : (d : ℚ) < (2 : ℚ) ^ (b + 1) := by exact_mod_cast hb2
  have hpa : (0 : ℚ) < (2 : ℚ) ^ a := by positivity
  have hpb : (0 : ℚ) < (2 : ℚ) ^ b := by positivity
  have e1 : (2 : ℚ) ^ (a + 1) = 2 * 2 ^ a := by rw [pow_succ]; ring
  have e2 : (2 : ℚ) ^ (b + 1) = 2 * 2 ^ b := by rw [pow_succ]; ring
  have z1 : (2 : ℚ) ^ ((a : ℤ) - (b : ℤ)) = (2 : ℚ) ^ a / (2 : ℚ) ^ b := by
    rw [zpow_sub₀ two_ne_zero, zpow_natCast, zpow_natCast]
  have z2 : (2 : ℚ) ^ ((a : ℤ) - (b : ℤ) + 1) = 2 * ((2 : ℚ) ^ a / (2 : ℚ) ^ b) := by
    rw [zpow_add_one₀ two_ne_zero, z1]; ring
  have z3 : (2 : ℚ) ^ ((a : ℤ) - (b : ℤ) - 1) = ((2 : ℚ) ^ a / (2 : ℚ) ^ b) / 2 := by
    rw [zpow_sub_one₀ two_ne_zero, z1]; ring
  have z4 : (2 : ℚ) ^ ((a : ℤ) - (b : ℤ) - 1 + 1) = (2 : ℚ) ^ a / (2 : ℚ) ^ b := by
    rw [sub_add_cancel, z1]
  split
  · rename_i hle
    refine ⟨hle, ?_⟩
    rw [z2, div_lt_iff₀ hd0]
    have h3 : (2 : ℚ) ^ a ≤ (2 : ℚ) ^ a / (2 : ℚ) ^ b * (d : ℚ) := by
      rw [div_mul_eq_mul_div, le_div_iff₀ hpb]
      exact mul_le_mul_of_nonneg_left hB1 (le_of_lt hpa)
    have h4 : 2 * ((2 : ℚ) ^ a / (2 : ℚ) ^ b) * (d : ℚ) =
        2 * ((2 : ℚ) ^ a / (2 : ℚ) ^ b * (d : ℚ)) := by ring
    rw [h4]
    linarith
  · rename_i hnle
    refine ⟨?_, ?_⟩
    · rw [z3, le_div_iff₀ hd0]
      have h3 : (2 : ℚ) ^ a / (2 : ℚ) ^ b / 2 * (d : ℚ) ≤ (2 : ℚ) ^ a := by
        rw [div_div, div_mul_eq_mul_div, div_le_iff₀ (by positivity)]
        have h5 : (d : ℚ) ≤ 2 ^ b * 2 := by linarith
        calc (2 : ℚ) ^ a * (d : ℚ) ≤ 2 ^ a * (2 ^ b * 2) :=
              mul_le_mul_of_nonneg_left h5 (le_of_lt hpa)
          _ = _ := by ring
      linarith
    · rw [z4]
      rw [z1] at hnle
      exact not_le.mp hnle

/-- The binary exponent brackets the magnitude: `2^e ≤ |x| < 2^(e+1)`. -/
theorem binExp_spec (x : ℚ) (hx : x ≠ 0) :
    (2 : ℚ) ^ binExp x ≤ |x| ∧ |x| < (2 : ℚ) ^ (binExp x + 1) := by
  have hnum : 1 ≤ x.num.natAbs := by
    have : x.num ≠ 0 := Rat.num_ne_zero.mpr hx
    omega
  obtain ⟨ha1, ha2⟩ := log2Fuel_spec x.num.natAbs x.num.natAbs hnum (le_refl _)
  obtain ⟨hb1, hb2⟩ := log2Fuel_spec x.den x.den x.den_pos (le_refl _)
  unfold binExp
  simp only []
  rw [abs_eq_natAbs_div_den x]
  exact binExp_bracket _ _ _ _ x.den_pos ha1 ha2 hb1 hb2

theorem roundHalfEven_sub_le (y : ℚ) (hy : 0 ≤ y) :
    y - 1 / 2 ≤ (roundHalfEven y : ℚ) ∧ (roundHalfEven y : ℚ) ≤ y + 1 / 2 := by
  have h1 : ((⌊y⌋₊ : ℕ) : ℚ) ≤ y := Nat.floor_le hy
  have h2 : y < ((⌊y⌋₊ : ℕ) : ℚ) + 1 := Nat.lt_floor_add_one y
  unfold roundHalfEven
  simp only []
  split
  · constructor <;> linarith
  · split
    · push_cast
      constructor <;> linarith
    · rename_i h3 h4
      have h5 : y - ((⌊y⌋₊ : ℕ) : ℚ) = 1 / 2 := le_antisymm (not_lt.mp h4) (not_lt.mp h3)
      split
      · constructor <;> linarith
      · push_cast
        constructor <;> linarith

theorem roundHalfEven_natCast (m : Nat) : roundHalfEven (m : ℚ) = m := by
  unfold roundHalfEven
  simp

end tsp

namespace tsp

theorem roundDouble_zero : roundDouble 0 = 0 := by
  unfold roundDouble
  rw [if_pos rfl]

theorem roundDouble_of_pos (x : ℚ) (hx : 0 < x) :
    roundDouble x =
      (roundHalfEven (x / (2 : ℚ) ^ (binExp x - 52)) : ℚ) * (2 : ℚ) ^ (binExp x - 52) := by
  unfold roundDouble
  rw [if_neg (ne_of_gt hx)]
  simp only []
  rw [sign_pos hx, abs_of_pos hx]
  simp

theorem binExp_neg (x : ℚ) : binExp (-x) = binExp x := by
  unfold binExp
  simp

theorem roundDouble_neg (x : ℚ) : roundDouble (-x) = -roundDouble x := by
  unfold roundDouble
  by_cases hx : x = 0
  · subst hx
    simp
  · rw [if_neg hx, if_neg (neg_ne_zero.mpr hx)]
    simp only []
    rw [binExp_neg, abs_neg, Left.sign_neg]
    simp

/-- The rounding error of a positive number is at most `2^(-53)` times the number. -/
theorem roundDouble_error (x : ℚ) (hx : 0 < x) :
    x - x / 2 ^ 53 ≤ roundDouble x ∧ roundDouble x ≤ x + x / 2 ^ 53 := by
  have hspec := binExp_spec x (ne_of_gt hx)
  rw [abs_of_pos hx] at hspec
  rw [roundDouble_of_pos x hx]
  have hq : (0 : ℚ) < (2 : ℚ) ^ (binExp x - 52) := by positivity
  have hy : (0 : ℚ) ≤ x / (2 : ℚ) ^ (binExp x - 52) := le_of_lt (div_pos hx hq)
  obtain ⟨hlo, hhi⟩ := roundHalfEven_sub_le _ hy
  have hqe : (2 : ℚ) ^ (binExp x - 52) = (2 : ℚ) ^ binExp x / 2 ^ 52 := by
    rw [zpow_sub₀ two_ne_zero]
    norm_cast
  have hxq : x / (2 : ℚ) ^ (binExp x - 52) * (2 : ℚ) ^ (binExp x - 52) = x :=
    div_mul_cancel₀ x (ne_of_gt hq)
  have hhalf : (2 : ℚ) ^ (binExp x - 52) / 2 ≤ x / 2 ^ 53 := by
    rw [hqe]
    have h1 : (2 : ℚ) ^ binExp x / 2 ^ 52 / 2 = (2 : ℚ) ^ binExp x / 2 ^ 53 := by
      rw [div_div]
      norm_num
    rw [h1]
    exact div_le_div_of_nonneg_right hspec.1 (by positivity)
  have hlo2 := mul_le_mul_of_nonneg_right hlo (le_of_lt hq)
  have hhi2 := mul_le_mul_of_nonneg_right hhi (le_of_lt hq)
  rw [sub_mul, hxq] at hlo2
  rw [add_mul, hxq] at hhi2
  constructor
  · linarith
  · linarith

theorem roundDouble_pos (x : ℚ) (hx : 0 < x) : 0 < roundDouble x := by
  have h := (roundDouble_error x hx).1
  have h2 : x / 2 ^ 53 < x := by
    rw [div_lt_iff₀ (by positivity)]
    have : (1 : ℚ) < 2 ^ 53 := by norm_num
    nlinarith
  linarith

theorem roundDouble_nonneg (x : ℚ) (hx : 0 ≤ x) : 0 ≤ roundDouble x := by
  rcases lt_or_eq_of_le hx with h | h
  · exact le_of_lt (roundDouble_pos x h)
  · rw [← h, roundDouble_zero]

theorem roundDouble_eq_zero (x : ℚ) (hx : 0 ≤ x) (h0 : roundDouble x = 0) : x = 0 := by
  rcases lt_or_eq_of_le hx with h | h
  · exact absurd h0 (ne_of_gt (roundDouble_pos x h))
  · exact h.symm

/-- Every natural number up to `2^53` is a double. -/
theorem roundDouble_natCast (k : Nat) (hk : k ≤ 2 ^ 53) : roundDouble (k : ℚ) = k := by
  rcases Nat.eq_zero_or_pos k with h0 | hpos
  · subst h0
    simp [roundDouble_zero]
  have hx : (0 : ℚ) < (k : ℚ) := by exact_mod_cast hpos
  have hspec := binExp_spec (k : ℚ) (ne_of_gt hx)
  rw [abs_of_pos hx] at hspec
  rw [roundDouble_of_pos _ hx]
  have hk53 : (k : ℚ) ≤ 2 ^ 53 := by exact_mod_cast hk
  have he : binExp (k : ℚ) ≤ 53 := by
    by_contra hcon
    push_neg at hcon
    have h1 : (2 : ℚ) ^ (54 : ℤ) ≤ (2 : ℚ) ^ binExp (k : ℚ) :=
      zpow_le_zpow_right₀ (by norm_num) (by omega)
    have h2 : (2 : ℚ) ^ (54 : ℤ) = 2 ^ 54 := by norm_cast
    rw [h2] at h1
    have : (2 : ℚ) ^ 53 < 2 ^ 54 := by norm_num
    linarith [hspec.1]
  have hq : (0 : ℚ) < (2 : ℚ) ^ (binExp (k : ℚ) - 52) := by positivity
  have hgrid : ∃ m : Nat, (k : ℚ) / (2 : ℚ) ^ (binExp (k : ℚ) - 52) = (m : ℚ) := by
    by_cases h52 : binExp (k : ℚ) ≤ 52
    · refine ⟨k * 2 ^ (52 - binExp (k : ℚ)).toNat, ?_⟩
      have e1 : binExp (k : ℚ) - 52 = -(((52 - binExp (k : ℚ)).toNat : ℕ) : ℤ) := by
        rw [Int.toNat_of_nonneg (by omega)]
        ring
      rw [e1, zpow_neg, zpow_natCast, div_inv_eq_mul]
      push_cast
      rfl
    · have e53 : binExp (k : ℚ) = 53 := by omega
      refine ⟨2 ^ 52, ?_⟩
      rw [e53] at hspec ⊢
      have h3 : (2 : ℚ) ^ (53 : ℤ) = 2 ^ 53 := by norm_cast
      rw [h3] at hspec
      have hkeq : (k : ℚ) = 2 ^ 53 := le_antisymm hk53 hspec.1
      rw [hkeq]
      norm_num
  obtain ⟨m, hm⟩ := hgrid
  rw [hm, roundHalfEven_natCast, ← hm]
  exact div_mul_cancel₀ _ (ne_of_gt hq)

theorem addDouble_natCast (a b : Nat) (h : a + b ≤ 2 ^ 53) :
    addDouble (a : ℚ) (b : ℚ) = ((a + b : Nat) : ℚ) := by
  unfold addDouble
  rw [← Nat.cast_add]
  exact roundDouble_natCast (a + b) h

theorem addDouble_nonneg (a b : encoding) (ha : 0 ≤ a) (hb : 0 ≤ b) : 0 ≤ addDouble a b :=
  roundDouble_nonneg _ (add_nonneg ha hb)

theorem addDouble_eq_zero (a b : encoding) (ha : 0 ≤ a) (hb : 0 ≤ b)
    (h : addDouble a b = 0) : a = 0 ∧ b = 0 := by
  have hz := roundDouble_eq_zero _ (add_nonneg ha hb) h
  constructor <;> linarith

end tsp

/-! ## The exact tour length -/

namespace tsp

theorem foldl_add_range (f : Nat → encoding) (m : Nat) :
    (List.range m).foldl (fun acc i => acc + f i) 0 = ∑ i in Finset.range m, f i := by
  induction m with
  | zero => rfl
  | succ m ih =>
    rw [List.range_succ, List.foldl_append, ih, Finset.sum_range_succ]
    rfl

/-- The fitness as one sum over all `n` positions, the successor taken modulo `n`. -/
theorem tourLength_eq_sum_mod (D : List (List encoding)) (n : Nat) (p : List Nat)
    (hn : 1 ≤ n) :
    tourLength D n p =
      ∑ i in Finset.range n, distAt D (p.getD i 0) (p.getD ((i + 1) % n) 0) := by
  obtain ⟨m, rfl⟩ : ∃ m, n = m + 1 := ⟨n - 1, by omega⟩
  unfold tourLength
  simp only [Nat.add_sub_cancel]
  rw [foldl_add_range (fun i => distAt D (p.getD i 0) (p.getD (i + 1) 0)),
    Finset.sum_range_succ, Nat.mod_self]
  congr 1
  apply Finset.sum_congr rfl
  intro i hi
  rw [Nat.mod_eq_of_lt (by have := Finset.mem_range.mp hi; omega)]

theorem sum_range_shift (g : Nat → encoding) (n : Nat) (hn : 1 ≤ n) :
    ∑ i in Finset.range n, g ((i + 1) % n) = ∑ i in Finset.range n, g i := by
  obtain ⟨m, rfl⟩ : ∃ m, n = m + 1 := ⟨n - 1, by omega⟩
  rw [Finset.sum_range_succ, Nat.mod_self, Finset.sum_range_succ' g m]
  congr 1
  apply Finset.sum_congr rfl
  intro i hi
  rw [Nat.mod_eq_of_lt (by have := Finset.mem_range.mp hi; omega)]

theorem rotate_one_getD (p : List Nat) (n i : Nat) (hp : p.length = n) (hi : i < n) :
    (p.rotate 1).getD i 0 = p.getD ((i + 1) % n) 0 := by
  have h1 : i < (p.rotate 1).length := by rw [List.length_rotate]; omega
  have h2 : (i + 1) % n < p.length := by rw [hp]; exact Nat.mod_lt _ (by omega)
  rw [List.getD_eq_getElem _ 0 h1, List.getD_eq_getElem _ 0 h2, List.getElem_rotate]
  simp only [hp]

theorem tourLength_rotate_one (D : List (List encoding)) (n : Nat) (p : List Nat)
    (hn : 1 ≤ n) (hp : p.length = n) :
    tourLength D n (p.rotate 1) = tourLength D n p := by
  rw [tourLength_eq_sum_mod D n _ hn, tourLength_eq_sum_mod D n p hn]
  rw [← sum_range_shift (fun i => distAt D (p.getD i 0) (p.getD ((i + 1) % n) 0)) n hn]
  apply Finset.sum_congr rfl
  intro i hi
  have hi := Finset.mem_range.mp hi
  rw [rotate_one_getD p n i hp hi, rotate_one_getD p n _ hp (Nat.mod_lt _ (by omega))]

/-- C4: for `n ≥ 1`, a distance matrix `D` and a permutation `perm` of `{0, …, n-1}`,
`tourLength` yields the cyclic tour length: the sum of `D[perm[i]][perm[i+1]]` for
`i` in `[0, n-2]` plus the closing edge `D[perm[n-1]][perm[0]]`; the constructor stores
this value for the permutation it decodes. -/
theorem tourLength_rotate (D : List (List encoding)) (n : Nat) (p : List Nat) (r : Nat)
    (hn : 1 ≤ n) (hp : p.length = n) :
    tourLength D n (p.rotate r) = tourLength D n p := by
  induction r with
  | zero => rw [List.rotate_zero]
  | succ r ih =>
    rw [← List.rotate_rotate, tourLength_rotate_one D n _ hn
      (by rw [List.length_rotate]; exact hp), ih]

/-- The tour length as the sum of the specification: the edges `i → i+1` for `i` in
`[0, n-2]`, then the closing edge. -/
theorem tourLength_eq_sum (D : List (List encoding)) (n : Nat) (p : List Nat) :
    tourLength D n p =
      (∑ i in Finset.range (n - 1), distAt D (p.getD i 0) (p.getD (i + 1) 0)) +
        distAt D (p.getD (n - 1) 0) (p.getD 0 0) := by
  unfold tourLength
  simp only []
  rw [foldl_add_range (fun i => distAt D (p.getD i 0) (p.getD (i + 1) 0))]

theorem succ_mod_eq (k n : Nat) (hk : k < n) :
    (k + 1) % n = if k + 1 = n then 0 else k + 1 := by
  split
  · rename_i h
    rw [h, Nat.mod_self]
  · exact Nat.mod_eq_of_lt (by omega)

/-- Every read of a rearrangement of `0, …, n-1` gives an index below `n`. -/
theorem getD_lt_of_perm (n : Nat) (p : List Nat) (k : Nat) (hn : 1 ≤ n)
    (hp : p.Perm (List.range n)) : p.getD k 0 < n := by
  by_cases hk : k < p.length
  · rw [List.getD_eq_getElem _ 0 hk]
    exact List.mem_range.mp (hp.mem_iff.mp (List.getElem_mem hk))
  · rw [List.getD_eq_default _ 0 (by omega)]
    omega

theorem reverse_getD (p : List Nat) (n i : Nat) (hp : p.length = n) (hi : i < n) :
    p.reverse.getD i 0 = p.getD (n - 1 - i) 0 := by
  have h1 : i < p.reverse.length := by rw [List.length_reverse]; omega
  have h2 : n - 1 - i < p.length := by omega
  rw [List.getD_eq_getElem _ 0 h1, List.getD_eq_getElem _ 0 h2, List.getElem_reverse]
  simp only [hp]

/-- With a symmetric distance matrix the fully reversed tour has the same fitness. -/
theorem tourLength_reverse (D : List (List encoding)) (n : Nat) (p : List Nat)
    (hn : 1 ≤ n) (hp : p.Perm (List.range n))
    (hsym : ∀ a b, a < n → b < n → distAt D a b = distAt D b a) :
    tourLength D n p.reverse = tourLength D n p := by
  have hlen : p.length = n := by rw [hp.length_eq, List.length_range]
  rw [tourLength_eq_sum_mod D n _ hn, tourLength_eq_sum_mod D n p hn]
  rw [← Finset.sum_range_reflect
    (fun i => distAt D (p.getD i 0) (p.getD ((i + 1) % n) 0)) n]
  rw [← sum_range_shift
    (fun k => distAt D (p.getD (n - 1 - k) 0) (p.getD ((n - 1 - k + 1) % n) 0)) n hn]
  apply Finset.sum_congr rfl
  intro i hi
  have hi := Finset.mem_range.mp hi
  have hm : (i + 1) % n < n := Nat.mod_lt _ (by omega)
  rw [reverse_getD p n i hlen hi, reverse_getD p n _ hlen hm,
    hsym _ _ (getD_lt_of_perm n p _ hn hp) (getD_lt_of_perm n p _ hn hp)]
  have h3 : (n - 1 - (i + 1) % n + 1) % n = n - 1 - i := by
    rw [succ_mod_eq i n hi]
    split
    · rename_i h
      have : n - 1 - 0 + 1 = n := by omega
      rw [this, Nat.mod_self]
      omega
    · rw [Nat.mod_eq_of_lt (by omega)]
      omega
  rw [h3]

end tsp

/-! ## Fitness in double arithmetic against the exact tour length -/

namespace tsp

/-- A `double` accumulation of natural numbers whose total is at most `2^53` is exact. -/
theorem foldl_addDouble_natCast (f : Nat → Nat) (m : Nat)
    (h : ∑ i in Finset.range m, f i ≤ 2 ^ 53) :
    (List.range m).foldl (fun acc i => addDouble acc (f i : ℚ)) 0 =
      ((∑ i in Finset.range m, f i : Nat) : ℚ) := by
  induction m with
  | zero => simp
  | succ m ih =>
    rw [Finset.sum_range_succ] at h
    rw [List.range_succ, List.foldl_append, ih (by omega), Finset.sum_range_succ]
    exact addDouble_natCast _ _ h

theorem natCast_floor_of_exists (x : ℚ) (h : ∃ k : Nat, x = (k : ℚ)) :
    x = ((⌊x⌋₊ : Nat) : ℚ) := by
  obtain ⟨k, rfl⟩ := h
  rw [Nat.floor_natCast]

/-- When the entries of the distance matrix are natural numbers and the exact tour length
is at most `2^53`, every `double` addition of `calculateFitness` is exact. -/
theorem calculateFitness_eq_tourLength (D : List (List encoding)) (n : Nat) (p : List Nat)
    (hn : 1 ≤ n) (hp : p.Perm (List.range n))
    (hint : ∀ a b, a < n → b < n → ∃ k : Nat, distAt D a b = (k : ℚ))
    (hbound : tourLength D n p ≤ 2 ^ 53) :
    calculateFitness D n p = tourLength D n p := by
  have hedge : ∀ i j, distAt D (p.getD i 0) (p.getD j 0) =
      ((⌊distAt D (p.getD i 0) (p.getD j 0)⌋₊ : Nat) : ℚ) := fun i j =>
    natCast_floor_of_exists _
      (hint _ _ (getD_lt_of_perm n p i hn hp) (getD_lt_of_perm n p j hn hp))
  have hfun : (fun (fitness : encoding) i =>
      addDouble fitness (distAt D (p.getD i 0) (p.getD (i + 1) 0))) =
      (fun fitness i => addDouble fitness
        (((fun i => ⌊distAt D (p.getD i 0) (p.getD (i + 1) 0)⌋₊) i : Nat) : ℚ)) := by
    funext fitness i
    simp only []
    rw [← hedge i (i + 1)]
  have hexact : tourLength D n p =
      (((∑ i in Finset.range (n - 1), ⌊distAt D (p.getD i 0) (p.getD (i + 1) 0)⌋₊) +
        ⌊distAt D (p.getD (n - 1) 0) (p.getD 0 0)⌋₊ : Nat) : ℚ) := by
    rw [tourLength_eq_sum]
    push_cast
    rw [← hedge (n - 1) 0]
    congr 1
    apply Finset.sum_congr rfl
    intro i _
    exact hedge i (i + 1)
  have hnat : (∑ i in Finset.range (n - 1), ⌊distAt D (p.getD i 0) (p.getD (i + 1) 0)⌋₊) +
      ⌊distAt D (p.getD (n - 1) 0) (p.getD 0 0)⌋₊ ≤ 2 ^ 53 := by
    rw [hexact] at hbound
    exact_mod_cast hbound
  rw [hexact]
  unfold calculateFitness
  simp only []
  rw [hfun, foldl_addDouble_natCast _ _ (by omega), hedge (n - 1) 0]
  exact addDouble_natCast _ _ hnat

/-- With entries bounded by `M` the exact length of a tour over `n` nodes is at most
`n * M`. -/
theorem tourLength_le (D : List (List encoding)) (n M : Nat) (p : List Nat)
    (hn : 1 ≤ n) (hp : p.Perm (List.range n))
    (hM : ∀ a b, a < n → b < n → distAt D a b ≤ (M : ℚ)) :
    tourLength D n p ≤ ((n * M : Nat) : ℚ) := by
  rw [tourLength_eq_sum_mod D n p hn]
  have h := Finset.sum_le_card_nsmul (Finset.range n)
    (fun i => distAt D (p.getD i 0) (p.getD ((i + 1) % n) 0)) (M : ℚ)
    (fun i _ => hM _ _ (getD_lt_of_perm n p _ hn hp) (getD_lt_of_perm n p _ hn hp))
  rw [Finset.card_range, nsmul_eq_mul] at h
  push_cast
  exact h

end tsp

namespace tsp

/-- A `double` accumulation of non-negative terms is non-negative, and it is zero only
when every term is zero. -/
theorem foldl_addDouble_nonneg (f : Nat → encoding) (m : Nat) (hf : ∀ i, 0 ≤ f i) :
    0 ≤ (List.range m).foldl (fun acc i => addDouble acc (f i)) 0 ∧
      ((List.range m).foldl (fun acc i => addDouble acc (f i)) 0 = 0 → ∀ i, i < m → f i = 0) := by
  induction m with
  | zero => exact ⟨le_refl _, fun _ i hi => absurd hi (Nat.not_lt_zero i)⟩
  | succ m ih =>
    rw [List.range_succ, List.foldl_append]
    simp only [List.foldl_cons, List.foldl_nil]
    refine ⟨addDouble_nonneg _ _ ih.1 (hf m), ?_⟩
    intro h0 i hi
    obtain ⟨hacc, hfm⟩ := addDouble_eq_zero _ _ ih.1 (hf m) h0
    rcases Nat.lt_succ_iff_lt_or_eq.mp hi with h | h
    · exact ih.2 hacc i h
    · rw [h]; exact hfm

end tsp

namespace tsp

/-- A rounded addition of non-negative numbers has relative error at most `2^(-53)`. -/
theorem addDouble_error (a b : encoding) (ha : 0 ≤ a) (hb : 0 ≤ b) :
    (a + b) * (1 - 1 / 2 ^ 53) ≤ addDouble a b ∧ addDouble a b ≤ (a + b) * (1 + 1 / 2 ^ 53) := by
  unfold addDouble
  rcases eq_or_lt_of_le (add_nonneg ha hb) with h | h
  · rw [← h, roundDouble_zero]
    constructor <;> simp
  · obtain ⟨h1, h2⟩ := roundDouble_error (a + b) h
    constructor
    · have : (a + b) * (1 - 1 / 2 ^ 53) = a + b - (a + b) / 2 ^ 53 := by ring
      rw [this]; exact h1
    · have : (a + b) * (1 + 1 / 2 ^ 53) = a + b + (a + b) / 2 ^ 53 := by ring
      rw [this]; exact h2

/-- A `double` accumulation of `m` non-negative terms lies within the factors
`(1 - 2^(-53))^m` and `(1 + 2^(-53))^m` of the exact sum. -/
theorem foldl_addDouble_error (f : Nat → encoding) (m : Nat) (hf : ∀ i, 0 ≤ f i) :
    (∑ i in Finset.range m, f i) * (1 - 1 / 2 ^ 53) ^ m ≤
        (List.range m).foldl (fun acc i => addDouble acc (f i)) 0 ∧
      (List.range m).foldl (fun acc i => addDouble acc (f i)) 0 ≤
        (∑ i in Finset.range m, f i) * (1 + 1 / 2 ^ 53) ^ m := by
  induction m with
  | zero => simp
  | succ m ih =>
    have hacc := (foldl_addDouble_nonneg f m hf).1
    have hS : 0 ≤ ∑ i in Finset.range m, f i := Finset.sum_nonneg fun i _ => hf i
    rw [List.range_succ, List.foldl_append, Finset.sum_range_succ]
    simp only [List.foldl_cons, List.foldl_nil]
    obtain ⟨h1, h2⟩ := addDouble_error _ _ hacc (hf m)
    have hlo1 : (1 - 1 / 2 ^ 53 : ℚ) ^ m ≤ 1 := pow_le_one₀ (by norm_num) (by norm_num)
    have hlo0 : (0 : ℚ) ≤ (1 - 1 / 2 ^ 53 : ℚ) ^ m := pow_nonneg (by norm_num) m
    have hhi1 : (1 : ℚ) ≤ (1 + 1 / 2 ^ 53 : ℚ) ^ m := one_le_pow₀ (by norm_num)
    constructor
    · refine le_trans ?_ h1
      rw [pow_succ (1 - 1 / 2 ^ 53 : ℚ) m, ← mul_assoc]
      apply mul_le_mul_of_nonneg_right _ (by norm_num)
      have := mul_le_mul_of_nonneg_left hlo1 (hf m)
      nlinarith [ih.1]
    · refine le_trans h2 ?_
      rw [pow_succ (1 + 1 / 2 ^ 53 : ℚ) m, ← mul_assoc]
      apply mul_le_mul_of_nonneg_right _ (by norm_num)
      have := mul_le_mul_of_nonneg_left hhi1 (hf m)
      nlinarith [ih.2]

/-- With non-negative distances the fitness of a tour over `n ≥ 1` nodes lies within the
factors `(1 - 2^(-53))^n` and `(1 + 2^(-53))^n` of the exact tour length. -/
theorem calculateFitness_error (D : List (List encoding)) (n : Nat) (p : List Nat)
    (hn : 1 ≤ n) (hnonneg : ∀ a b, 0 ≤ distAt D (p.getD a 0) (p.getD b 0)) :
    tourLength D n p * (1 - 1 / 2 ^ 53) ^ n ≤ calculateFitness D n p ∧
      calculateFitness D n p ≤ tourLength D n p * (1 + 1 / 2 ^ 53) ^ n := by
  obtain ⟨m, rfl⟩ : ∃ m, n = m + 1 := ⟨n - 1, by omega⟩
  have hf : ∀ i, 0 ≤ (fun i => distAt D (p.getD i 0) (p.getD (i + 1) 0)) i :=
    fun i => hnonneg i (i + 1)
  obtain ⟨ih1, ih2⟩ := foldl_addDouble_error _ m hf
  have hacc := (foldl_addDouble_nonneg _ m hf).1
  have hS : 0 ≤ ∑ i in Finset.range m, distAt D (p.getD i 0) (p.getD (i + 1) 0) :=
    Finset.sum_nonneg fun i _ => hf i
  obtain ⟨h1, h2⟩ := addDouble_error _ _ hacc (hnonneg m 0)
  have hlo1 : (1 - 1 / 2 ^ 53 : ℚ) ^ m ≤ 1 := pow_le_one₀ (by norm_num) (by norm_num)
  have hhi1 : (1 : ℚ) ≤ (1 + 1 / 2 ^ 53 : ℚ) ^ m := one_le_pow₀ (by norm_num)
  rw [tourLength_eq_sum]
  unfold calculateFitness
  simp only [Nat.add_sub_cancel]
  constructor
  · refine le_trans ?_ h1
    rw [pow_succ (1 - 1 / 2 ^ 53 : ℚ) m, ← mul_assoc]
    apply mul_le_mul_of_nonneg_right _ (by norm_num)
    have := mul_le_mul_of_nonneg_left hlo1 (hnonneg m 0)
    nlinarith [ih1]
  · refine le_trans h2 ?_
    rw [pow_succ (1 + 1 / 2 ^ 53 : ℚ) m, ← mul_assoc]
    apply mul_le_mul_of_nonneg_right _ (by norm_num)
    have := mul_le_mul_of_nonneg_left hhi1 (hnonneg m 0)
    nlinarith [ih2]

end tsp

/-! ## Fitness, rotation and reversal -/

namespace tsp

theorem squareMatrix_natural :
    ∀ a b, a < 4 → b < 4 →
      ∃ k : Nat, distAt [[0, 2, 3, 2], [2, 0, 2, 3], [3, 2, 0, 2], [2, 3, 2, 0]] a b = (k : ℚ) := by
  intro a b ha hb
  interval_cases a <;> interval_cases b <;>
    first
      | exact ⟨0, by decide!⟩
      | exact ⟨2, by decide!⟩
      | exact ⟨3, by decide!⟩

theorem squareMatrix_symmetric :
    ∀ a b, a < 4 → b < 4 →
      distAt [[0, 2, 3, 2], [2, 0, 2, 3], [3, 2, 0, 2], [2, 3, 2, 0]] a b =
        distAt [[0, 2, 3, 2], [2, 0, 2, 3], [3, 2, 0, 2], [2, 3, 2, 0]] b a := by
  intro a b ha hb
  interval_cases a <;> interval_cases b <;> rfl

theorem lineNodes_distances :
    calculateDistances lineNodes 3 =
      [[0, 1, 4503599627370497], [1, 0, 4503599627370496],
        [4503599627370497, 4503599627370496, 0]] := by
  decide!

theorem longLineNodes_distances :
    calculateDistances longLineNodes 4 =
      [[0, 1, 9007199254740992, 9007199254740994],
        [1, 0, 9007199254740991, 9007199254740992],
        [9007199254740992, 9007199254740991, 0, 2],
        [9007199254740994, 9007199254740992, 2, 0]] := by
  decide!

/-- C4 (counterexample): with the distance matrix of the nodes `(0,0), (1,0), (2^52+1, 0)`
and the permutation `[1, 2, 0]`, `calculateFitness` yields `2^53 = 9007199254740992`,
while the sum of the edges `D[1][2] + D[2][0]` and the closing edge `D[0][1]` is
`2^53 + 2 = 9007199254740994`. -/
theorem calculateFitness_cyclic_counterexample :
    calculateFitness (calculateDistances lineNodes 3) 3 [1, 2, 0] = 9007199254740992 ∧
      distAt (calculateDistances lineNodes 3) 1 2 + distAt (calculateDistances lineNodes 3) 2 0
        + distAt (calculateDistances lineNodes 3) 0 1 = 9007199254740994 ∧
      calculateFitness (calculateDistances lineNodes 3) 3 [1, 2, 0] ≠
        (∑ i in Finset.range (3 - 1),
          distAt (calculateDistances lineNodes 3) (([1, 2, 0] : List Nat).getD i 0)
            (([1, 2, 0] : List Nat).getD (i + 1) 0)) +
          distAt (calculateDistances lineNodes 3) (([1, 2, 0] : List Nat).getD (3 - 1) 0)
            (([1, 2, 0] : List Nat).getD 0 0) := by
  rw [← tourLength_eq_sum, lineNodes_distances]
  decide!

/-- C4 (amended): for `n ≥ 1`, a distance matrix `D` whose entries are natural numbers
(as every matrix built by `calculateDistances` is) and a permutation `perm` of
`{0, …, n-1}`, `calculateFitness` sets the fitness to exactly the cyclic tour length (the
sum of `D[perm[i]][perm[i+1]]` for `i` in `[0, n-2]` plus the closing edge
`D[perm[n-1]][perm[0]]`) when that length is at most `2^53`; in every case the fitness
lies within the factors `(1 - 2^(-53))^n` and `(1 + 2^(-53))^n` of the cyclic tour
length. -/
theorem calculateFitness_cyclic (D : List (List encoding)) (n : Nat) (perm : List Nat)
    (hn : 1 ≤ n) (hp : perm.Perm (List.range n))
    (hint : ∀ a b, a < n → b < n → ∃ k : Nat, distAt D a b = (k : ℚ)) :
    ((∑ i in Finset.range (n - 1), distAt D (perm.getD i 0) (perm.getD (i + 1) 0)) +
          distAt D (perm.getD (n - 1) 0) (perm.getD 0 0) ≤ 2 ^ 53 →
        calculateFitness D n perm =
          (∑ i in Finset.range (n - 1), distAt D (perm.getD i 0) (perm.getD (i + 1) 0)) +
            distAt D (perm.getD (n - 1) 0) (perm.getD 0 0)) ∧
      ((∑ i in Finset.range (n - 1), distAt D (perm.getD i 0) (perm.getD (i + 1) 0)) +
          distAt D (perm.getD (n - 1) 0) (perm.getD 0 0)) * (1 - 1 / 2 ^ 53) ^ n ≤
        calculateFitness D n perm ∧
      calculateFitness D n perm ≤
        ((∑ i in Finset.range (n - 1), distAt D (perm.getD i 0) (perm.getD (i + 1) 0)) +
          distAt D (perm.getD (n - 1) 0) (perm.getD 0 0)) * (1 + 1 / 2 ^ 53) ^ n := by
  have hnonneg : ∀ a b, 0 ≤ distAt D (perm.getD a 0) (perm.getD b 0) := fun a b => by
    obtain ⟨k, hk⟩ := hint _ _ (getD_lt_of_perm n perm a hn hp) (getD_lt_of_perm n perm b hn hp)
    rw [hk]
    exact Nat.cast_nonneg k
  rw [← tourLength_eq_sum]
  exact ⟨fun hbound => calculateFitness_eq_tourLength D n perm hn hp hint hbound,
    calculateFitness_error D n perm hn hnonneg⟩

theorem calculateFitness_cyclic_witness :
    1 ≤ 4 ∧ ([2, 0, 3, 1] : List Nat).Perm (List.range 4) ∧
      (∀ a b, a < 4 → b < 4 →
        ∃ k : Nat, distAt [[0, 2, 3, 2], [2, 0, 2, 3], [3, 2, 0, 2], [2, 3, 2, 0]] a b = (k : ℚ)) ∧
      (((∑ i in Finset.range (4 - 1),
            distAt [[0, 2, 3, 2], [2, 0, 2, 3], [3, 2, 0, 2], [2, 3, 2, 0]]
              (([2, 0, 3, 1] : List Nat).getD i 0) (([2, 0, 3, 1] : List Nat).getD (i + 1) 0)) +
          distAt [[0, 2, 3, 2], [2, 0, 2, 3], [3, 2, 0, 2], [2, 3, 2, 0]]
            (([2, 0, 3, 1] : List Nat).getD (4 - 1) 0) (([2, 0, 3, 1] : List Nat).getD 0 0) ≤
          2 ^ 53 →
        calculateFitness [[0, 2, 3, 2], [2, 0, 2, 3], [3, 2, 0, 2], [2, 3, 2, 0]] 4
            [2, 0, 3, 1] =
          (∑ i in Finset.range (4 - 1),
            distAt [[0, 2, 3, 2], [2, 0, 2, 3], [3, 2, 0, 2], [2, 3, 2, 0]]
              (([2, 0, 3, 1] : List Nat).getD i 0) (([2, 0, 3, 1] : List Nat).getD (i + 1) 0)) +
          distAt [[0, 2, 3, 2], [2, 0, 2, 3], [3, 2, 0, 2], [2, 3, 2, 0]]
            (([2, 0, 3, 1] : List Nat).getD (4 - 1) 0) (([2, 0, 3, 1] : List Nat).getD 0 0)) ∧
        ((∑ i in Finset.range (4 - 1),
            distAt [[0, 2, 3, 2], [2, 0, 2, 3], [3, 2, 0, 2], [2, 3, 2, 0]]
              (([2, 0, 3, 1] : List Nat).getD i 0) (([2, 0, 3, 1] : List Nat).getD (i + 1) 0)) +
          distAt [[0, 2, 3, 2], [2, 0, 2, 3], [3, 2, 0, 2], [2, 3, 2, 0]]
            (([2, 0, 3, 1] : List Nat).getD (4 - 1) 0) (([2, 0, 3, 1] : List Nat).getD 0 0)) *
            (1 - 1 / 2 ^ 53) ^ 4 ≤
          calculateFitness [[0, 2, 3, 2], [2, 0, 2, 3], [3, 2, 0, 2], [2, 3, 2, 0]] 4
            [2, 0, 3, 1] ∧
        calculateFitness [[0, 2, 3, 2], [2, 0, 2, 3], [3, 2, 0, 2], [2, 3, 2, 0]] 4
            [2, 0, 3, 1] ≤
          ((∑ i in Finset.range (4 - 1),
            distAt [[0, 2, 3, 2], [2, 0, 2, 3], [3, 2, 0, 2], [2, 3, 2, 0]]
              (([2, 0, 3, 1] : List Nat).getD i 0) (([2, 0, 3, 1] : List Nat).getD (i + 1) 0)) +
          distAt [[0, 2, 3, 2], [2, 0, 2, 3], [3, 2, 0, 2], [2, 3, 2, 0]]
            (([2, 0, 3, 1] : List Nat).getD (4 - 1) 0) (([2, 0, 3, 1] : List Nat).getD 0 0)) *
            (1 + 1 / 2 ^ 53) ^ 4) :=
  ⟨by decide, by decide, squareMatrix_natural,
    calculateFitness_cyclic _ 4 [2, 0, 3, 1] (by decide) (by decide) squareMatrix_natural⟩

/-- C10 (counterexample): with the distance matrix of the nodes
`(0,0), (1,0), (2^52+1, 0)` the permutation `[0, 1, 2]` has fitness `2^53 + 2` and its
rotation `[1, 2, 0]` has fitness `2^53`. -/
theorem calculateFitness_rotation_counterexample :
    calculateFitness (calculateDistances lineNodes 3) 3 [0, 1, 2] = 9007199254740994 ∧
      calculateFitness (calculateDistances lineNodes 3) 3
        (([0, 1, 2] : List Nat).drop 1 ++ ([0, 1, 2] : List Nat).take 1) = 9007199254740992 ∧
      calculateFitness (calculateDistances lineNodes 3) 3
          (([0, 1, 2] : List Nat).drop 1 ++ ([0, 1, 2] : List Nat).take 1) ≠
        calculateFitness (calculateDistances lineNodes 3) 3 [0, 1, 2] := by
  rw [lineNodes_distances]
  decide!

/-- C10 (amended): for `n ≥ 1`, a distance matrix `D` whose entries are non-negative
integers and a permutation `p` of `{0, …, n-1}` whose cyclic tour length is at most
`2^53`, the fitness of every rotation `p[r], …, p[n-1], p[0], …, p[r-1]` of `p` equals
the fitness of `p`. -/
theorem calculateFitness_rotation (D : List (List encoding)) (n : Nat) (p : List Nat)
    (r : Nat) (hn : 1 ≤ n) (hp : p.Perm (List.range n)) (hr : r ≤ n)
    (hint : ∀ a b, a < n → b < n → ∃ k : Nat, distAt D a b = (k : ℚ))
    (hbound : tourLength D n p ≤ 2 ^ 53) :
    calculateFitness D n (p.drop r ++ p.take r) = calculateFitness D n p := by
  have hlen : p.length = n := by rw [hp.length_eq, List.length_range]
  rw [← List.rotate_eq_drop_append_take (by omega)]
  have hrot := tourLength_rotate D n p r hn hlen
  rw [calculateFitness_eq_tourLength D n p hn hp hint hbound,
    calculateFitness_eq_tourLength D n (p.rotate r) hn ((List.rotate_perm p r).trans hp) hint
      (by rw [hrot]; exact hbound), hrot]

theorem calculateFitness_rotation_witness :
    1 ≤ 4 ∧ ([2, 0, 3, 1] : List Nat).Perm (List.range 4) ∧ 3 ≤ 4 ∧
      (∀ a b, a < 4 → b < 4 →
        ∃ k : Nat, distAt [[0, 2, 3, 2], [2, 0, 2, 3], [3, 2, 0, 2], [2, 3, 2, 0]] a b = (k : ℚ)) ∧
      tourLength [[0, 2, 3, 2], [2, 0, 2, 3], [3, 2, 0, 2], [2, 3, 2, 0]] 4 [2, 0, 3, 1] ≤
        2 ^ 53 ∧
      calculateFitness [[0, 2, 3, 2], [2, 0, 2, 3], [3, 2, 0, 2], [2, 3, 2, 0]] 4
          (([2, 0, 3, 1] : List Nat).drop 3 ++ ([2, 0, 3, 1] : List Nat).take 3) =
        calculateFitness [[0, 2, 3, 2], [2, 0, 2, 3], [3, 2, 0, 2], [2, 3, 2, 0]] 4
          [2, 0, 3, 1] :=
  ⟨by decide, by decide, by decide, squareMatrix_natural, by decide!,
    calculateFitness_rotation _ 4 [2, 0, 3, 1] 3 (by decide) (by decide) (by decide)
      squareMatrix_natural (by decide!)⟩

/-- C11 (counterexample): with the symmetric distance matrix of the nodes
`(0,0), (1,0), (2^53, 0), (2^53+2, 0)` the permutation `[0, 1, 2, 3]` has fitness
`2^54 + 4 = 18014398509481988` and the reversed permutation `[3, 2, 1, 0]` has fitness
`2^54 = 18014398509481984`. -/
theorem calculateFitness_reversal_counterexample :
    (∀ a b, a < 4 → b < 4 →
        distAt (calculateDistances longLineNodes 4) a b =
          distAt (calculateDistances longLineNodes 4) b a) ∧
      calculateFitness (calculateDistances longLineNodes 4) 4 [0, 1, 2, 3] =
        18014398509481988 ∧
      calculateFitness (calculateDistances longLineNodes 4) 4
        ([0, 1, 2, 3] : List Nat).reverse = 18014398509481984 ∧
      calculateFitness (calculateDistances longLineNodes 4) 4
          ([0, 1, 2, 3] : List Nat).reverse ≠
        calculateFitness (calculateDistances longLineNodes 4) 4 [0, 1, 2, 3] := by
  rw [longLineNodes_distances]
  refine ⟨?_, by decide!, by decide!, by decide!⟩
  intro a b ha hb
  interval_cases a <;> interval_cases b <;> rfl

/-- C11 (amended): for `n ≥ 1`, a symmetric distance matrix `D` whose entries are
non-negative integers and a permutation `p` of `{0, …, n-1}` whose cyclic tour length is
at most `2^53`, the fitness of the fully reversed permutation `p[n-1], …, p[0]` equals
the fitness of `p`. -/
theorem calculateFitness_reversal (D : List (List encoding)) (n : Nat) (p : List Nat)
    (hn : 1 ≤ n) (hp : p.Perm (List.range n))
    (hsym : ∀ a b, a < n → b < n → distAt D a b = distAt D b a)
    (hint : ∀ a b, a < n → b < n → ∃ k : Nat, distAt D a b = (k : ℚ))
    (hbound : tourLength D n p ≤ 2 ^ 53) :
    calculateFitness D n p.reverse = calculateFitness D n p := by
  have hrev := tourLength_reverse D n p hn hp hsym
  rw [calculateFitness_eq_tourLength D n p hn hp hint hbound,
    calculateFitness_eq_tourLength D n p.reverse hn ((List.reverse_perm p).trans hp) hint
      (by rw [hrev]; exact hbound), hrev]

theorem calculateFitness_reversal_witness :
    1 ≤ 4 ∧ ([2, 0, 3, 1] : List Nat).Perm (List.range 4) ∧
      (∀ a b, a < 4 → b < 4 →
        distAt [[0, 2, 3, 2], [2, 0, 2, 3], [3, 2, 0, 2], [2, 3, 2, 0]] a b =
          distAt [[0, 2, 3, 2], [2, 0, 2, 3], [3, 2, 0, 2], [2, 3, 2, 0]] b a) ∧
      (∀ a b, a < 4 → b < 4 →
        ∃ k : Nat, distAt [[0, 2, 3, 2], [2, 0, 2, 3], [3, 2, 0, 2], [2, 3, 2, 0]] a b = (k : ℚ)) ∧
      tourLength [[0, 2, 3, 2], [2, 0, 2, 3], [3, 2, 0, 2], [2, 3, 2, 0]] 4 [2, 0, 3, 1] ≤
        2 ^ 53 ∧
      calculateFitness [[0, 2, 3, 2], [2, 0, 2, 3], [3, 2, 0, 2], [2, 3, 2, 0]] 4
          ([2, 0, 3, 1] : List Nat).reverse =
        calculateFitness [[0, 2, 3, 2], [2, 0, 2, 3], [3, 2, 0, 2], [2, 3, 2, 0]] 4
          [2, 0, 3, 1] :=
  ⟨by decide, by decide, squareMatrix_symmetric, squareMatrix_natural, by decide!,
    calculateFitness_reversal _ 4 [2, 0, 3, 1] (by decide) (by decide) squareMatrix_symmetric
      squareMatrix_natural (by decide!)⟩

end tsp
/-! ## Local search -/

namespace TSPSolution

theorem foldl_preserves {σ α : Type} (P : σ → Prop) (f : σ → α → σ)
    (h : ∀ s a, P s → P (f s a)) (l : List α) (s : σ) (hs : P s) : P (l.foldl f s) := by
  induction l generalizing s with
  | nil => exact hs
  | cons a l ih => exact ih (f s a) (h s a hs)

theorem sweepStep_inv (D : List (List tsp.encoding)) (s : TSPSolution) (st : SweepState)
    (i j : Nat) (h : SweepInv D s st) : SweepInv D s (sweepStep D s st i j) := by
  unfold sweepStep
  cases hb : st.bestNeighbor with
  | none =>
    intro b hb2
    simp only [Option.some.injEq] at hb2
    exact hb2.symm
  | some b0 =>
    simp only []
    split
    · intro b hb2
      simp only [Option.some.injEq] at hb2
      exact hb2.symm
    · intro b hb2
      exact h b (hb ▸ hb2)

theorem sweep_inv (D : List (List tsp.encoding)) (s : TSPSolution) :
    SweepInv D s (sweep D s) := by
  unfold sweep
  apply foldl_preserves (SweepInv D s)
  · intro st i hst
    apply foldl_preserves (SweepInv D s)
    · intro st2 j hst2
      exact sweepStep_inv D s st2 i j hst2
    · exact hst
  · intro b hb
    simp at hb

/-- C5: for every solution and every distance matrix, the fitness after one call of
`localSearch` is less than or equal to the fitness before the call. -/
theorem localSearch_fitness_le (D : List (List tsp.encoding)) (s : TSPSolution) :
    (localSearch D s).fitness ≤ s.fitness := by
  have hinv := sweep_inv D s
  unfold localSearch
  simp only []
  cases hb : (sweep D s).bestNeighbor with
  | none => exact le_refl _
  | some b =>
    simp only []
    split
    · rename_i hlt
      show (TSPSolution.new D s.dimension (sweep D s).bestDecisionVariables).fitness ≤ s.fitness
      rw [← hinv b hb]
      exact le_of_lt hlt
    · exact le_refl _

end TSPSolution

namespace TSPSolution

/-- The sweep of `localSearch` reads the dimension and the permutation of the solution
only. -/
theorem sweep_congr (D : List (List tsp.encoding)) (dv dv2 : List tsp.encoding)
    (f f2 : tsp.encoding) (n : Nat) (p : List Nat) :
    sweep D ⟨dv, f, n, p⟩ = sweep D ⟨dv2, f2, n, p⟩ := rfl

/-- The fitness after `localSearch` does not depend on the decision vector the solution
held before. -/
theorem localSearch_fitness_congr (D : List (List tsp.encoding)) (dv dv2 : List tsp.encoding)
    (f : tsp.encoding) (n : Nat) (p : List Nat) :
    (localSearch D ⟨dv, f, n, p⟩).fitness = (localSearch D ⟨dv2, f, n, p⟩).fitness := by
  unfold localSearch
  simp only []
  rw [sweep_congr D dv dv2 f f n p]
  cases (sweep D ⟨dv2, f, n, p⟩).bestNeighbor with
  | none => rfl
  | some b =>
    simp only []
    split <;> rfl

theorem squareNodes_distances :
    tsp.calculateDistances tsp.squareNodes 4 =
      [[0, 2, 3, 2], [2, 0, 2, 3], [3, 2, 0, 2], [2, 3, 2, 0]] := by
  decide!

theorem squareNodes_all_permutations :
    ∀ p ∈ List.permutations [0, 1, 2, 3],
      (localSearch [[0, 2, 3, 2], [2, 0, 2, 3], [3, 2, 0, 2], [2, 3, 2, 0]]
        ⟨[], tsp.calculateFitness [[0, 2, 3, 2], [2, 0, 2, 3], [3, 2, 0, 2], [2, 3, 2, 0]] 4 p,
          4, p⟩).fitness = 8 := by
  decide!

/-- C7: with the distance matrix that `calculateDistances` builds from the nodes
`(0,0), (0,2), (2,2), (2,0)`, the permutation `[0,1,2,3]` has fitness 8, and every
solution of dimension 4 that holds a permutation of the four nodes together with its
fitness has fitness 8 after `localSearch`. -/
theorem squareNodes_localSearch (s : TSPSolution) (hdim : s.dimension = 4)
    (hperm : s.permutation.Perm [0, 1, 2, 3])
    (hfit : s.fitness =
      tsp.calculateFitness (tsp.calculateDistances tsp.squareNodes 4) 4 s.permutation) :
    tsp.calculateFitness (tsp.calculateDistances tsp.squareNodes 4) 4 [0, 1, 2, 3] = 8 ∧
      (localSearch (tsp.calculateDistances tsp.squareNodes 4) s).fitness = 8 := by
  rw [squareNodes_distances] at hfit ⊢
  refine ⟨by decide!, ?_⟩
  obtain ⟨dv, f, n, p⟩ := s
  simp only at hdim hperm hfit
  subst hdim hfit
  rw [localSearch_fitness_congr _ dv []]
  exact squareNodes_all_permutations p (List.mem_permutations.mpr hperm)

theorem squareNodes_localSearch_witness :
    (TSPSolution.new (tsp.calculateDistances tsp.squareNodes 4) 4
        [1 / 2, 1 / 10, 9 / 10, 3 / 10]).dimension = 4 ∧
      (TSPSolution.new (tsp.calculateDistances tsp.squareNodes 4) 4
        [1 / 2, 1 / 10, 9 / 10, 3 / 10]).permutation.Perm [0, 1, 2, 3] ∧
      (TSPSolution.new (tsp.calculateDistances tsp.squareNodes 4) 4
          [1 / 2, 1 / 10, 9 / 10, 3 / 10]).fitness =
        tsp.calculateFitness (tsp.calculateDistances tsp.squareNodes 4) 4
          (TSPSolution.new (tsp.calculateDistances tsp.squareNodes 4) 4
            [1 / 2, 1 / 10, 9 / 10, 3 / 10]).permutation ∧
      (tsp.calculateFitness (tsp.calculateDistances tsp.squareNodes 4) 4 [0, 1, 2, 3] = 8 ∧
        (localSearch (tsp.calculateDistances tsp.squareNodes 4)
          (TSPSolution.new (tsp.calculateDistances tsp.squareNodes 4) 4
            [1 / 2, 1 / 10, 9 / 10, 3 / 10])).fitness = 8) :=
  ⟨rfl, by decide!, rfl,
    squareNodes_localSearch
      (TSPSolution.new (tsp.calculateDistances tsp.squareNodes 4) 4
        [1 / 2, 1 / 10, 9 / 10, 3 / 10]) rfl (by decide!) rfl⟩

/-- C6 (the code stops after one replacement): on the rectangle instance, from the decision
vector `[0.5, 0.1, 0.3, 0.7, 0.9]` (permutation `[1,2,0,3,4]`, fitness 18) `localSearch`
returns the permutation `[2,1,0,3,4]` with fitness 16, whose neighbor for the pair
`(0, 2)` has the strictly lower fitness 14; a second call of `localSearch` reaches 14. -/
theorem localSearch_not_local_optimum :
    (TSPSolution.new (tsp.calculateDistances tsp.rectangleNodes 5) 5
        [1 / 2, 1 / 10, 3 / 10, 7 / 10, 9 / 10]).permutation = [1, 2, 0, 3, 4] ∧
      (TSPSolution.new (tsp.calculateDistances tsp.rectangleNodes 5) 5
        [1 / 2, 1 / 10, 3 / 10, 7 / 10, 9 / 10]).fitness = 18 ∧
      (localSearch (tsp.calculateDistances tsp.rectangleNodes 5)
        (TSPSolution.new (tsp.calculateDistances tsp.rectangleNodes 5) 5
          [1 / 2, 1 / 10, 3 / 10, 7 / 10, 9 / 10])).permutation = [2, 1, 0, 3, 4] ∧
      (localSearch (tsp.calculateDistances tsp.rectangleNodes 5)
        (TSPSolution.new (tsp.calculateDistances tsp.rectangleNodes 5) 5
          [1 / 2, 1 / 10, 3 / 10, 7 / 10, 9 / 10])).fitness = 16 ∧
      tsp.calculateFitness (tsp.calculateDistances tsp.rectangleNodes 5) 5
        (twoOptSwap 5 [2, 1, 0, 3, 4] 0 2) = 14 ∧
      (localSearch (tsp.calculateDistances tsp.rectangleNodes 5)
        (localSearch (tsp.calculateDistances tsp.rectangleNodes 5)
          (TSPSolution.new (tsp.calculateDistances tsp.rectangleNodes 5) 5
            [1 / 2, 1 / 10, 3 / 10, 7 / 10, 9 / 10]))).fitness = 14 := by
  decide!

end TSPSolution

namespace tsp

/-- C12: for a distance matrix with non-negative entries and zero diagonal and a
permutation of size `n ≥ 1`, the fitness is `≥ 0`, and when the fitness is 0 then `n ≤ 1`
or every edge of the cyclic tour (each `D[perm[i]][perm[i+1]]` and
`D[perm[n-1]][perm[0]]`) has distance 0. -/
theorem calculateFitness_nonneg (D : List (List encoding)) (n : Nat) (perm : List Nat)
    (hn : 1 ≤ n) (hp : perm.Perm (List.range n))
    (hnonneg : ∀ a b, a < n → b < n → 0 ≤ distAt D a b)
    (_hdiag : ∀ a, a < n → distAt D a a = 0) :
    0 ≤ calculateFitness D n perm ∧
      (calculateFitness D n perm = 0 →
        n ≤ 1 ∨
          ((∀ i, i < n - 1 → distAt D (perm.getD i 0) (perm.getD (i + 1) 0) = 0) ∧
            distAt D (perm.getD (n - 1) 0) (perm.getD 0 0) = 0)) := by
  have hedge : ∀ i j, 0 ≤ distAt D (perm.getD i 0) (perm.getD j 0) := fun i j =>
    hnonneg _ _ (getD_lt_of_perm n perm i hn hp) (getD_lt_of_perm n perm j hn hp)
  obtain ⟨hacc, hzero⟩ := foldl_addDouble_nonneg
    (fun i => distAt D (perm.getD i 0) (perm.getD (i + 1) 0)) (n - 1)
    (fun i => hedge i (i + 1))
  unfold calculateFitness
  simp only []
  refine ⟨addDouble_nonneg _ _ hacc (hedge _ _), ?_⟩
  intro h0
  right
  obtain ⟨h1, h2⟩ := addDouble_eq_zero _ _ hacc (hedge _ _) h0
  exact ⟨fun i hi => hzero h1 i hi, h2⟩

theorem calculateFitness_nonneg_witness :
    1 ≤ 4 ∧ ([2, 0, 3, 1] : List Nat).Perm (List.range 4) ∧
      (∀ a b, a < 4 → b < 4 →
        0 ≤ distAt [[0, 2, 3, 2], [2, 0, 2, 3], [3, 2, 0, 2], [2, 3, 2, 0]] a b) ∧
      (∀ a, a < 4 → distAt [[0, 2, 3, 2], [2, 0, 2, 3], [3, 2, 0, 2], [2, 3, 2, 0]] a a = 0) ∧
      (0 ≤ calculateFitness [[0, 2, 3, 2], [2, 0, 2, 3], [3, 2, 0, 2], [2, 3, 2, 0]] 4
          [2, 0, 3, 1] ∧
        (calculateFitness [[0, 2, 3, 2], [2, 0, 2, 3], [3, 2, 0, 2], [2, 3, 2, 0]] 4
            [2, 0, 3, 1] = 0 →
          4 ≤ 1 ∨
            ((∀ i, i < 4 - 1 →
                distAt [[0, 2, 3, 2], [2, 0, 2, 3], [3, 2, 0, 2], [2, 3, 2, 0]]
                  (([2, 0, 3, 1] : List Nat).getD i 0)
                  (([2, 0, 3, 1] : List Nat).getD (i + 1) 0) = 0) ∧
              distAt [[0, 2, 3, 2], [2, 0, 2, 3], [3, 2, 0, 2], [2, 3, 2, 0]]
                (([2, 0, 3, 1] : List Nat).getD (4 - 1) 0)
                (([2, 0, 3, 1] : List Nat).getD 0 0) = 0))) :=
  ⟨by decide, by decide,
    fun a b ha hb => by interval_cases a <;> interval_cases b <;> decide!,
    fun a ha => by interval_cases a <;> rfl,
    calculateFitness_nonneg _ 4 [2, 0, 3, 1] (by decide) (by decide)
      (fun a b ha hb => by interval_cases a <;> interval_cases b <;> decide!)
      (fun a ha => by interval_cases a <;> rfl)⟩

end tsp

/-! ## The distance matrix -/

namespace tsp

theorem calculateDistances_length (rawNodes : List (encoding × encoding)) (n : Nat) :
    (calculateDistances rawNodes n).length = n := by
  unfold calculateDistances
  rw [List.length_map, List.length_range]

theorem calculateDistances_row_length (rawNodes : List (encoding × encoding)) (n : Nat) :
    ∀ row ∈ calculateDistances rawNodes n, row.length = n := by
  intro row hrow
  unfold calculateDistances at hrow
  rw [List.mem_map] at hrow
  obtain ⟨i, _, rfl⟩ := hrow
  rw [List.length_map, List.length_range]

/-- The cell `(i, j)` of the table, read as the source reads `distanceMatrix[i][j]` inside
its bounds. -/
theorem calculateDistances_cell (rawNodes : List (encoding × encoding)) (n i j : Nat)
    (hi : i < n) (hj : j < n) :
    ((calculateDistances rawNodes n)[i]?).bind (fun row => row[j]?) =
      some (roundAway (euclideanDistance (rawNodes.getD i (0, 0)).1 (rawNodes.getD i (0, 0)).2
        (rawNodes.getD j (0, 0)).1 (rawNodes.getD j (0, 0)).2)) := by
  unfold calculateDistances
  rw [List.getElem?_map, List.getElem?_range hi]
  simp only [Option.map_some', Option.some_bind]
  rw [List.getElem?_map, List.getElem?_range hj]
  rfl

theorem calculateDistances_distAt (rawNodes : List (encoding × encoding)) (n i j : Nat)
    (hi : i < n) (hj : j < n) :
    distAt (calculateDistances rawNodes n) i j =
      roundAway (euclideanDistance (rawNodes.getD i (0, 0)).1 (rawNodes.getD i (0, 0)).2
        (rawNodes.getD j (0, 0)).1 (rawNodes.getD j (0, 0)).2) := by
  unfold distAt calculateDistances
  have hrow : ∀ (f : Nat → List encoding), ((List.range n).map f).getD i [] = f i := by
    intro f
    rw [List.getD_eq_getElem _ _ (by simpa using hi), List.getElem_map, List.getElem_range]
  have hcol : ∀ (g : Nat → encoding), ((List.range n).map g).getD j 0 = g j := by
    intro g
    rw [List.getD_eq_getElem _ _ (by simpa using hj), List.getElem_map, List.getElem_range]
  rw [hrow, hcol]

theorem subDouble_swap (a b : encoding) : subDouble a b = -subDouble b a := by
  unfold subDouble
  rw [← roundDouble_neg, neg_sub]

theorem mulDouble_neg_neg (a : encoding) : mulDouble (-a) (-a) = mulDouble a a := by
  unfold mulDouble
  rw [neg_mul_neg]

theorem euclideanDistance_comm (x1 y1 x2 y2 : encoding) :
    euclideanDistance x1 y1 x2 y2 = euclideanDistance x2 y2 x1 y1 := by
  unfold euclideanDistance
  rw [subDouble_swap x2 x1, subDouble_swap y2 y1, mulDouble_neg_neg, mulDouble_neg_neg]

theorem euclideanDistance_self (x y : encoding) : euclideanDistance x y x y = 0 := by
  unfold euclideanDistance subDouble mulDouble addDouble
  rw [sub_self, sub_self, roundDouble_zero, mul_zero, roundDouble_zero, add_zero,
    roundDouble_zero]
  unfold sqrtDouble
  rw [if_pos (le_refl _)]

theorem roundAway_zero : roundAway 0 = 0 := by
  unfold roundAway
  rw [if_pos (le_refl _)]
  norm_num

/-- C13: for a list of `n` node coordinates, `calculateDistances` builds a table of `n`
rows of `n` entries each; for all `i, j` in `[0, n)` the cells `D[i][j]` and `D[j][i]`
hold the same value, the rounded distance of the nodes `i` and `j`, and `D[i][i]` is 0. -/
theorem calculateDistances_symmetric (rawNodes : List (encoding × encoding)) (n i j : Nat)
    (hlen : rawNodes.length = n) (hi : i < n) (hj : j < n) :
    (calculateDistances rawNodes n).length = n ∧
      (∀ row ∈ calculateDistances rawNodes n, row.length = n) ∧
      (∃ nodeI nodeJ d, rawNodes[i]? = some nodeI ∧ rawNodes[j]? = some nodeJ ∧
        d = roundAway (euclideanDistance nodeI.1 nodeI.2 nodeJ.1 nodeJ.2) ∧
        ((calculateDistances rawNodes n)[i]?).bind (fun row => row[j]?) = some d ∧
        ((calculateDistances rawNodes n)[j]?).bind (fun row => row[i]?) = some d) ∧
      ((calculateDistances rawNodes n)[i]?).bind (fun row => row[i]?) = some 0 ∧
      distAt (calculateDistances rawNodes n) i j = distAt (calculateDistances rawNodes n) j i ∧
      distAt (calculateDistances rawNodes n) i i = 0 := by
  have hi2 : i < rawNodes.length := by omega
  have hj2 : j < rawNodes.length := by omega
  have gi : rawNodes.getD i (0, 0) = rawNodes[i] := List.getD_eq_getElem _ _ hi2
  have gj : rawNodes.getD j (0, 0) = rawNodes[j] := List.getD_eq_getElem _ _ hj2
  refine ⟨calculateDistances_length rawNodes n, calculateDistances_row_length rawNodes n,
    ⟨rawNodes[i], rawNodes[j], _, List.getElem?_eq_getElem hi2, List.getElem?_eq_getElem hj2,
      rfl, ?_, ?_⟩, ?_, ?_, ?_⟩
  · rw [calculateDistances_cell rawNodes n i j hi hj, gi, gj]
  · rw [calculateDistances_cell rawNodes n j i hj hi, gi, gj, euclideanDistance_comm]
  · rw [calculateDistances_cell rawNodes n i i hi hi, euclideanDistance_self, roundAway_zero]
  · rw [calculateDistances_distAt rawNodes n i j hi hj,
      calculateDistances_distAt rawNodes n j i hj hi, euclideanDistance_comm]
  · rw [calculateDistances_distAt rawNodes n i i hi hi, euclideanDistance_self, roundAway_zero]

theorem calculateDistances_symmetric_witness :
    squareNodes.length = 4 ∧ 1 < 4 ∧ 2 < 4 ∧
      ((calculateDistances squareNodes 4).length = 4 ∧
        (∀ row ∈ calculateDistances squareNodes 4, row.length = 4) ∧
        (∃ nodeI nodeJ d, squareNodes[1]? = some nodeI ∧ squareNodes[2]? = some nodeJ ∧
          d = roundAway (euclideanDistance nodeI.1 nodeI.2 nodeJ.1 nodeJ.2) ∧
          ((calculateDistances squareNodes 4)[1]?).bind (fun row => row[2]?) = some d ∧
          ((calculateDistances squareNodes 4)[2]?).bind (fun row => row[1]?) = some d) ∧
        ((calculateDistances squareNodes 4)[1]?).bind (fun row => row[1]?) = some 0 ∧
        distAt (calculateDistances squareNodes 4) 1 2 =
          distAt (calculateDistances squareNodes 4) 2 1 ∧
        distAt (calculateDistances squareNodes 4) 1 1 = 0) :=
  ⟨rfl, by decide, by decide,
    calculateDistances_symmetric squareNodes 4 1 2 rfl (by decide) (by decide)⟩

end tsp

/-! ## The problem facade -/

namespace TravellingSalesmanProblem

theorem boundsStep_foldl (is : List Nat) (l1 l2 : List tsp.encoding) :
    is.foldl boundsStep (l1, l2) =
      (is.foldl (fun l i => l.set i ((fun _ => (0 : tsp.encoding)) i)) l1,
        is.foldl (fun l i => l.set i ((fun _ => tsp.nextafterOne) i)) l2) := by
  induction is generalizing l1 l2 with
  | nil => rfl
  | cons i is ih =>
    rw [List.foldl_cons, List.foldl_cons, List.foldl_cons]
    exact ih _ _

/-- C15: constructing `TravellingSalesmanProblem` with dimension 0 ends in `exit(1)`
after the error message and builds no problem; for every dimension `n > 0` the
construction succeeds with bound vectors of length `n` where `lb[i] = 0` and
`ub[i] = nextafter(1.0, 0.0)` for every `i` in `[0, n)`.  That value is below 1 and no
multiple of `2^(-53)` (the doubles of `[1/2, 1)`) lies strictly between it and 1. -/
theorem new_bounds (n : Nat) (rawNodes : List (tsp.encoding × tsp.encoding)) (hn : 0 < n) :
    TravellingSalesmanProblem.new 0 rawNodes =
        Construction.exited 1 "Zero nodes were given as input\n" ∧
      (∃ problem, TravellingSalesmanProblem.new n rawNodes = Construction.built problem ∧
        problem.dimension = n ∧ problem.lb.length = n ∧ problem.ub.length = n ∧
        ∀ i, i < n → problem.lb[i]? = some 0 ∧ problem.ub[i]? = some tsp.nextafterOne) ∧
      tsp.nextafterOne < 1 ∧
      (∀ k : Nat, (k : ℚ) / 2 ^ 53 < 1 → (k : ℚ) / 2 ^ 53 ≤ tsp.nextafterOne) := by
  refine ⟨rfl, ?_, ?_, ?_⟩
  · unfold TravellingSalesmanProblem.new
    rw [if_neg (by omega)]
    refine ⟨_, rfl, rfl, ?_, ?_, ?_⟩
    · simp only [boundsStep_foldl]
      rw [TSPSolution.foldl_set_length, List.length_replicate]
    · simp only [boundsStep_foldl]
      rw [TSPSolution.foldl_set_length, List.length_replicate]
    · intro i hi
      simp only [boundsStep_foldl]
      rw [TSPSolution.foldl_set_getElem?, TSPSolution.foldl_set_getElem?,
        List.length_replicate,
        if_pos ⟨List.mem_range.mpr hi, hi⟩, if_pos ⟨List.mem_range.mpr hi, hi⟩]
      exact ⟨rfl, rfl⟩
  · unfold tsp.nextafterOne
    norm_num
  · intro k hk
    unfold tsp.nextafterOne
    rw [div_lt_one (by positivity)] at hk
    have hk2 : k < 2 ^ 53 := by exact_mod_cast hk
    have hk3 : k + 1 ≤ 2 ^ 53 := hk2
    have hk4 : (k : ℚ) + 1 ≤ 2 ^ 53 := by exact_mod_cast hk3
    rw [div_le_iff₀ (by positivity)]
    have : ((1 : ℚ) - 1 / 2 ^ 53) * 2 ^ 53 = 2 ^ 53 - 1 := by
      field_simp
    rw [this]
    linarith

theorem new_bounds_witness :
    0 < 4 ∧
      (TravellingSalesmanProblem.new 0 tsp.squareNodes =
          Construction.exited 1 "Zero nodes were given as input\n" ∧
        (∃ problem,
          TravellingSalesmanProblem.new 4 tsp.squareNodes = Construction.built problem ∧
          problem.dimension = 4 ∧ problem.lb.length = 4 ∧ problem.ub.length = 4 ∧
          ∀ i, i < 4 → problem.lb[i]? = some 0 ∧ problem.ub[i]? = some tsp.nextafterOne) ∧
        tsp.nextafterOne < 1 ∧
        (∀ k : Nat, (k : ℚ) / 2 ^ 53 < 1 → (k : ℚ) / 2 ^ 53 ≤ tsp.nextafterOne)) :=
  ⟨by decide, new_bounds 4 tsp.squareNodes (by decide)⟩

end TravellingSalesmanProblem

/-! ## The values written by the encoder in double arithmetic -/

namespace tsp

theorem encodeStepDouble_foldl_length (share : encoding) (p : List Nat) (l : List encoding)
    (a : encoding) : (p.foldl (encodeStepDouble share) (l, a)).1.length = l.length := by
  induction p generalizing l a with
  | nil => rfl
  | cons i is ih =>
    rw [List.foldl_cons]
    simp only [encodeStepDouble]
    rw [ih, List.length_set]

theorem encodeStepDouble_foldl_getD_of_not_mem (share : encoding) (p : List Nat)
    (l : List encoding) (a : encoding) (k : Nat) (hk : k ∉ p) :
    (p.foldl (encodeStepDouble share) (l, a)).1.getD k 0 = l.getD k 0 := by
  induction p generalizing l a with
  | nil => rfl
  | cons i is ih =>
    rw [List.foldl_cons]
    simp only [encodeStepDouble]
    rw [ih _ _ (fun h => hk (List.mem_cons_of_mem _ h))]
    have hne : i ≠ k := fun h => hk (h ▸ List.mem_cons_self _ _)
    rw [List.getD_eq_getElem?_getD, List.getD_eq_getElem?_getD, List.getElem?_set_ne hne]

/-- The node of rank `k` receives the starting `acc` after `k` rounded additions of
`share`. -/
theorem encodeStepDouble_foldl_rank (share : encoding) (p : List Nat) (l : List encoding)
    (a : encoding) (k : Nat) (hnd : p.Nodup) (hlt : ∀ x ∈ p, x < l.length)
    (hk : k < p.length) :
    (p.foldl (encodeStepDouble share) (l, a)).1.getD (p.getD k 0) 0 =
      (fun acc => addDouble acc share)^[k] a := by
  induction p generalizing l a k with
  | nil => exact absurd hk (by simp)
  | cons i is ih =>
    rw [List.nodup_cons] at hnd
    have hi : i < l.length := hlt i (List.mem_cons_self _ _)
    rw [List.foldl_cons]
    simp only [encodeStepDouble]
    cases k with
    | zero =>
      rw [List.getD_cons_zero, encodeStepDouble_foldl_getD_of_not_mem _ _ _ _ _ hnd.1,
        List.getD_eq_getElem?_getD, List.getElem?_set_self hi]
      rfl
    | succ k =>
      rw [List.getD_cons_succ, ih (l.set i a) (addDouble a share) k hnd.2
        (fun x hx => by rw [List.length_set]; exact hlt x (List.mem_cons_of_mem _ hx))
        (by simpa using hk), Function.iterate_succ_apply]

theorem share_bounds (n : Nat) (hn : 1 ≤ n) :
    (1 - 1 / 2 ^ 53) * (1 / (n : ℚ)) ≤ divDouble 1 (n : ℚ) ∧
      divDouble 1 (n : ℚ) ≤ (1 + 1 / 2 ^ 53) * (1 / (n : ℚ)) := by
  have hn0 : (0 : ℚ) < (n : ℚ) := by exact_mod_cast hn
  have hpos : (0 : ℚ) < 1 / (n : ℚ) := by positivity
  obtain ⟨h1, h2⟩ := roundDouble_error (1 / (n : ℚ)) hpos
  unfold divDouble
  constructor
  · have : (1 - 1 / 2 ^ 53) * (1 / (n : ℚ)) = 1 / (n : ℚ) - 1 / (n : ℚ) / 2 ^ 53 := by ring
    rw [this]; exact h1
  · have : (1 + 1 / 2 ^ 53) * (1 / (n : ℚ)) = 1 / (n : ℚ) + 1 / (n : ℚ) / 2 ^ 53 := by ring
    rw [this]; exact h2

/-- The accumulator after `k` rounded additions of a non-negative `share` is non-negative
and at most `(acc + k * share) * (1 + 2 * k * 2^(-53))`, for `k ≤ 2^26`. -/
theorem iterate_addDouble_bound (s a : encoding) (hs : 0 ≤ s) (ha : 0 < a) (k : Nat)
    (hk : k ≤ 2 ^ 26) :
    0 < (fun acc => addDouble acc s)^[k] a ∧
      (fun acc => addDouble acc s)^[k] a ≤
        (a + (k : ℚ) * s) * (1 + 2 * (k : ℚ) * (1 / 2 ^ 53)) := by
  induction k with
  | zero => simp [ha]
  | succ k ih =>
    obtain ⟨hpos, hub⟩ := ih (by omega)
    rw [Function.iterate_succ_apply']
    have hsum : 0 < (fun acc => addDouble acc s)^[k] a + s := by linarith
    obtain ⟨_, herr⟩ := roundDouble_error _ hsum
    refine ⟨roundDouble_pos _ hsum, ?_⟩
    have hk2 : (k : ℚ) ≤ 2 ^ 26 := by exact_mod_cast (show k ≤ 2 ^ 26 by omega)
    have hk0 : (0 : ℚ) ≤ (k : ℚ) := Nat.cast_nonneg k
    have hT : 0 < a + (k : ℚ) * s := by
      have := mul_nonneg hk0 hs
      linarith
    show roundDouble ((fun acc => addDouble acc s)^[k] a + s) ≤ _
    push_cast
    have h1 : (fun acc => addDouble acc s)^[k] a + s +
        ((fun acc => addDouble acc s)^[k] a + s) / 2 ^ 53 ≤
        ((a + (k : ℚ) * s) * (1 + 2 * (k : ℚ) * (1 / 2 ^ 53)) + s) * (1 + 1 / 2 ^ 53) := by
      have : (fun acc => addDouble acc s)^[k] a + s +
          ((fun acc => addDouble acc s)^[k] a + s) / 2 ^ 53 =
          ((fun acc => addDouble acc s)^[k] a + s) * (1 + 1 / 2 ^ 53) := by ring
      rw [this]
      apply mul_le_mul_of_nonneg_right _ (by norm_num)
      linarith
    have h2 : ((a + (k : ℚ) * s) * (1 + 2 * (k : ℚ) * (1 / 2 ^ 53)) + s) * (1 + 1 / 2 ^ 53) ≤
        (a + ((k : ℚ) + 1) * s) * (1 + 2 * ((k : ℚ) + 1) * (1 / 2 ^ 53)) := by
      have hkw : 2 * (k : ℚ) * (1 / 2 ^ 53) ≤ 1 := by
        have : (2 : ℚ) * 2 ^ 26 * (1 / 2 ^ 53) ≤ 1 := by norm_num
        nlinarith
      have hTk : 0 ≤ (a + (k : ℚ) * s) * (1 - 2 * (k : ℚ) * (1 / 2 ^ 53)) :=
        mul_nonneg (le_of_lt hT) (by linarith)
      have hsk : 0 ≤ s * (k : ℚ) := mul_nonneg hs hk0
      nlinarith
    linarith

end tsp

namespace tsp

/-- For `1 ≤ n ≤ 2^26` the accumulator of the encoder stays inside `(0, 1)` through the
first `n - 1` rounded additions of the rounded share `1.0 / n`. -/
theorem iterate_share_lt_one (n k : Nat) (hn : 1 ≤ n) (hn26 : n ≤ 2 ^ 26) (hk : k < n) :
    0 < (fun acc => addDouble acc (divDouble 1 (n : ℚ)))^[k] nextafterZero ∧
      (fun acc => addDouble acc (divDouble 1 (n : ℚ)))^[k] nextafterZero < 1 := by
  have hn0 : (0 : ℚ) < (n : ℚ) := by exact_mod_cast hn
  have hinv : (0 : ℚ) < 1 / (n : ℚ) := by positivity
  obtain ⟨hslo, hshi⟩ := share_bounds n hn
  have hs0 : 0 ≤ divDouble 1 (n : ℚ) := by
    have : (0 : ℚ) ≤ (1 - 1 / 2 ^ 53) * (1 / (n : ℚ)) := mul_nonneg (by norm_num) (le_of_lt hinv)
    linarith
  have heps : (0 : ℚ) < nextafterZero := by unfold nextafterZero; positivity
  obtain ⟨hpos, hub⟩ := iterate_addDouble_bound (divDouble 1 (n : ℚ)) nextafterZero hs0 heps k
    (by omega)
  refine ⟨hpos, lt_of_le_of_lt hub ?_⟩
  have hk0 : (0 : ℚ) ≤ (k : ℚ) := Nat.cast_nonneg k
  have hkn : (k : ℚ) ≤ (n : ℚ) - 1 := by
    have : (k : ℚ) + 1 ≤ (n : ℚ) := by exact_mod_cast hk
    linarith
  have hn26q : (n : ℚ) ≤ 2 ^ 26 := by exact_mod_cast hn26
  have hinv26 : (1 : ℚ) / 2 ^ 26 ≤ 1 / (n : ℚ) := one_div_le_one_div_of_le hn0 hn26q
  have hks : (k : ℚ) * divDouble 1 (n : ℚ) ≤ (1 + 1 / 2 ^ 53) * (1 - 1 / 2 ^ 26) := by
    calc (k : ℚ) * divDouble 1 (n : ℚ)
        ≤ ((n : ℚ) - 1) * ((1 + 1 / 2 ^ 53) * (1 / (n : ℚ))) :=
          mul_le_mul hkn hshi hs0 (by linarith)
      _ = (1 + 1 / 2 ^ 53) * (1 - 1 / (n : ℚ)) := by field_simp; ring
      _ ≤ (1 + 1 / 2 ^ 53) * (1 - 1 / 2 ^ 26) :=
          mul_le_mul_of_nonneg_left (by linarith) (by norm_num)
  have hks0 : 0 ≤ (k : ℚ) * divDouble 1 (n : ℚ) := mul_nonneg hk0 hs0
  have hfac : 1 + 2 * (k : ℚ) * (1 / 2 ^ 53) ≤ 1 + 1 / 2 ^ 26 := by
    have : (k : ℚ) ≤ 2 ^ 26 := by linarith
    have h2 : 2 * (k : ℚ) * (1 / 2 ^ 53) ≤ 2 * 2 ^ 26 * (1 / 2 ^ 53) := by nlinarith
    have h3 : (2 : ℚ) * 2 ^ 26 * (1 / 2 ^ 53) = 1 / 2 ^ 26 := by norm_num
    linarith
  have hfac0 : (0 : ℚ) ≤ 1 + 2 * (k : ℚ) * (1 / 2 ^ 53) := by positivity
  have hepsle : nextafterZero ≤ 1 / 2 ^ 60 := by
    unfold nextafterZero
    exact one_div_le_one_div_of_le (by positivity) (pow_le_pow_right₀ one_le_two (by decide))
  calc (nextafterZero + (k : ℚ) * divDouble 1 (n : ℚ)) * (1 + 2 * (k : ℚ) * (1 / 2 ^ 53))
      ≤ (1 / 2 ^ 60 + (1 + 1 / 2 ^ 53) * (1 - 1 / 2 ^ 26)) * (1 + 1 / 2 ^ 26) :=
        mul_le_mul (by linarith) hfac hfac0 (by norm_num)
    _ < 1 := by norm_num

/-- For `1 ≤ n ≤ 2^26` each of the first `n - 1` rounded additions of the share strictly
increases the accumulator: the share is above half a unit in the last place. -/
theorem iterate_share_step_lt (n k : Nat) (hn : 1 ≤ n) (hn26 : n ≤ 2 ^ 26) (hk : k < n) :
    (fun acc => addDouble acc (divDouble 1 (n : ℚ)))^[k] nextafterZero <
      (fun acc => addDouble acc (divDouble 1 (n : ℚ)))^[k + 1] nextafterZero := by
  obtain ⟨hpos, hlt1⟩ := iterate_share_lt_one n k hn hn26 hk
  have hn0 : (0 : ℚ) < (n : ℚ) := by exact_mod_cast hn
  obtain ⟨hslo, _⟩ := share_bounds n hn
  have hn26q : (n : ℚ) ≤ 2 ^ 26 := by exact_mod_cast hn26
  have hinv26 : (1 : ℚ) / 2 ^ 26 ≤ 1 / (n : ℚ) := one_div_le_one_div_of_le hn0 hn26q
  have hs : (1 - 1 / 2 ^ 53) * (1 / 2 ^ 26) ≤ divDouble 1 (n : ℚ) :=
    le_trans (mul_le_mul_of_nonneg_left hinv26 (by norm_num)) hslo
  rw [Function.iterate_succ_apply']
  have hsum : 0 < (fun acc => addDouble acc (divDouble 1 (n : ℚ)))^[k] nextafterZero +
      divDouble 1 (n : ℚ) := by
    have : (0 : ℚ) < (1 - 1 / 2 ^ 53) * (1 / 2 ^ 26) := by norm_num
    linarith
  obtain ⟨hlo, _⟩ := roundDouble_error _ hsum
  show _ < roundDouble ((fun acc => addDouble acc (divDouble 1 (n : ℚ)))^[k] nextafterZero +
      divDouble 1 (n : ℚ))
  have hnum : (1 : ℚ) / 2 ^ 53 < (1 - 1 / 2 ^ 53) * ((1 - 1 / 2 ^ 53) * (1 / 2 ^ 26)) := by
    norm_num
  have h1 : (1 - 1 / 2 ^ 53) * ((1 - 1 / 2 ^ 53) * (1 / 2 ^ 26)) ≤
      (1 - 1 / 2 ^ 53) * divDouble 1 (n : ℚ) :=
    mul_le_mul_of_nonneg_left hs (by norm_num)
  linarith

theorem iterate_share_strictMono (n a b : Nat) (hn : 1 ≤ n) (hn26 : n ≤ 2 ^ 26) (hab : a < b)
    (hb : b < n) :
    (fun acc => addDouble acc (divDouble 1 (n : ℚ)))^[a] nextafterZero <
      (fun acc => addDouble acc (divDouble 1 (n : ℚ)))^[b] nextafterZero := by
  induction b with
  | zero => omega
  | succ b ih =>
    have hstep := iterate_share_step_lt n b hn hn26 (by omega)
    rcases Nat.lt_succ_iff_lt_or_eq.mp hab with h | h
    · exact lt_trans (ih h (by omega)) hstep
    · rw [h]; exact hstep

/-- The accumulator after `k` rounded additions of a non-negative `share` is at least
`(acc + k * share) * (1 - k * 2^(-53))`. -/
theorem iterate_addDouble_lower (s a : encoding) (hs : 0 ≤ s) (ha : 0 < a) (k : Nat) :
    0 < (fun acc => addDouble acc s)^[k] a ∧
      (a + (k : ℚ) * s) * (1 - (k : ℚ) * (1 / 2 ^ 53)) ≤ (fun acc => addDouble acc s)^[k] a := by
  induction k with
  | zero => simp [ha]
  | succ k ih =>
    obtain ⟨hpos, hlb⟩ := ih
    rw [Function.iterate_succ_apply']
    have hsum : 0 < (fun acc => addDouble acc s)^[k] a + s := by linarith
    obtain ⟨herr, _⟩ := roundDouble_error _ hsum
    refine ⟨roundDouble_pos _ hsum, ?_⟩
    have hk0 : (0 : ℚ) ≤ (k : ℚ) := Nat.cast_nonneg k
    have hT : 0 ≤ a + (k : ℚ) * s := by
      have := mul_nonneg hk0 hs
      linarith
    show _ ≤ roundDouble ((fun acc => addDouble acc s)^[k] a + s)
    push_cast
    have h1 : ((a + (k : ℚ) * s) * (1 - (k : ℚ) * (1 / 2 ^ 53)) + s) * (1 - 1 / 2 ^ 53) ≤
        (fun acc => addDouble acc s)^[k] a + s -
          ((fun acc => addDouble acc s)^[k] a + s) / 2 ^ 53 := by
      have : (fun acc => addDouble acc s)^[k] a + s -
          ((fun acc => addDouble acc s)^[k] a + s) / 2 ^ 53 =
          ((fun acc => addDouble acc s)^[k] a + s) * (1 - 1 / 2 ^ 53) := by ring
      rw [this]
      apply mul_le_mul_of_nonneg_right _ (by norm_num)
      linarith
    have h2 : (a + ((k : ℚ) + 1) * s) * (1 - ((k : ℚ) + 1) * (1 / 2 ^ 53)) ≤
        ((a + (k : ℚ) * s) * (1 - (k : ℚ) * (1 / 2 ^ 53)) + s) * (1 - 1 / 2 ^ 53) := by
      have hTk : 0 ≤ (a + (k : ℚ) * s) * ((k : ℚ) * (1 / 2 ^ 53 * (1 / 2 ^ 53))) :=
        mul_nonneg hT (mul_nonneg hk0 (by norm_num))
      have hsk : 0 ≤ s * ((k : ℚ) * (1 / 2 ^ 53)) := mul_nonneg hs (mul_nonneg hk0 (by norm_num))
      nlinarith
    linarith

/-- For `1 ≤ n ≤ 2^26` the accumulator after `k < n` rounded additions of the rounded
share is `eps + k * (1/n)` up to a relative error of `2^(-26)`. -/
theorem iterate_share_close (n k : Nat) (hn : 1 ≤ n) (hn26 : n ≤ 2 ^ 26) (hk : k < n) :
    (nextafterZero + (k : ℚ) * (1 / (n : ℚ))) * (1 - 1 / 2 ^ 26) ≤
        (fun acc => addDouble acc (divDouble 1 (n : ℚ)))^[k] nextafterZero ∧
      (fun acc => addDouble acc (divDouble 1 (n : ℚ)))^[k] nextafterZero ≤
        (nextafterZero + (k : ℚ) * (1 / (n : ℚ))) * (1 + 1 / 2 ^ 26) := by
  have hn0 : (0 : ℚ) < (n : ℚ) := by exact_mod_cast hn
  have hinv : (0 : ℚ) < 1 / (n : ℚ) := by positivity
  obtain ⟨hslo, hshi⟩ := share_bounds n hn
  have hs0 : 0 ≤ divDouble 1 (n : ℚ) := by
    have : (0 : ℚ) ≤ (1 - 1 / 2 ^ 53) * (1 / (n : ℚ)) := mul_nonneg (by norm_num) (le_of_lt hinv)
    linarith
  have heps : (0 : ℚ) < nextafterZero := by unfold nextafterZero; positivity
  obtain ⟨_, hub⟩ := iterate_addDouble_bound (divDouble 1 (n : ℚ)) nextafterZero hs0 heps k
    (by omega)
  obtain ⟨_, hlb⟩ := iterate_addDouble_lower (divDouble 1 (n : ℚ)) nextafterZero hs0 heps k
  have hk0 : (0 : ℚ) ≤ (k : ℚ) := Nat.cast_nonneg k
  have hk26 : (k : ℚ) ≤ 2 ^ 26 - 1 := by
    have h1 : (k : ℚ) + 1 ≤ (n : ℚ) := by exact_mod_cast hk
    have h2 : (n : ℚ) ≤ 2 ^ 26 := by exact_mod_cast hn26
    linarith
  have hX : 0 ≤ nextafterZero + (k : ℚ) * (1 / (n : ℚ)) := by
    have := mul_nonneg hk0 (le_of_lt hinv)
    linarith
  have hkslo : (k : ℚ) * ((1 - 1 / 2 ^ 53) * (1 / (n : ℚ))) ≤ (k : ℚ) * divDouble 1 (n : ℚ) :=
    mul_le_mul_of_nonneg_left hslo hk0
  have hkshi : (k : ℚ) * divDouble 1 (n : ℚ) ≤ (k : ℚ) * ((1 + 1 / 2 ^ 53) * (1 / (n : ℚ))) :=
    mul_le_mul_of_nonneg_left hshi hk0
  have hY0 : 0 ≤ nextafterZero + (k : ℚ) * divDouble 1 (n : ℚ) := by
    have := mul_nonneg hk0 hs0
    linarith
  have hYlo : (nextafterZero + (k : ℚ) * (1 / (n : ℚ))) * (1 - 1 / 2 ^ 53) ≤
      nextafterZero + (k : ℚ) * divDouble 1 (n : ℚ) := by
    have : (nextafterZero + (k : ℚ) * (1 / (n : ℚ))) * (1 - 1 / 2 ^ 53) =
        nextafterZero - nextafterZero * (1 / 2 ^ 53) +
          (k : ℚ) * ((1 - 1 / 2 ^ 53) * (1 / (n : ℚ))) := by ring
    have h3 : 0 ≤ nextafterZero * (1 / 2 ^ 53) := mul_nonneg (le_of_lt heps) (by norm_num)
    linarith
  have hYhi : nextafterZero + (k : ℚ) * divDouble 1 (n : ℚ) ≤
      (nextafterZero + (k : ℚ) * (1 / (n : ℚ))) * (1 + 1 / 2 ^ 53) := by
    have : (nextafterZero + (k : ℚ) * (1 / (n : ℚ))) * (1 + 1 / 2 ^ 53) =
        nextafterZero + nextafterZero * (1 / 2 ^ 53) +
          (k : ℚ) * ((1 + 1 / 2 ^ 53) * (1 / (n : ℚ))) := by ring
    have h3 : 0 ≤ nextafterZero * (1 / 2 ^ 53) := mul_nonneg (le_of_lt heps) (by norm_num)
    linarith
  have hf1 : (0 : ℚ) ≤ 1 - (k : ℚ) * (1 / 2 ^ 53) := by linarith
  have hf2 : (0 : ℚ) ≤ 1 + 2 * (k : ℚ) * (1 / 2 ^ 53) := by linarith
  constructor
  · calc (nextafterZero + (k : ℚ) * (1 / (n : ℚ))) * (1 - 1 / 2 ^ 26)
        ≤ (nextafterZero + (k : ℚ) * (1 / (n : ℚ))) *
            ((1 - 1 / 2 ^ 53) * (1 - (k : ℚ) * (1 / 2 ^ 53))) :=
          mul_le_mul_of_nonneg_left (by linarith) hX
      _ = (nextafterZero + (k : ℚ) * (1 / (n : ℚ))) * (1 - 1 / 2 ^ 53) *
            (1 - (k : ℚ) * (1 / 2 ^ 53)) := by ring
      _ ≤ (nextafterZero + (k : ℚ) * divDouble 1 (n : ℚ)) * (1 - (k : ℚ) * (1 / 2 ^ 53)) :=
          mul_le_mul_of_nonneg_right hYlo hf1
      _ ≤ _ := hlb
  · calc (fun acc => addDouble acc (divDouble 1 (n : ℚ)))^[k] nextafterZero
        ≤ (nextafterZero + (k : ℚ) * divDouble 1 (n : ℚ)) *
            (1 + 2 * (k : ℚ) * (1 / 2 ^ 53)) := hub
      _ ≤ (nextafterZero + (k : ℚ) * (1 / (n : ℚ))) * (1 + 1 / 2 ^ 53) *
            (1 + 2 * (k : ℚ) * (1 / 2 ^ 53)) :=
          mul_le_mul_of_nonneg_right hYhi hf2
      _ = (nextafterZero + (k : ℚ) * (1 / (n : ℚ))) *
            ((1 + 1 / 2 ^ 53) * (1 + 2 * (k : ℚ) * (1 / 2 ^ 53))) := by ring
      _ ≤ (nextafterZero + (k : ℚ) * (1 / (n : ℚ))) * (1 + 1 / 2 ^ 26) :=
          mul_le_mul_of_nonneg_left (by linarith) hX

/-- The double-arithmetic encoding of a rearrangement `p` of `0, …, n-1` gives the node of
rank `r` the accumulator after `r` rounded additions of the rounded share. -/
theorem encodeDouble_rank (n : Nat) (p : List Nat) (dv : List encoding)
    (hp : p.Perm (List.range n)) (hdv : dv.length = n) (r : Nat) (hr : r < n) :
    (encodeDouble p dv).getD (p.getD r 0) 0 =
      (fun acc => addDouble acc (divDouble 1 (n : ℚ)))^[r] nextafterZero := by
  have hlen : p.length = n := by rw [hp.length_eq, List.length_range]
  unfold encodeDouble
  simp only [hlen]
  exact encodeStepDouble_foldl_rank _ p dv nextafterZero r
    (hp.nodup_iff.mpr (List.nodup_range n))
    (fun x hx => by rw [hdv]; exact List.mem_range.mp (hp.mem_iff.mp hx)) (by omega)

/-- For `1 ≤ n ≤ 2^26` the double-arithmetic encoding of a rearrangement `p` of
`0, …, n-1` decodes to `p`, as the exact encoding does: the rounding of the additions
does not change the order of the values. -/
theorem encodeDouble_roundtrip (n : Nat) (p : List Nat) (dv : List encoding) (hn : 1 ≤ n)
    (hn26 : n ≤ 2 ^ 26) (hp : p.Perm (List.range n)) (hdv : dv.length = n) :
    createPermutation n (encodeDouble p dv) = p ∧
      createPermutation n (encodeDouble p dv) = createPermutation n (encode p dv) := by
  have hlen : p.length = n := by rw [hp.length_eq, List.length_range]
  have hsorted : p.Sorted (tieLe (encodeDouble p dv)) := by
    unfold List.Sorted
    rw [List.pairwise_iff_getElem]
    intro i j hi hj hij
    rw [tieLe_iff]
    left
    have e1 : p[i] = p.getD i 0 := (List.getD_eq_getElem _ 0 hi).symm
    have e2 : p[j] = p.getD j 0 := (List.getD_eq_getElem _ 0 hj).symm
    rw [e1, e2, encodeDouble_rank n p dv hp hdv i (by omega),
      encodeDouble_rank n p dv hp hdv j (by omega)]
    exact iterate_share_strictMono n i j hn hn26 hij (by omega)
  have h1 := createPermutation_unique n _ p hp hsorted
  have h2 := createPermutation_unique n _ p hp (encode_sorted n p dv hn hp hdv)
  exact ⟨h1, by rw [h1, h2]⟩

/-- C17, as stated, fails: for the permutation `[2, 0, 3, 1]` the code writes at the node
of rank 1 (node 0) the double sum of `eps` and `0.25`, which is `0.25`, not
`eps + 1 * (1/4)`. -/
theorem encode_values_counterexample :
    ([2, 0, 3, 1] : List Nat).getD 1 0 = 0 ∧
      (encodeDouble [2, 0, 3, 1] [0, 0, 0, 0]).getD 0 0 = 1 / 4 ∧
      (encodeDouble [2, 0, 3, 1] [0, 0, 0, 0]).getD 0 0 ≠
        nextafterZero + ((1 : Nat) : ℚ) * (1 / ((4 : Nat) : ℚ)) ∧
      encodeDouble [2, 0, 3, 1] [0, 0, 0, 0] = [1 / 4, 3 / 4, nextafterZero, 1 / 2] := by
  decide!

/-- C17, amended: for `1 ≤ n ≤ 2^26` and a permutation `p` of `{0, …, n-1}`, `tsp::encode`
in double arithmetic gives the node of rank 0 the value `eps`, the smallest positive
double, and the node of rank `k + 1` the rounded sum of the value at rank `k` and the
rounded quotient `1.0 / n`; the value at rank `k` is `eps + k * (1/n)` up to a relative
error of `2^(-26)`; the values increase strictly with the rank, the entries of the
decision vector are pairwise distinct, and every entry lies in `[0, 1)`. -/
theorem encode_values (n : Nat) (p : List Nat) (dv : List encoding) (k : Nat)
    (hn : 1 ≤ n) (hn26 : n ≤ 2 ^ 26) (hp : p.Perm (List.range n)) (hdv : dv.length = n)
    (hk : k < n) :
    (encodeDouble p dv).getD (p.getD 0 0) 0 = nextafterZero ∧
      nextafterZero = 1 / 2 ^ 1074 ∧
      (k + 1 < n → (encodeDouble p dv).getD (p.getD (k + 1) 0) 0 =
        addDouble ((encodeDouble p dv).getD (p.getD k 0) 0) (divDouble 1 (n : ℚ))) ∧
      ((nextafterZero + (k : ℚ) * (1 / (n : ℚ))) * (1 - 1 / 2 ^ 26) ≤
          (encodeDouble p dv).getD (p.getD k 0) 0 ∧
        (encodeDouble p dv).getD (p.getD k 0) 0 ≤
          (nextafterZero + (k : ℚ) * (1 / (n : ℚ))) * (1 + 1 / 2 ^ 26)) ∧
      (∀ k2, k < k2 → k2 < n →
        (encodeDouble p dv).getD (p.getD k 0) 0 < (encodeDouble p dv).getD (p.getD k2 0) 0) ∧
      (∀ a b, a < n → b < n → a ≠ b →
        (encodeDouble p dv).getD a 0 ≠ (encodeDouble p dv).getD b 0) ∧
      (∀ a, a < n → 0 ≤ (encodeDouble p dv).getD a 0 ∧ (encodeDouble p dv).getD a 0 < 1) := by
  have hval := encodeDouble_rank n p dv hp hdv
  have hrank : ∀ a, a < n → ∃ r, r < n ∧ p.getD r 0 = a := by
    intro a ha
    obtain ⟨r, hr, hra⟩ := List.getElem_of_mem (hp.mem_iff.mpr (List.mem_range.mpr ha))
    have hlen : p.length = n := by rw [hp.length_eq, List.length_range]
    exact ⟨r, by omega, by rw [List.getD_eq_getElem _ 0 hr]; exact hra⟩
  refine ⟨hval 0 (by omega), rfl, ?_, ?_, ?_, ?_, ?_⟩
  · intro hk1
    rw [hval (k + 1) hk1, hval k hk, Function.iterate_succ_apply']
  · rw [hval k hk]
    exact iterate_share_close n k hn hn26 hk
  · intro k2 hk2 hk2n
    rw [hval k hk, hval k2 hk2n]
    exact iterate_share_strictMono n k k2 hn hn26 hk2 hk2n
  · intro a b ha hb hab heq
    obtain ⟨r1, hr1, rfl⟩ := hrank a ha
    obtain ⟨r2, hr2, rfl⟩ := hrank b hb
    rw [hval r1 hr1, hval r2 hr2] at heq
    rcases Nat.lt_trichotomy r1 r2 with h | h | h
    · exact absurd heq (ne_of_lt (iterate_share_strictMono n r1 r2 hn hn26 h hr2))
    · exact hab (by rw [h])
    · exact absurd heq.symm (ne_of_lt (iterate_share_strictMono n r2 r1 hn hn26 h hr1))
  · intro a ha
    obtain ⟨r, hr, rfl⟩ := hrank a ha
    rw [hval r hr]
    obtain ⟨h0, h1⟩ := iterate_share_lt_one n r hn hn26 hr
    exact ⟨le_of_lt h0, h1⟩

theorem encode_values_witness :
    1 ≤ 4 ∧ 4 ≤ 2 ^ 26 ∧ ([2, 0, 3, 1] : List Nat).Perm (List.range 4) ∧
      ([0, 0, 0, 0] : List encoding).length = 4 ∧ 1 < 4 ∧
      ((encodeDouble [2, 0, 3, 1] [0, 0, 0, 0]).getD (([2, 0, 3, 1] : List Nat).getD 0 0) 0 =
          nextafterZero ∧
        nextafterZero = 1 / 2 ^ 1074 ∧
        (1 + 1 < 4 →
          (encodeDouble [2, 0, 3, 1] [0, 0, 0, 0]).getD (([2, 0, 3, 1] : List Nat).getD (1 + 1) 0) 0 =
            addDouble
              ((encodeDouble [2, 0, 3, 1] [0, 0, 0, 0]).getD (([2, 0, 3, 1] : List Nat).getD 1 0) 0)
              (divDouble 1 ((4 : Nat) : ℚ))) ∧
        ((nextafterZero + ((1 : Nat) : ℚ) * (1 / ((4 : Nat) : ℚ))) * (1 - 1 / 2 ^ 26) ≤
            (encodeDouble [2, 0, 3, 1] [0, 0, 0, 0]).getD (([2, 0, 3, 1] : List Nat).getD 1 0) 0 ∧
          (encodeDouble [2, 0, 3, 1] [0, 0, 0, 0]).getD (([2, 0, 3, 1] : List Nat).getD 1 0) 0 ≤
            (nextafterZero + ((1 : Nat) : ℚ) * (1 / ((4 : Nat) : ℚ))) * (1 + 1 / 2 ^ 26)) ∧
        (∀ k2, 1 < k2 → k2 < 4 →
          (encodeDouble [2, 0, 3, 1] [0, 0, 0, 0]).getD (([2, 0, 3, 1] : List Nat).getD 1 0) 0 <
            (encodeDouble [2, 0, 3, 1] [0, 0, 0, 0]).getD
              (([2, 0, 3, 1] : List Nat).getD k2 0) 0) ∧
        (∀ a b, a < 4 → b < 4 → a ≠ b →
          (encodeDouble [2, 0, 3, 1] [0, 0, 0, 0]).getD a 0 ≠
            (encodeDouble [2, 0, 3, 1] [0, 0, 0, 0]).getD b 0) ∧
        (∀ a, a < 4 → 0 ≤ (encodeDouble [2, 0, 3, 1] [0, 0, 0, 0]).getD a 0 ∧
          (encodeDouble [2, 0, 3, 1] [0, 0, 0, 0]).getD a 0 < 1)) :=
  ⟨by decide, by decide, by decide, rfl, by decide,
    encode_values 4 [2, 0, 3, 1] [0, 0, 0, 0] 1 (by decide) (by decide) (by decide) rfl
      (by decide)⟩

end tsp

/-! ## Consistency of the solution -/

namespace TSPSolution

end TSPSolution

/-! ## Neighbors are permutations -/

namespace TSPSolution

/-- The result of `twoOptSwap` as prefix, reversed segment and suffix. -/
theorem twoOptSwap_eq_append (n : Nat) (p : List Nat) (i j : Nat)
    (hp : p.length = n) (hij : i ≤ j) (hj : j < n) :
    twoOptSwap n p i j =
      p.take i ++ (((p.drop i).take (j + 1 - i)).reverse ++ p.drop (j + 1)) := by
  apply List.ext_getElem?
  intro k
  rw [twoOptSwap_getElem? n p i j k hp hij hj]
  have hl1 : (p.take i).length = i := by rw [List.length_take]; omega
  have hl2 : (((p.drop i).take (j + 1 - i)).reverse).length = j + 1 - i := by
    rw [List.length_reverse, List.length_take, List.length_drop]; omega
  by_cases c1 : k < i
  · rw [if_pos c1, List.getElem?_append_left (by omega), List.getElem?_take_of_lt c1]
  · rw [if_neg c1, List.getElem?_append_right (by omega), hl1]
    by_cases c2 : k ≤ j
    · rw [if_pos c2, List.getElem?_append_left (by omega),
        List.getElem?_reverse (by rw [List.length_reverse] at hl2; omega)]
      rw [List.length_reverse] at hl2
      rw [hl2, List.getElem?_take_of_lt (by omega), List.getElem?_drop]
      congr 1
      omega
    · rw [if_neg c2, List.getElem?_append_right (by omega), hl2, List.getElem?_drop]
      congr 1
      omega

theorem twoOptSwap_perm (n : Nat) (p : List Nat) (i j : Nat)
    (hp : p.length = n) (hij : i ≤ j) (hj : j < n) :
    (twoOptSwap n p i j).Perm p := by
  rw [twoOptSwap_eq_append n p i j hp hij hj]
  have h1 : (((p.drop i).take (j + 1 - i)).reverse ++ p.drop (j + 1)).Perm (p.drop i) := by
    have h2 : p.drop (j + 1) = (p.drop i).drop (j + 1 - i) := by
      rw [List.drop_drop]
      congr 1
      omega
    rw [h2]
    have h3 := (List.reverse_perm ((p.drop i).take (j + 1 - i))).append_right
      ((p.drop i).drop (j + 1 - i))
    rw [List.take_append_drop] at h3
    exact h3
  have h4 := h1.append_left (p.take i)
  rw [List.take_append_drop] at h4
  exact h4

end TSPSolution

namespace tsp

/-- The value that the encoder leaves at a position named by the walked sequence does
not depend on the vector on entry. -/
theorem encodeStep_foldl_getElem?_congr (share : encoding) (p : List Nat)
    (l l2 : List encoding) (a : encoding) (hl : l.length = l2.length) (k : Nat)
    (hk : k ∈ p) :
    (p.foldl (encodeStep share) (l, a)).1[k]? = (p.foldl (encodeStep share) (l2, a)).1[k]? := by
  induction p generalizing l l2 a with
  | nil => exact absurd hk (List.not_mem_nil k)
  | cons i is ih =>
    rw [List.foldl_cons, List.foldl_cons]
    simp only [encodeStep]
    by_cases hmem : k ∈ is
    · exact ih _ _ _ (by rw [List.length_set, List.length_set, hl]) hmem
    · have hki : k = i := by
        rcases List.mem_cons.mp hk with h | h
        · exact h
        · exact absurd h hmem
      subst hki
      have e1 := encodeStep_foldl_getD_of_not_mem share is (l.set k a) (a + share) k hmem
      have e2 := encodeStep_foldl_getD_of_not_mem share is (l2.set k a) (a + share) k hmem
      by_cases hkl : k < l.length
      · have g1 : k < (is.foldl (encodeStep share) (l.set k a, a + share)).1.length := by
          rw [encodeStep_foldl_length, List.length_set]; exact hkl
        have g2 : k < (is.foldl (encodeStep share) (l2.set k a, a + share)).1.length := by
          rw [encodeStep_foldl_length, List.length_set, ← hl]; exact hkl
        rw [List.getD_eq_getElem _ 0 g1, List.getD_eq_getElem?_getD,
          List.getElem?_set_self hkl] at e1
        rw [List.getD_eq_getElem _ 0 g2, List.getD_eq_getElem?_getD,
          List.getElem?_set_self (by omega)] at e2
        rw [List.getElem?_eq_getElem g1, List.getElem?_eq_getElem g2, e1, e2]
      · rw [List.getElem?_eq_none (by rw [encodeStep_foldl_length, List.length_set]; omega),
          List.getElem?_eq_none (by rw [encodeStep_foldl_length, List.length_set]; omega)]

/-- The encoding of a rearrangement of `0, …, n-1` overwrites the whole vector. -/
theorem encode_congr (n : Nat) (q : List Nat) (dv dv2 : List encoding)
    (hq : q.Perm (List.range n)) (hdv : dv.length = n) (hdv2 : dv2.length = n) :
    encode q dv = encode q dv2 := by
  unfold encode
  apply List.ext_getElem?
  intro k
  by_cases hk : k < n
  · exact encodeStep_foldl_getElem?_congr _ q dv dv2 _ (by rw [hdv, hdv2]) k
      (hq.mem_iff.mpr (List.mem_range.mpr hk))
  · rw [List.getElem?_eq_none (by rw [encodeStep_foldl_length]; omega),
      List.getElem?_eq_none (by rw [encodeStep_foldl_length]; omega)]

theorem encode_length (q : List Nat) (dv : List encoding) :
    (encode q dv).length = dv.length := by
  unfold encode
  exact encodeStep_foldl_length _ _ _ _

end tsp

/-! ## The sweep keeps the first neighbor of least fitness -/

namespace TSPSolution

theorem foldl_flatMap_eq {σ α β : Type} (f : σ → β → σ) (g : α → List β) (l : List α)
    (s : σ) : (l.flatMap g).foldl f s = l.foldl (fun st a => (g a).foldl f st) s := by
  induction l generalizing s with
  | nil => rfl
  | cons a l ih => rw [List.flatMap_cons, List.foldl_append, List.foldl_cons, ih]

theorem sweep_eq_foldl (D : List (List tsp.encoding)) (s : TSPSolution) :
    sweep D s = (sweepPairs s.dimension).foldl
      (fun st ij => sweepStep D s st ij.1 ij.2)
      { newDecisionVariables := List.replicate s.dimension 0
        bestDecisionVariables := []
        bestNeighbor := none } := by
  unfold sweep sweepPairs
  rw [foldl_flatMap_eq]
  congr 1
  funext st i
  rw [List.foldl_map]

theorem mem_sweepPairs (n : Nat) (ij : Nat × Nat) :
    ij ∈ sweepPairs n ↔ ij.1 < ij.2 ∧ ij.2 < n := by
  unfold sweepPairs
  rw [List.mem_flatMap]
  constructor
  · rintro ⟨i, hi, hmem⟩
    rw [List.mem_map] at hmem
    obtain ⟨j, hj, rfl⟩ := hmem
    rw [List.mem_range'_1] at hj
    rw [List.mem_range] at hi
    simp only
    omega
  · rintro ⟨h1, h2⟩
    refine ⟨ij.1, List.mem_range.mpr (by omega), ?_⟩
    rw [List.mem_map]
    exact ⟨ij.2, List.mem_range'_1.mpr (by omega), rfl⟩

/-- The neighbor of a pair `i < j < n` holds the swapped permutation and its tour
length. -/
theorem neighbor_fields (D : List (List tsp.encoding)) (n : Nat) (p : List Nat)
    (ij : Nat × Nat) (hn : 1 ≤ n) (hp : p.Perm (List.range n)) (hij : ij.1 < ij.2)
    (hj : ij.2 < n) :
    (neighbor D n p ij).permutation = twoOptSwap n p ij.1 ij.2 ∧
      (neighbor D n p ij).fitness = tsp.calculateFitness D n (twoOptSwap n p ij.1 ij.2) := by
  have hlen : p.length = n := by rw [hp.length_eq, List.length_range]
  have hq : (twoOptSwap n p ij.1 ij.2).Perm (List.range n) :=
    (twoOptSwap_perm n p ij.1 ij.2 hlen (by omega) hj).trans hp
  have h1 : (neighbor D n p ij).permutation = twoOptSwap n p ij.1 ij.2 :=
    tsp.createPermutation_unique n _ _ hq
      (tsp.encode_sorted n _ _ hn hq (List.length_replicate n 0))
  refine ⟨h1, ?_⟩
  show tsp.calculateFitness D n (neighbor D n p ij).permutation = _
  rw [h1]

theorem sweepStep_best (D : List (List tsp.encoding)) (n : Nat) (s : TSPSolution)
    (visited : List (Nat × Nat)) (st : SweepState) (ij : Nat × Nat)
    (hdim : s.dimension = n) (hp : s.permutation.Perm (List.range n))
    (hij : ij.1 < ij.2) (hj : ij.2 < n)
    (h : SweepBest D n s.permutation visited st) :
    SweepBest D n s.permutation (visited ++ [ij]) (sweepStep D s st ij.1 ij.2) := by
  have hlen : s.permutation.length = n := by rw [hp.length_eq, List.length_range]
  have hq : (twoOptSwap n s.permutation ij.1 ij.2).Perm (List.range n) :=
    (twoOptSwap_perm n s.permutation ij.1 ij.2 hlen (by omega) hj).trans hp
  obtain ⟨hnew, hbest⟩ := h
  have henc : tsp.encode (twoOptSwap s.dimension s.permutation ij.1 ij.2)
      st.newDecisionVariables =
      tsp.encode (twoOptSwap n s.permutation ij.1 ij.2) (List.replicate n 0) := by
    rw [hdim]
    exact tsp.encode_congr n _ _ _ hq hnew (List.length_replicate n 0)
  have hnb : TSPSolution.new D s.dimension
      (tsp.encode (twoOptSwap s.dimension s.permutation ij.1 ij.2) st.newDecisionVariables) =
      neighbor D n s.permutation ij := by
    rw [henc, hdim]
    rfl
  have helen : (tsp.encode (twoOptSwap n s.permutation ij.1 ij.2)
      (List.replicate n 0)).length = n := by
    rw [tsp.encode_length, List.length_replicate]
  unfold sweepStep
  simp only []
  rw [hnb, henc]
  rcases hbest with ⟨hvis, hnone⟩ | ⟨pre, c, post, hvis, hsome, hdv, hpre, hpost⟩
  · rw [hnone]
    refine ⟨helen, Or.inr ⟨[], ij, [], by rw [hvis], rfl, rfl, ?_, ?_⟩⟩
    · intro y hy
      exact absurd hy (List.not_mem_nil y)
    · intro y hy
      exact absurd hy (List.not_mem_nil y)
  · rw [hsome]
    simp only []
    split
    · rename_i hgt
      refine ⟨helen, Or.inr ⟨visited, ij, [], rfl, rfl, rfl, ?_, ?_⟩⟩
      · intro y hy
        rw [hvis] at hy
        rcases List.mem_append.mp hy with h1 | h1
        · exact lt_trans hgt (hpre y h1)
        · rcases List.mem_cons.mp h1 with h2 | h2
          · rw [h2]
            exact hgt
          · exact lt_of_lt_of_le hgt (hpost y h2)
      · intro y hy
        exact absurd hy (List.not_mem_nil y)
    · rename_i hngt
      refine ⟨helen, Or.inr ⟨pre, c, post ++ [ij], ?_, rfl, hdv, hpre, ?_⟩⟩
      · rw [hvis]
        simp
      · intro y hy
        rcases List.mem_append.mp hy with h1 | h1
        · exact hpost y h1
        · rw [List.mem_singleton] at h1
          rw [h1]
          exact not_lt.mp hngt

theorem sweepStep_foldl_best (D : List (List tsp.encoding)) (n : Nat) (s : TSPSolution)
    (hdim : s.dimension = n) (hp : s.permutation.Perm (List.range n))
    (l : List (Nat × Nat)) (hl : ∀ ij ∈ l, ij.1 < ij.2 ∧ ij.2 < n)
    (visited : List (Nat × Nat)) (st : SweepState)
    (h : SweepBest D n s.permutation visited st) :
    SweepBest D n s.permutation (visited ++ l)
      (l.foldl (fun st ij => sweepStep D s st ij.1 ij.2) st) := by
  induction l generalizing visited st with
  | nil => rw [List.append_nil]; exact h
  | cons x l ih =>
    rw [List.foldl_cons]
    have hx := hl x (List.mem_cons_self _ _)
    have := ih (fun ij hij => hl ij (List.mem_cons_of_mem _ hij)) (visited ++ [x]) _
      (sweepStep_best D n s visited st x hdim hp hx.1 hx.2 h)
    rw [List.append_assoc] at this
    exact this

theorem sweep_best (D : List (List tsp.encoding)) (n : Nat) (s : TSPSolution)
    (hdim : s.dimension = n) (hp : s.permutation.Perm (List.range n)) :
    SweepBest D n s.permutation (sweepPairs n) (sweep D s) := by
  rw [sweep_eq_foldl, hdim]
  have := sweepStep_foldl_best D n s hdim hp (sweepPairs n)
    (fun ij hij => (mem_sweepPairs n ij).mp hij) []
    { newDecisionVariables := List.replicate n 0
      bestDecisionVariables := []
      bestNeighbor := none }
    ⟨List.length_replicate n 0, Or.inl ⟨rfl, rfl⟩⟩
  rw [List.nil_append] at this
  exact this

end TSPSolution

namespace TSPSolution

/-- The result of `localSearch` on a solution that holds a permutation of
`{0, …, n-1}`: with no pair to visit the solution is unchanged; otherwise the sweep
order splits at a pair `c` whose neighbor is strictly better than every earlier one and
at least as good as every later one, and the solution becomes that neighbor when it is
strictly better than the solution and is unchanged otherwise. -/
theorem localSearch_eq (D : List (List tsp.encoding)) (n : Nat) (s : TSPSolution)
    (hn : 1 ≤ n) (hdim : s.dimension = n) (hp : s.permutation.Perm (List.range n)) :
    (sweepPairs n = [] ∧ localSearch D s = s) ∨
      ∃ pre c post, sweepPairs n = pre ++ c :: post ∧
        (∀ y ∈ pre, tsp.calculateFitness D n (twoOptSwap n s.permutation c.1 c.2) <
          tsp.calculateFitness D n (twoOptSwap n s.permutation y.1 y.2)) ∧
        (∀ y ∈ post, tsp.calculateFitness D n (twoOptSwap n s.permutation c.1 c.2) ≤
          tsp.calculateFitness D n (twoOptSwap n s.permutation y.1 y.2)) ∧
        localSearch D s =
          if tsp.calculateFitness D n (twoOptSwap n s.permutation c.1 c.2) < s.fitness then
            { decisionVariables :=
                tsp.encode (twoOptSwap n s.permutation c.1 c.2) (List.replicate n 0)
              fitness := tsp.calculateFitness D n (twoOptSwap n s.permutation c.1 c.2)
              dimension := n
              permutation := twoOptSwap n s.permutation c.1 c.2 }
          else s := by
  obtain ⟨_, hbest⟩ := sweep_best D n s hdim hp
  rcases hbest with ⟨hvis, hnone⟩ | ⟨pre, c, post, hvis, hsome, hdv, hpre, hpost⟩
  · left
    refine ⟨hvis, ?_⟩
    unfold localSearch
    simp only []
    rw [hnone]
  · right
    have hvalid : ∀ y ∈ sweepPairs n, y.1 < y.2 ∧ y.2 < n := fun y hy =>
      (mem_sweepPairs n y).mp hy
    have hfields : ∀ y ∈ sweepPairs n,
        (neighbor D n s.permutation y).permutation = twoOptSwap n s.permutation y.1 y.2 ∧
          (neighbor D n s.permutation y).fitness =
            tsp.calculateFitness D n (twoOptSwap n s.permutation y.1 y.2) := fun y hy =>
      neighbor_fields D n s.permutation y hn hp (hvalid y hy).1 (hvalid y hy).2
    have hc : c ∈ sweepPairs n := by rw [hvis]; simp
    have hcf := hfields c hc
    refine ⟨pre, c, post, hvis, ?_, ?_, ?_⟩
    · intro y hy
      have hy2 : y ∈ sweepPairs n := by rw [hvis]; simp [hy]
      rw [← hcf.2, ← (hfields y hy2).2]
      exact hpre y hy
    · intro y hy
      have hy2 : y ∈ sweepPairs n := by rw [hvis]; simp [hy]
      rw [← hcf.2, ← (hfields y hy2).2]
      exact hpost y hy
    · have hrebuilt : TSPSolution.new D s.dimension (sweep D s).bestDecisionVariables =
          neighbor D n s.permutation c := by
        rw [hdv, hdim]
        rfl
      unfold localSearch
      simp only []
      rw [hsome]
      simp only []
      rw [hrebuilt, hcf.2]
      split
      · obtain ⟨dv, f, d, p⟩ := s
        simp only at hdim
        subst hdim
        simp only at hcf
        simp only [TSPSolution.mk.injEq, and_true, true_and]
        exact ⟨rfl, hcf.1⟩
      · rfl

end TSPSolution

namespace TSPSolution

end TSPSolution

/-! ## The fitness of a neighbor -/

namespace TSPSolution

theorem twoOptSwap_getD (n : Nat) (p : List Nat) (i j k : Nat)
    (hp : p.length = n) (hij : i ≤ j) (hj : j < n) :
    (twoOptSwap n p i j).getD k 0 =
      if k < i then p.getD k 0 else if k ≤ j then p.getD (i + j - k) 0 else p.getD k 0 := by
  rw [List.getD_eq_getElem?_getD, twoOptSwap_getElem? n p i j k hp hij hj]
  split
  · rw [List.getD_eq_getElem?_getD]
  · split
    · rw [List.getD_eq_getElem?_getD]
    · rw [List.getD_eq_getElem?_getD]

theorem twoOptSwap_getD_outside (n : Nat) (p : List Nat) (i j k : Nat)
    (hp : p.length = n) (hij : i ≤ j) (hj : j < n) (hk : k < i ∨ j < k) :
    (twoOptSwap n p i j).getD k 0 = p.getD k 0 := by
  rw [twoOptSwap_getD n p i j k hp hij hj]
  split
  · rfl
  · rw [if_neg (by omega)]

theorem twoOptSwap_getD_inside (n : Nat) (p : List Nat) (i j k : Nat)
    (hp : p.length = n) (hij : i ≤ j) (hj : j < n) (hk1 : i ≤ k) (hk2 : k ≤ j) :
    (twoOptSwap n p i j).getD k 0 = p.getD (i + j - k) 0 := by
  rw [twoOptSwap_getD n p i j k hp hij hj, if_neg (by omega), if_pos hk2]

theorem sum_range_ite_eq (n j : Nat) (c : tsp.encoding) (hj : j < n) :
    ∑ k in Finset.range n, (if k = j then c else 0) = c := by
  rw [Finset.sum_ite_eq' (Finset.range n) j (fun _ => c), if_pos (Finset.mem_range.mpr hj)]

theorem sum_range_reflect_segment (E : Nat → tsp.encoding) (n i j : Nat) (hij : i < j)
    (hj : j < n) :
    ∑ k in Finset.range n, (if i ≤ k ∧ k < j then E (i + j - 1 - k) - E k else 0) = 0 := by
  rw [← Finset.sum_filter]
  have hfil : (Finset.range n).filter (fun k => i ≤ k ∧ k < j) = Finset.Ico i j := by
    ext k
    simp only [Finset.mem_filter, Finset.mem_range, Finset.mem_Ico]
    omega
  rw [hfil, Finset.sum_sub_distrib]
  have href := Finset.sum_Ico_reflect E i (show j ≤ i + j - 1 + 1 by omega)
  have h1 : i + j - 1 + 1 - j = i := by omega
  have h2 : i + j - 1 + 1 - i = j := by omega
  rw [h1, h2] at href
  rw [href, sub_self]

end TSPSolution

namespace TSPSolution

/-- The fitness of the neighbor for a pair `i < j < n` other than `(0, n-1)` under a
symmetric distance matrix: the two edges that enter and leave the segment are replaced,
the edges inside the segment are walked backwards. -/
theorem tourLength_twoOptSwap (D : List (List tsp.encoding)) (n : Nat) (p : List Nat)
    (i j : Nat) (hp : p.Perm (List.range n))
    (hsym : ∀ a b, a < n → b < n → tsp.distAt D a b = tsp.distAt D b a)
    (hij : i < j) (hj : j < n) (hne : ¬ (i = 0 ∧ j = n - 1)) :
    tsp.tourLength D n (twoOptSwap n p i j) =
      tsp.tourLength D n p
        - tsp.distAt D (p.getD ((i + n - 1) % n) 0) (p.getD i 0)
        - tsp.distAt D (p.getD j 0) (p.getD ((j + 1) % n) 0)
        + tsp.distAt D (p.getD ((i + n - 1) % n) 0) (p.getD j 0)
        + tsp.distAt D (p.getD i 0) (p.getD ((j + 1) % n) 0) := by
  have hn : 1 ≤ n := by omega
  have hlen : p.length = n := by rw [hp.length_eq, List.length_range]
  have hle : i ≤ j := by omega
  have hplt : ∀ k, p.getD k 0 < n := fun k => tsp.getD_lt_of_perm n p k hn hp
  -- the position before `i` and the position after `j`, modulo `n`
  obtain ⟨im, him⟩ : ∃ im, im = (i + n - 1) % n := ⟨_, rfl⟩
  obtain ⟨jp, hjp⟩ : ∃ jp, jp = (j + 1) % n := ⟨_, rfl⟩
  have him1 : im = if i = 0 then n - 1 else i - 1 := by
    rw [him]
    split
    · rename_i h0
      rw [h0, Nat.zero_add]
      exact Nat.mod_eq_of_lt (by omega)
    · have : i + n - 1 = (i - 1) + n := by omega
      rw [this, Nat.add_mod_right]
      exact Nat.mod_eq_of_lt (by omega)
  have hjp1 : jp = if j + 1 = n then 0 else j + 1 := by
    rw [hjp]
    exact tsp.succ_mod_eq j n hj
  have himlt : im < n := by rw [him1]; split <;> omega
  have himsucc : (im + 1) % n = i := by
    rw [tsp.succ_mod_eq im n himlt, him1]
    split <;> split <;> omega
  rw [← him, ← hjp]
  rw [tsp.tourLength_eq_sum_mod D n _ hn, tsp.tourLength_eq_sum_mod D n p hn]
  have hpoint : ∀ k ∈ Finset.range n,
      tsp.distAt D ((twoOptSwap n p i j).getD k 0) ((twoOptSwap n p i j).getD ((k + 1) % n) 0) =
        tsp.distAt D (p.getD k 0) (p.getD ((k + 1) % n) 0)
          + (if i ≤ k ∧ k < j then
              tsp.distAt D (p.getD (i + j - 1 - k) 0) (p.getD ((i + j - 1 - k + 1) % n) 0)
                - tsp.distAt D (p.getD k 0) (p.getD ((k + 1) % n) 0)
            else 0)
          + (if k = j then
              tsp.distAt D (p.getD i 0) (p.getD jp 0)
                - tsp.distAt D (p.getD j 0) (p.getD jp 0)
            else 0)
          + (if k = im then
              tsp.distAt D (p.getD im 0) (p.getD j 0)
                - tsp.distAt D (p.getD im 0) (p.getD i 0)
            else 0) := by
    intro k hk
    have hk := Finset.mem_range.mp hk
    by_cases c1 : i ≤ k ∧ k < j
    · -- an edge inside the segment
      have hkj : k ≠ j := by omega
      have hkim : k ≠ im := by rw [him1]; split <;> omega
      rw [if_pos c1, if_neg hkj, if_neg hkim]
      have e1 : (k + 1) % n = k + 1 := Nat.mod_eq_of_lt (by omega)
      have e2 : (i + j - 1 - k + 1) % n = i + j - k := by
        rw [Nat.mod_eq_of_lt (by omega)]
        omega
      have e3 : i + j - (k + 1) = i + j - 1 - k := by omega
      rw [e1, e2, twoOptSwap_getD_inside n p i j k hlen hle hj c1.1 (by omega),
        twoOptSwap_getD_inside n p i j (k + 1) hlen hle hj (by omega) (by omega), e3,
        hsym _ _ (hplt _) (hplt _)]
      ring
    · rw [if_neg c1]
      by_cases c2 : k = j
      · -- the edge that leaves the segment
        have hkim : k ≠ im := by rw [him1]; split <;> omega
        rw [if_pos c2, if_neg hkim, c2, ← hjp,
          twoOptSwap_getD_inside n p i j j hlen hle hj hle (le_refl j),
          twoOptSwap_getD_outside n p i j jp hlen hle hj (by rw [hjp1]; split <;> omega)]
        have e4 : i + j - j = i := by omega
        rw [e4]
        ring
      · rw [if_neg c2]
        by_cases c3 : k = im
        · -- the edge that enters the segment
          rw [if_pos c3, c3, himsucc,
            twoOptSwap_getD_outside n p i j im hlen hle hj (by rw [him1]; split <;> omega),
            twoOptSwap_getD_inside n p i j i hlen hle hj (le_refl i) hle]
          have e5 : i + j - i = j := by omega
          rw [e5]
          ring
        · -- an edge outside the segment
          rw [if_neg c3]
          have hkout : k < i ∨ j < k := by omega
          have hsout : (k + 1) % n < i ∨ j < (k + 1) % n := by
            rw [tsp.succ_mod_eq k n hk]
            rw [him1] at c3
            split at c3 <;> split <;> omega
          rw [twoOptSwap_getD_outside n p i j k hlen hle hj hkout,
            twoOptSwap_getD_outside n p i j _ hlen hle hj hsout]
          ring
  rw [Finset.sum_congr rfl hpoint, Finset.sum_add_distrib, Finset.sum_add_distrib,
    Finset.sum_add_distrib,
    sum_range_reflect_segment
      (fun k => tsp.distAt D (p.getD k 0) (p.getD ((k + 1) % n) 0)) n i j hij hj,
    sum_range_ite_eq n j _ hj, sum_range_ite_eq n im _ himlt]
  ring

end TSPSolution

namespace TSPSolution

/-- The pair `(0, n-1)` reverses the whole permutation. -/
theorem twoOptSwap_full (n : Nat) (p : List Nat) (hn : 1 ≤ n) (hp : p.length = n) :
    twoOptSwap n p 0 (n - 1) = p.reverse := by
  rw [twoOptSwap_eq_append n p 0 (n - 1) hp (Nat.zero_le _) (by omega)]
  have h1 : n - 1 + 1 - 0 = p.length := by omega
  have h2 : n - 1 + 1 = p.length := by omega
  rw [h1, h2, List.take_zero, List.drop_zero, List.take_length, List.drop_length,
    List.nil_append, List.append_nil]

/-- With a symmetric distance matrix and at most three nodes every neighbor has the
fitness of the tour itself. -/
theorem tourLength_twoOptSwap_small (D : List (List tsp.encoding)) (n : Nat)
    (p : List Nat) (i j : Nat) (hn3 : n ≤ 3) (hp : p.Perm (List.range n))
    (hsym : ∀ a b, a < n → b < n → tsp.distAt D a b = tsp.distAt D b a)
    (hij : i < j) (hj : j < n) :
    tsp.tourLength D n (twoOptSwap n p i j) = tsp.tourLength D n p := by
  have hn : 1 ≤ n := by omega
  have hlen : p.length = n := by rw [hp.length_eq, List.length_range]
  have hplt : ∀ k, p.getD k 0 < n := fun k => tsp.getD_lt_of_perm n p k hn hp
  by_cases hfull : i = 0 ∧ j = n - 1
  · rw [hfull.1, hfull.2, twoOptSwap_full n p hn hlen]
    exact tsp.tourLength_reverse D n p hn hp hsym
  · rw [tourLength_twoOptSwap D n p i j hp hsym hij hj hfull]
    have hn3 : n = 3 := by omega
    subst hn3
    have hcases : (i = 0 ∧ j = 1) ∨ (i = 1 ∧ j = 2) := by omega
    rcases hcases with ⟨rfl, rfl⟩ | ⟨rfl, rfl⟩
    · have e1 : (0 + 3 - 1) % 3 = 2 := rfl
      rw [e1, hsym (p.getD 2 0) (p.getD 0 0) (hplt _) (hplt _),
        hsym (p.getD 2 0) (p.getD 1 0) (hplt _) (hplt _)]
      ring
    · have e1 : (1 + 3 - 1) % 3 = 0 := rfl
      rw [e1, hsym (p.getD 0 0) (p.getD 1 0) (hplt _) (hplt _),
        hsym (p.getD 0 0) (p.getD 2 0) (hplt _) (hplt _)]
      ring

end TSPSolution

/-! ## The 2-opt delta and small instances in double arithmetic -/

namespace tsp

/-- When the entries of the distance matrix are natural numbers at most `M` and
`n * M ≤ 2^53`, the fitness of every tour is its exact length. -/
theorem calculateFitness_eq_tourLength_of_le (D : List (List encoding)) (n M : Nat)
    (p : List Nat) (hn : 1 ≤ n) (hp : p.Perm (List.range n))
    (hint : ∀ a b, a < n → b < n → ∃ k : Nat, distAt D a b = (k : ℚ) ∧ k ≤ M)
    (hbound : n * M ≤ 2 ^ 53) :
    calculateFitness D n p = tourLength D n p := by
  refine calculateFitness_eq_tourLength D n p hn hp
    (fun a b ha hb => (hint a b ha hb).imp fun k hk => hk.1) ?_
  have hle := tourLength_le D n M p hn hp (fun a b ha hb => by
    obtain ⟨k, hk, hkM⟩ := hint a b ha hb
    rw [hk]
    exact_mod_cast hkM)
  have hb : ((n * M : Nat) : ℚ) ≤ 2 ^ 53 := by exact_mod_cast hbound
  exact le_trans hle hb

theorem lineMatrix_symmetric :
    ∀ a b, a < 3 → b < 3 →
      distAt (calculateDistances lineNodes 3) a b =
        distAt (calculateDistances lineNodes 3) b a := by
  rw [lineNodes_distances]
  intro a b ha hb
  interval_cases a <;> interval_cases b <;> rfl

end tsp

namespace TSPSolution

/-- With a symmetric distance matrix and two nodes the neighbor has the fitness of the
tour itself, also in double arithmetic: both are the rounded sum of the same two
numbers. -/
theorem calculateFitness_twoOptSwap_two (D : List (List tsp.encoding)) (p : List Nat)
    (hp : p.Perm (List.range 2))
    (hsym : ∀ a b, a < 2 → b < 2 → tsp.distAt D a b = tsp.distAt D b a) :
    tsp.calculateFitness D 2 (twoOptSwap 2 p 0 1) = tsp.calculateFitness D 2 p := by
  have hlen : p.length = 2 := by rw [hp.length_eq, List.length_range]
  have h := twoOptSwap_full 2 p (by decide) hlen
  have e : (2 : Nat) - 1 = 1 := rfl
  rw [e] at h
  rw [h]
  match p, hlen, hp with
  | [a, b], _, hp =>
    have ha : a < 2 := List.mem_range.mp (hp.mem_iff.mp (by simp))
    have hb : b < 2 := List.mem_range.mp (hp.mem_iff.mp (by simp))
    show tsp.addDouble (tsp.addDouble 0 (tsp.distAt D b a)) (tsp.distAt D a b) =
      tsp.addDouble (tsp.addDouble 0 (tsp.distAt D a b)) (tsp.distAt D b a)
    rw [hsym a b ha hb]

/-- C19, as stated, fails: with the distance matrix of the nodes `(0,0), (1,0),
(2^52+1, 0)`, the tour `[0, 1, 2]` and the pair `(1, 2)`, the fitness of the neighbor
`[0, 2, 1]` is `2^53 = 9007199254740992`, while the delta formula applied to the fitness
`2^53 + 2` of the tour gives `2^53 + 2 = 9007199254740994`. -/
theorem twoOptSwap_delta_counterexample :
    ([0, 1, 2] : List Nat).Perm (List.range 3) ∧
      (∀ a b, a < 3 → b < 3 →
        tsp.distAt (tsp.calculateDistances tsp.lineNodes 3) a b =
          tsp.distAt (tsp.calculateDistances tsp.lineNodes 3) b a) ∧
      twoOptSwap 3 [0, 1, 2] 1 2 = [0, 2, 1] ∧
      tsp.calculateFitness (tsp.calculateDistances tsp.lineNodes 3) 3
        (twoOptSwap 3 [0, 1, 2] 1 2) = 9007199254740992 ∧
      tsp.calculateFitness (tsp.calculateDistances tsp.lineNodes 3) 3 [0, 1, 2] =
        9007199254740994 ∧
      tsp.calculateFitness (tsp.calculateDistances tsp.lineNodes 3) 3 [0, 1, 2]
          - tsp.distAt (tsp.calculateDistances tsp.lineNodes 3)
              (([0, 1, 2] : List Nat).getD ((1 + 3 - 1) % 3) 0)
              (([0, 1, 2] : List Nat).getD 1 0)
          - tsp.distAt (tsp.calculateDistances tsp.lineNodes 3)
              (([0, 1, 2] : List Nat).getD 2 0)
              (([0, 1, 2] : List Nat).getD ((2 + 1) % 3) 0)
          + tsp.distAt (tsp.calculateDistances tsp.lineNodes 3)
              (([0, 1, 2] : List Nat).getD ((1 + 3 - 1) % 3) 0)
              (([0, 1, 2] : List Nat).getD 2 0)
          + tsp.distAt (tsp.calculateDistances tsp.lineNodes 3)
              (([0, 1, 2] : List Nat).getD 1 0)
              (([0, 1, 2] : List Nat).getD ((2 + 1) % 3) 0) = 9007199254740994 ∧
      tsp.calculateFitness (tsp.calculateDistances tsp.lineNodes 3) 3
          (twoOptSwap 3 [0, 1, 2] 1 2) ≠
        tsp.calculateFitness (tsp.calculateDistances tsp.lineNodes 3) 3 [0, 1, 2]
          - tsp.distAt (tsp.calculateDistances tsp.lineNodes 3)
              (([0, 1, 2] : List Nat).getD ((1 + 3 - 1) % 3) 0)
              (([0, 1, 2] : List Nat).getD 1 0)
          - tsp.distAt (tsp.calculateDistances tsp.lineNodes 3)
              (([0, 1, 2] : List Nat).getD 2 0)
              (([0, 1, 2] : List Nat).getD ((2 + 1) % 3) 0)
          + tsp.distAt (tsp.calculateDistances tsp.lineNodes 3)
              (([0, 1, 2] : List Nat).getD ((1 + 3 - 1) % 3) 0)
              (([0, 1, 2] : List Nat).getD 2 0)
          + tsp.distAt (tsp.calculateDistances tsp.lineNodes 3)
              (([0, 1, 2] : List Nat).getD 1 0)
              (([0, 1, 2] : List Nat).getD ((2 + 1) % 3) 0) := by
  refine ⟨by decide, tsp.lineMatrix_symmetric, ?_⟩
  rw [tsp.lineNodes_distances]
  decide!

/-- C19, amended: 2-opt delta identity where the additions are exact.  For `n ≥ 3`, a
symmetric distance matrix `D` whose entries are natural numbers at most `M` with
`n * M ≤ 2^53`, a permutation `p` of `{0, …, n-1}` and a pair `i < j < n`, the neighbor
solution built in `localSearch` has the fitness of the tour `twoOptSwap(p, i, j)` (also
with the decision vector encoded in double arithmetic, for `n ≤ 2^26`); for a pair other
than `(0, n-1)` this is `fitness(p) - D[p[i-1]][p[i]] - D[p[j]][p[j+1]] +
D[p[i-1]][p[j]] + D[p[i]][p[j+1]]` with positions taken modulo `n`; and the neighbor for
`(0, n-1)` has the fitness of `p`. -/
theorem twoOptSwap_delta (D : List (List tsp.encoding)) (n M : Nat) (p : List Nat)
    (dv : List tsp.encoding) (i j : Nat) (hn : 3 ≤ n) (hp : p.Perm (List.range n))
    (hsym : ∀ a b, a < n → b < n → tsp.distAt D a b = tsp.distAt D b a)
    (hint : ∀ a b, a < n → b < n → ∃ k : Nat, tsp.distAt D a b = (k : ℚ) ∧ k ≤ M)
    (hbound : n * M ≤ 2 ^ 53)
    (hdv : dv.length = n) (hij : i < j) (hj : j < n) :
    (TSPSolution.new D n (tsp.encode (twoOptSwap n p i j) dv)).fitness =
        tsp.calculateFitness D n (twoOptSwap n p i j) ∧
      (n ≤ 2 ^ 26 →
        (TSPSolution.new D n (tsp.encodeDouble (twoOptSwap n p i j) dv)).fitness =
          tsp.calculateFitness D n (twoOptSwap n p i j)) ∧
      (¬ (i = 0 ∧ j = n - 1) →
        tsp.calculateFitness D n (twoOptSwap n p i j) =
          tsp.calculateFitness D n p
            - tsp.distAt D (p.getD ((i + n - 1) % n) 0) (p.getD i 0)
            - tsp.distAt D (p.getD j 0) (p.getD ((j + 1) % n) 0)
            + tsp.distAt D (p.getD ((i + n - 1) % n) 0) (p.getD j 0)
            + tsp.distAt D (p.getD i 0) (p.getD ((j + 1) % n) 0)) ∧
      tsp.calculateFitness D n (twoOptSwap n p 0 (n - 1)) = tsp.calculateFitness D n p := by
  have hlen : p.length = n := by rw [hp.length_eq, List.length_range]
  have hq : (twoOptSwap n p i j).Perm (List.range n) :=
    (twoOptSwap_perm n p i j hlen (by omega) hj).trans hp
  have hfull : (twoOptSwap n p 0 (n - 1)).Perm (List.range n) :=
    (twoOptSwap_perm n p 0 (n - 1) hlen (by omega) (by omega)).trans hp
  have hexact : ∀ q : List Nat, q.Perm (List.range n) →
      tsp.calculateFitness D n q = tsp.tourLength D n q := fun q hq =>
    tsp.calculateFitness_eq_tourLength_of_le D n M q (by omega) hq hint hbound
  refine ⟨?_, ?_, ?_, ?_⟩
  · show tsp.calculateFitness D n (tsp.createPermutation n _) = _
    rw [tsp.createPermutation_unique n _ _ hq (tsp.encode_sorted n _ dv (by omega) hq hdv)]
  · intro hn26
    show tsp.calculateFitness D n (tsp.createPermutation n _) = _
    rw [(tsp.encodeDouble_roundtrip n _ dv (by omega) hn26 hq hdv).1]
  · intro hne
    rw [hexact _ hq, hexact _ hp]
    exact tourLength_twoOptSwap D n p i j hp hsym hij hj hne
  · rw [hexact _ hfull, hexact _ hp, twoOptSwap_full n p (by omega) hlen]
    exact tsp.tourLength_reverse D n p (by omega) hp hsym

/-- C20, as stated, fails: with the distance matrix of the nodes `(0,0), (1,0),
(2^52+1, 0)`, which is symmetric, the solution that holds the tour `[0, 1, 2]` has the
fitness `2^53 + 2`, its neighbor `[0, 2, 1]` for the pair `(1, 2)` has the fitness `2^53`,
and `localSearch` replaces the solution by that neighbor. -/
theorem localSearch_small_fixed_counterexample :
    (TSPSolution.new (tsp.calculateDistances tsp.lineNodes 3) 3
        [1 / 8, 1 / 2, 7 / 8]).dimension = 3 ∧
      (TSPSolution.new (tsp.calculateDistances tsp.lineNodes 3) 3
        [1 / 8, 1 / 2, 7 / 8]).permutation = [0, 1, 2] ∧
      (TSPSolution.new (tsp.calculateDistances tsp.lineNodes 3) 3
        [1 / 8, 1 / 2, 7 / 8]).fitness = 9007199254740994 ∧
      (∀ a b, a < 3 → b < 3 →
        tsp.distAt (tsp.calculateDistances tsp.lineNodes 3) a b =
          tsp.distAt (tsp.calculateDistances tsp.lineNodes 3) b a) ∧
      (localSearch (tsp.calculateDistances tsp.lineNodes 3)
        (TSPSolution.new (tsp.calculateDistances tsp.lineNodes 3) 3
          [1 / 8, 1 / 2, 7 / 8])).permutation = [0, 2, 1] ∧
      (localSearch (tsp.calculateDistances tsp.lineNodes 3)
        (TSPSolution.new (tsp.calculateDistances tsp.lineNodes 3) 3
          [1 / 8, 1 / 2, 7 / 8])).fitness = 9007199254740992 ∧
      localSearch (tsp.calculateDistances tsp.lineNodes 3)
          (TSPSolution.new (tsp.calculateDistances tsp.lineNodes 3) 3 [1 / 8, 1 / 2, 7 / 8]) ≠
        TSPSolution.new (tsp.calculateDistances tsp.lineNodes 3) 3 [1 / 8, 1 / 2, 7 / 8] := by
  have hperm : (localSearch (tsp.calculateDistances tsp.lineNodes 3)
      (TSPSolution.new (tsp.calculateDistances tsp.lineNodes 3) 3
        [1 / 8, 1 / 2, 7 / 8])).permutation = [0, 2, 1] := by
    rw [tsp.lineNodes_distances]
    decide!
  refine ⟨rfl, by decide!, ?_, tsp.lineMatrix_symmetric, hperm, ?_, ?_⟩
  · rw [tsp.lineNodes_distances]
    decide!
  · rw [tsp.lineNodes_distances]
    decide!
  · intro h
    rw [h] at hperm
    exact absurd hperm (by decide!)

/-- C20, amended: small instances are fixed points where the additions are exact.  For a
symmetric distance matrix and a solution of dimension `1 ≤ n ≤ 3` that holds a
permutation of `{0, …, n-1}` with its fitness, and, when `n = 3`, distances that are
natural numbers at most `M` with `3 * M ≤ 2^53`, `localSearch` leaves decision vector,
permutation and fitness unchanged: for `n = 1` there is no pair `i < j < n`, and for
`n = 2` and `n = 3` every neighbor has the fitness of the current tour. -/
theorem localSearch_small_fixed (D : List (List tsp.encoding)) (n M : Nat) (s : TSPSolution)
    (hn1 : 1 ≤ n) (hn3 : n ≤ 3) (hdim : s.dimension = n)
    (hp : s.permutation.Perm (List.range n))
    (hfit : s.fitness = tsp.calculateFitness D n s.permutation)
    (hsym : ∀ a b, a < n → b < n → tsp.distAt D a b = tsp.distAt D b a)
    (hint : n = 3 → ∀ a b, a < n → b < n → ∃ k : Nat, tsp.distAt D a b = (k : ℚ) ∧ k ≤ M)
    (hbound : n = 3 → n * M ≤ 2 ^ 53) :
    localSearch D s = s ∧
      (n = 1 → ∀ i j, ¬ (i < j ∧ j < n)) ∧
      (∀ i j, i < j → j < n →
        tsp.calculateFitness D n (twoOptSwap n s.permutation i j) = s.fitness) := by
  have hlen : s.permutation.length = n := by rw [hp.length_eq, List.length_range]
  have hnb : ∀ i j, i < j → j < n →
      tsp.calculateFitness D n (twoOptSwap n s.permutation i j) = s.fitness := by
    intro i j hij hj
    rw [hfit]
    have hcases : n = 2 ∨ n = 3 := by omega
    rcases hcases with h2 | h3
    · subst h2
      have hi0 : i = 0 := by omega
      have hj1 : j = 1 := by omega
      subst hi0 hj1
      exact calculateFitness_twoOptSwap_two D s.permutation hp hsym
    · have hq : (twoOptSwap n s.permutation i j).Perm (List.range n) :=
        (twoOptSwap_perm n s.permutation i j hlen (by omega) hj).trans hp
      rw [tsp.calculateFitness_eq_tourLength_of_le D n M _ hn1 hq (hint h3) (hbound h3),
        tsp.calculateFitness_eq_tourLength_of_le D n M _ hn1 hp (hint h3) (hbound h3)]
      exact tourLength_twoOptSwap_small D n s.permutation i j hn3 hp hsym hij hj
  refine ⟨?_, fun h1 i j => by omega, hnb⟩
  rcases localSearch_eq D n s hn1 hdim hp with ⟨_, hsame⟩ | ⟨pre, c, post, hvis, _, _, hres⟩
  · exact hsame
  · have hc : c ∈ sweepPairs n := by rw [hvis]; simp
    have hcv := (mem_sweepPairs n c).mp hc
    rw [hnb c.1 c.2 hcv.1 hcv.2, if_neg (lt_irrefl _)] at hres
    exact hres

end TSPSolution

namespace TSPSolution

end TSPSolution

namespace TSPSolution

theorem squareMatrix_bounded :
    ∀ a b, a < 4 → b < 4 →
      ∃ k : Nat,
        tsp.distAt [[0, 2, 3, 2], [2, 0, 2, 3], [3, 2, 0, 2], [2, 3, 2, 0]] a b = (k : ℚ) ∧
          k ≤ 3 := by
  intro a b ha hb
  interval_cases a <;> interval_cases b <;>
    first
      | exact ⟨0, by decide!, by decide⟩
      | exact ⟨2, by decide!, by decide⟩
      | exact ⟨3, by decide!, by decide⟩

theorem twoOptSwap_delta_witness :
    3 ≤ 4 ∧ ([1, 3, 0, 2] : List Nat).Perm (List.range 4) ∧
      (∀ a b, a < 4 → b < 4 →
        tsp.distAt [[0, 2, 3, 2], [2, 0, 2, 3], [3, 2, 0, 2], [2, 3, 2, 0]] a b =
          tsp.distAt [[0, 2, 3, 2], [2, 0, 2, 3], [3, 2, 0, 2], [2, 3, 2, 0]] b a) ∧
      (∀ a b, a < 4 → b < 4 →
        ∃ k : Nat,
          tsp.distAt [[0, 2, 3, 2], [2, 0, 2, 3], [3, 2, 0, 2], [2, 3, 2, 0]] a b = (k : ℚ) ∧
            k ≤ 3) ∧
      4 * 3 ≤ 2 ^ 53 ∧
      ([0, 0, 0, 0] : List tsp.encoding).length = 4 ∧ 1 < 2 ∧ 2 < 4 ∧
      ((TSPSolution.new [[0, 2, 3, 2], [2, 0, 2, 3], [3, 2, 0, 2], [2, 3, 2, 0]] 4
          (tsp.encode (twoOptSwap 4 [1, 3, 0, 2] 1 2) [0, 0, 0, 0])).fitness =
          tsp.calculateFitness [[0, 2, 3, 2], [2, 0, 2, 3], [3, 2, 0, 2], [2, 3, 2, 0]] 4
            (twoOptSwap 4 [1, 3, 0, 2] 1 2) ∧
        (4 ≤ 2 ^ 26 →
          (TSPSolution.new [[0, 2, 3, 2], [2, 0, 2, 3], [3, 2, 0, 2], [2, 3, 2, 0]] 4
            (tsp.encodeDouble (twoOptSwap 4 [1, 3, 0, 2] 1 2) [0, 0, 0, 0])).fitness =
            tsp.calculateFitness [[0, 2, 3, 2], [2, 0, 2, 3], [3, 2, 0, 2], [2, 3, 2, 0]] 4
              (twoOptSwap 4 [1, 3, 0, 2] 1 2)) ∧
        (¬ (1 = 0 ∧ 2 = 4 - 1) →
          tsp.calculateFitness [[0, 2, 3, 2], [2, 0, 2, 3], [3, 2, 0, 2], [2, 3, 2, 0]] 4
              (twoOptSwap 4 [1, 3, 0, 2] 1 2) =
            tsp.calculateFitness [[0, 2, 3, 2], [2, 0, 2, 3], [3, 2, 0, 2], [2, 3, 2, 0]] 4
                [1, 3, 0, 2]
              - tsp.distAt [[0, 2, 3, 2], [2, 0, 2, 3], [3, 2, 0, 2], [2, 3, 2, 0]]
                  (([1, 3, 0, 2] : List Nat).getD ((1 + 4 - 1) % 4) 0)
                  (([1, 3, 0, 2] : List Nat).getD 1 0)
              - tsp.distAt [[0, 2, 3, 2], [2, 0, 2, 3], [3, 2, 0, 2], [2, 3, 2, 0]]
                  (([1, 3, 0, 2] : List Nat).getD 2 0)
                  (([1, 3, 0, 2] : List Nat).getD ((2 + 1) % 4) 0)
              + tsp.distAt [[0, 2, 3, 2], [2, 0, 2, 3], [3, 2, 0, 2], [2, 3, 2, 0]]
                  (([1, 3, 0, 2] : List Nat).getD ((1 + 4 - 1) % 4) 0)
                  (([1, 3, 0, 2] : List Nat).getD 2 0)
              + tsp.distAt [[0, 2, 3, 2], [2, 0, 2, 3], [3, 2, 0, 2], [2, 3, 2, 0]]
                  (([1, 3, 0, 2] : List Nat).getD 1 0)
                  (([1, 3, 0, 2] : List Nat).getD ((2 + 1) % 4) 0)) ∧
        tsp.calculateFitness [[0, 2, 3, 2], [2, 0, 2, 3], [3, 2, 0, 2], [2, 3, 2, 0]] 4
            (twoOptSwap 4 [1, 3, 0, 2] 0 (4 - 1)) =
          tsp.calculateFitness [[0, 2, 3, 2], [2, 0, 2, 3], [3, 2, 0, 2], [2, 3, 2, 0]] 4
            [1, 3, 0, 2]) :=
  ⟨by decide, by decide, tsp.squareMatrix_symmetric, squareMatrix_bounded, by decide, rfl,
    by decide, by decide,
    twoOptSwap_delta [[0, 2, 3, 2], [2, 0, 2, 3], [3, 2, 0, 2], [2, 3, 2, 0]] 4 3 [1, 3, 0, 2]
      [0, 0, 0, 0] 1 2 (by decide) (by decide) tsp.squareMatrix_symmetric squareMatrix_bounded
      (by decide) rfl (by decide) (by decide)⟩

theorem triangleMatrix_symmetric :
    ∀ a b, a < 3 → b < 3 →
      tsp.distAt [[0, 3, 4], [3, 0, 5], [4, 5, 0]] a b =
        tsp.distAt [[0, 3, 4], [3, 0, 5], [4, 5, 0]] b a := by
  intro a b ha hb
  interval_cases a <;> interval_cases b <;> rfl

theorem triangleMatrix_bounded :
    (3 : Nat) = 3 → ∀ a b, a < 3 → b < 3 →
      ∃ k : Nat, tsp.distAt [[0, 3, 4], [3, 0, 5], [4, 5, 0]] a b = (k : ℚ) ∧ k ≤ 5 := by
  intro _ a b ha hb
  interval_cases a <;> interval_cases b <;>
    first
      | exact ⟨0, by decide!, by decide⟩
      | exact ⟨3, by decide!, by decide⟩
      | exact ⟨4, by decide!, by decide⟩
      | exact ⟨5, by decide!, by decide⟩

theorem localSearch_small_fixed_witness :
    1 ≤ 3 ∧ 3 ≤ 3 ∧
      (TSPSolution.new [[0, 3, 4], [3, 0, 5], [4, 5, 0]] 3 [1 / 2, 1 / 10, 3 / 10]).dimension =
        3 ∧
      (TSPSolution.new [[0, 3, 4], [3, 0, 5], [4, 5, 0]] 3
        [1 / 2, 1 / 10, 3 / 10]).permutation.Perm (List.range 3) ∧
      (TSPSolution.new [[0, 3, 4], [3, 0, 5], [4, 5, 0]] 3 [1 / 2, 1 / 10, 3 / 10]).fitness =
        tsp.calculateFitness [[0, 3, 4], [3, 0, 5], [4, 5, 0]] 3
          (TSPSolution.new [[0, 3, 4], [3, 0, 5], [4, 5, 0]] 3
            [1 / 2, 1 / 10, 3 / 10]).permutation ∧
      (∀ a b, a < 3 → b < 3 →
        tsp.distAt [[0, 3, 4], [3, 0, 5], [4, 5, 0]] a b =
          tsp.distAt [[0, 3, 4], [3, 0, 5], [4, 5, 0]] b a) ∧
      ((3 : Nat) = 3 → ∀ a b, a < 3 → b < 3 →
        ∃ k : Nat, tsp.distAt [[0, 3, 4], [3, 0, 5], [4, 5, 0]] a b = (k : ℚ) ∧ k ≤ 5) ∧
      ((3 : Nat) = 3 → 3 * 5 ≤ 2 ^ 53) ∧
      (localSearch [[0, 3, 4], [3, 0, 5], [4, 5, 0]]
            (TSPSolution.new [[0, 3, 4], [3, 0, 5], [4, 5, 0]] 3 [1 / 2, 1 / 10, 3 / 10]) =
          TSPSolution.new [[0, 3, 4], [3, 0, 5], [4, 5, 0]] 3 [1 / 2, 1 / 10, 3 / 10] ∧
        ((3 : Nat) = 1 → ∀ i j, ¬ (i < j ∧ j < 3)) ∧
        (∀ i j, i < j → j < 3 →
          tsp.calculateFitness [[0, 3, 4], [3, 0, 5], [4, 5, 0]] 3
              (twoOptSwap 3
                (TSPSolution.new [[0, 3, 4], [3, 0, 5], [4, 5, 0]] 3
                  [1 / 2, 1 / 10, 3 / 10]).permutation i j) =
            (TSPSolution.new [[0, 3, 4], [3, 0, 5], [4, 5, 0]] 3
              [1 / 2, 1 / 10, 3 / 10]).fitness)) :=
  ⟨by decide, by decide, rfl, tsp.createPermutation_perm 3 _, rfl, triangleMatrix_symmetric,
    triangleMatrix_bounded, fun _ => by decide,
    localSearch_small_fixed [[0, 3, 4], [3, 0, 5], [4, 5, 0]] 3 5
      (TSPSolution.new [[0, 3, 4], [3, 0, 5], [4, 5, 0]] 3 [1 / 2, 1 / 10, 3 / 10])
      (by decide) (by decide) rfl (tsp.createPermutation_perm 3 _) rfl
      triangleMatrix_symmetric triangleMatrix_bounded (fun _ => by decide)⟩

end TSPSolution
